import Mathlib

/-!
# Grizzly (src/grizzly.c): a logic-grid puzzle solver

A puzzle is an `M × N` table of symbols.  Row 0 is fixed; every other row is
permuted.  A symbol is named by its coordinate `(row, original index)`.

The file embeds the two engines of `grizzly.c`:

* `brute`: the permutation backtracker with its checker `check`;
* `per_col_dlx`: the generator of candidate columns that fills an exact-cover
  matrix through `dlx_set` and `dlx_mark_optional`.

C arrays are lists.  A read outside an array is undefined in C; here it yields
the default `0` (resp. `(0, 0)`, `[]`), and the theorems carry the hypotheses under
which no such read happens.  Recursions that count up to a bound in C
(`f(m)` until `m == M-1`, `g(k)` until `k == N`, `f(i)` until `i == M`) recurse here
on the distance to the bound.
-/

namespace Grizzly

/-- The record `struct hint_s`: the clue type `cmd`, its arguments `coord`
(`coord[i][0]` is the table row and `coord[i][1]` the original index of symbol `i`;
the field `n` is the length of the list) and `dlx_col`, the base of the DLX-columns
of the clue, `0` while unassigned. -/
structure hint_s where
  cmd : Char
  coord : List (Nat × Nat)
  dlx_col : Nat
deriving DecidableEq, Repr

/-- The field `n` of a hint: the number of its symbols. -/
def hint_s.n (h : hint_s) : Nat := h.coord.length

/-- The function `swap_int(row + k, row + i)` on two cells of one array. -/
def swap_int (row : List Nat) (k i : Nat) : List Nat :=
  (row.set k (row.getD i 0)).set i (row.getD k 0)

/-! ## The brute-force engine -/

namespace brute

/-- The nested function `get(m, n)`: the original index of the symbol of table row `m`
that stands in final column `n`; `perm[m-1]` is the permutation of row `m`. -/
def get (perm : List (List Nat)) (m n : Nat) : Nat :=
  if m ≠ 0 then (perm.getD (m - 1) []).getD n 0 else n

/-- The nested function `has(i, n)`: symbol `i` of the hint stands in column `n`. -/
def has (perm : List (List Nat)) (h : hint_s) (i n : Nat) : Bool :=
  get perm (h.coord.getD i (0, 0)).1 n == (h.coord.getD i (0, 0)).2

/-- The inner loop `t = 0; F(i, cnt) t += has(i, n)`. -/
def tally (perm : List (List Nat)) (h : hint_s) (cnt n : Nat) : Nat :=
  (List.range cnt).foldl (fun t i => t + (has perm h i n).toNat) 0

/-- The nested function `matchmax()`: the largest number of hint symbols in one column. -/
def matchmax (N : Nat) (perm : List (List Nat)) (h : hint_s) : Nat :=
  (List.range N).foldl
    (fun count n => if count < tally perm h h.n n then tally perm h h.n n else count) 0

/-- The nested function `col(i)`: the first column holding symbol `i`;
`none` stands for `die("unreachable")`. -/
def col (N : Nat) (perm : List (List Nat)) (h : hint_s) (i : Nat) : Option Nat :=
  (List.range N).find? (fun n => has perm h i n)

/-- The body of `case 'p'` of `check`: some column holds symbols 0 and 1, or symbols 2 and
3, or a number `t` of the four with `(t | 2) != 2`. -/
def checkP (N : Nat) (perm : List (List Nat)) (h : hint_s) : Bool :=
  (List.range N).any (fun n =>
    (has perm h 0 n && has perm h 1 n) || (has perm h 2 n && has perm h 3 n) ||
      ((tally perm h 4 n) ||| 2) != 2)

/-- The nested function `check(h)`: `some true` when the hint is violated (nonzero return),
`some false` when it is not (return 0), `none` when `die` is reached.  In `case 'i'` the
loop returns inside the first column that holds symbol 0; without such a column control
falls through into `case 'p'`. -/
def check (N : Nat) (perm : List (List Nat)) (h : hint_s) : Option Bool :=
  match h.cmd with
  | '=' => some (decide (matchmax N perm h < h.n))
  | '!' => some (decide (matchmax N perm h > 1))
  | '^' =>
    some (decide ((List.range N).foldl
      (fun count n => count + (decide (tally perm h h.n n ≥ 2)).toNat) 0 > 1))
  | '<' => do
    let c0 ← col N perm h 0
    let c1 ← col N perm h 1
    pure (decide (c0 ≥ c1))
  | '>' => do
    let c0 ← col N perm h 0
    let c1 ← col N perm h 1
    pure (decide (c0 ≤ c1))
  | '1' => do
    let c0 ← col N perm h 0
    let c1 ← col N perm h 1
    pure (decide (c0 + 1 ≠ c1))
  | 'A' => do
    let c0 ← col N perm h 0
    let c1 ← col N perm h 1
    pure (decide (((c0 : Int) - (c1 : Int)).natAbs ≠ 1))
  | 'i' =>
    match (List.range N).find? (fun n => has perm h 0 n) with
    | some n => some (!((List.range' 1 (h.n - 1)).any (fun i => has perm h i n)))
    | none => some (checkP N perm h)
  | 'p' => some (checkP N perm h)
  | 'X' =>
    some (decide ((List.range N).foldl
      (fun count n => (List.range (h.n / 2)).foldl
        (fun count i => count + (has perm h (2 * i) n && has perm h (2 * i + 1) n).toNat)
        count) 0 > 1))
  | _ => some false

/-- The loop `F(i, hint_n) if (check(hint[i])) return;` at the leaf: `some true` when some
hint rejects the grid, `some false` when every check returned 0, `none` when `die` ended
the process first. -/
def rejected (N : Nat) (perm : List (List Nat)) : List hint_s → Option Bool
  | [] => some false
  | h :: hs =>
    match check N perm h with
    | none => none
    | some true => some true
    | some false => rejected N perm hs

/-- The state of a run of `brute`: the array `perm`, the grids printed so far, and two
pieces of bookkeeping: `visited` lists the contents of `perm` at each arrival at the leaf
(`m == M-1`), and `dead` records that `die` has ended the process, after which nothing
is visited or printed. -/
structure State where
  perm : List (List Nat)
  visited : List (List (List Nat))
  printed : List (List (List Nat))
  dead : Bool
deriving DecidableEq, Repr

/-- The base case `m == M-1` of `f`: check every hint, print the grid if none rejects. -/
def leaf (N : Nat) (hint : List hint_s) (st : State) : State :=
  if st.dead then st
  else
    match rejected N st.perm hint with
    | none => { st with visited := st.visited ++ [st.perm], dead := true }
    | some true => { st with visited := st.visited ++ [st.perm] }
    | some false =>
      { st with visited := st.visited ++ [st.perm], printed := st.printed ++ [st.perm] }

/-- The call `swap_int(perm[m] + k, perm[m] + i)`. -/
def swapRow (perm : List (List Nat)) (m k i : Nat) : List (List Nat) :=
  perm.set m (swap_int (perm.getD m []) k i)

/-- The nested function `g(k)` of row `m`, with `k = N - rem`; `next` is the call
`f(m + 1)` of the base case `k == N`. -/
def g (N m : Nat) (next : State → State) : Nat → State → State
  | 0, st => next st
  | rem + 1, st =>
    (List.range' (N - (rem + 1)) (N - (N - (rem + 1)))).foldl
      (fun st i =>
        let st1 := { st with perm := swapRow st.perm m (N - (rem + 1)) i }
        let st2 := g N m next rem st1
        { st2 with perm := swapRow st2.perm m (N - (rem + 1)) i })
      st

/-- The nested function `f(m)`, with `m = M - 1 - rem`. -/
def f (M N : Nat) (hint : List hint_s) : Nat → State → State
  | 0, st => leaf N hint st
  | rem + 1, st => g N (M - 1 - (rem + 1)) (f M N hint rem) N st

/-- The initial state: `F(m, M-1) F(n, N) perm[m][n] = n`. -/
def init (M N : Nat) : State :=
  { perm := List.replicate (M - 1) (List.range N), visited := [], printed := [], dead := false }

end brute

/-- The function `brute(M, N, sym, hint_n, hint)`: the run `f(0)` from the identity
permutations. -/
def brute (M N : Nat) (hint : List hint_s) : brute.State :=
  brute.f M N hint (M - 1) (brute.init M N)

/-! ## The exact-cover engine -/

/-- Modelled from the spec: the exact-cover matrix behind `dlx.h`, whose code is not part
of the sources.  It is a 0/1 matrix: `cells` lists the positions `(row, column)` that hold
a 1, and `optional` lists the columns marked as secondary (covered at most once); every
other column must be covered exactly once. -/
structure dlx_t where
  cells : List (Nat × Nat)
  optional : List Nat
deriving DecidableEq, Repr

/-- Modelled from the spec: `dlx_new()` of `dlx.h`, the empty matrix. -/
def dlx_new : dlx_t := { cells := [], optional := [] }

/-- Modelled from the spec: `dlx_set(dlx, row, col)` of `dlx.h` puts a 1 at `(row, col)`. -/
def dlx_set (d : dlx_t) (row col : Nat) : dlx_t :=
  { d with cells := (row, col) :: d.cells }

/-- Modelled from the spec: `dlx_mark_optional(dlx, col)` of `dlx.h` makes column `col`
secondary. -/
def dlx_mark_optional (d : dlx_t) (col : Nat) : dlx_t :=
  { d with optional := col :: d.optional }

/-- Row `r` of the matrix has a 1 in column `c`. -/
def dlx_t.bit (d : dlx_t) (r c : Nat) : Bool := decide ((r, c) ∈ d.cells)

namespace per_col_dlx

/-- The nested function `has(h, i)`: the candidate column `a` holds symbol `i` of `h`. -/
def has (a : List Nat) (h : hint_s) (i : Nat) : Bool :=
  a.getD (h.coord.getD i (0, 0)).1 0 == (h.coord.getD i (0, 0)).2

/-- The nested function `match(h)`: how many symbols of `h` the candidate holds. -/
def match_ (a : List Nat) (h : hint_s) : Nat :=
  (List.range h.n).foldl (fun t i => t + (has a h i).toNat) 0

/-- The nested function `anon(h)`: nonzero when `h` disqualifies the candidate `a`. -/
def anon (a : List Nat) (h : hint_s) : Bool :=
  match h.cmd with
  | 'p' => (has a h 0 && has a h 1) || (has a h 2 && has a h 3) || (match_ a h ||| 2) != 2
  | '=' => match_ a h == 1
  | '<' => decide (match_ a h > 1)
  | '1' => decide (match_ a h > 1)
  | 'A' => decide (match_ a h > 1)
  | '!' => decide (match_ a h > 1)
  | 'i' => has a h 0 && (match_ a h ||| 2) != 2
  | _ => false

/-- The nested function `assign_dlx_col(h)`: on first use the hint gets the next `N`
DLX-columns, all marked optional.  The triple is `(h, dlx, dlxN)`. -/
def assign_dlx_col (N : Nat) (s : hint_s × dlx_t × Nat) : hint_s × dlx_t × Nat :=
  if s.1.dlx_col = 0 then
    (List.range N).foldl (fun t _ => (t.1, dlx_mark_optional t.2.1 t.2.2, t.2.2 + 1))
      ({ s.1 with dlx_col := s.2.2 }, s.2.1, s.2.2)
  else s

/-- The two lines of cases `^` and `X`: on first use the hint gets one DLX-column, marked
optional. -/
def assign_one (s : hint_s × dlx_t × Nat) : hint_s × dlx_t × Nat :=
  if s.1.dlx_col = 0 then
    ({ s.1 with dlx_col := s.2.2 }, dlx_mark_optional s.2.1 s.2.2, s.2.2 + 1)
  else s

/-- The nested function `opthints(h)` for the DLX-row `row` of candidate `a`: the optional
columns the row sets for hint `h`.  The triple is `(h, dlx, dlxN)`. -/
def opthints (N : Nat) (a : List Nat) (row : Nat) (s : hint_s × dlx_t × Nat) :
    hint_s × dlx_t × Nat :=
  match s.1.cmd with
  | '1' =>
    let t := assign_dlx_col N s
    let d1 := if has a t.1 0 then
        (List.range N).foldl
          (fun d k => if k = a.getD 0 0 + 1 then d else dlx_set d row (t.1.dlx_col + k)) t.2.1
      else t.2.1
    let d2 := if has a t.1 1 then dlx_set d1 row (t.1.dlx_col + a.getD 0 0) else d1
    (t.1, d2, t.2.2)
  | 'A' =>
    let t := assign_dlx_col N s
    let d1 := if has a t.1 0 then
        (List.range N).foldl
          (fun d (k : Nat) => if ((k : Int) - (a.getD 0 0 : Int)).natAbs = 1 then d
            else dlx_set d row (t.1.dlx_col + k)) t.2.1
      else t.2.1
    let d2 := if has a t.1 1 then dlx_set d1 row (t.1.dlx_col + a.getD 0 0) else d1
    (t.1, d2, t.2.2)
  | '<' =>
    let t := assign_dlx_col N s
    let d1 := if has a t.1 0 then
        (List.range (a.getD 0 0 + 1)).foldl (fun d k => dlx_set d row (t.1.dlx_col + k)) t.2.1
      else t.2.1
    let d2 := if has a t.1 1 then
        (List.range' (a.getD 0 0) (N - a.getD 0 0)).foldl
          (fun d k => dlx_set d row (t.1.dlx_col + k)) d1
      else d1
    (t.1, d2, t.2.2)
  | '^' =>
    let t := assign_one s
    let count := (List.range t.1.n).foldl (fun c k => c + (has a t.1 k).toNat) 0
    let d1 := if count ≥ 2 then dlx_set t.2.1 row t.1.dlx_col else t.2.1
    (t.1, d1, t.2.2)
  | 'X' =>
    let t := assign_one s
    let d1 := (List.range (t.1.n / 2)).foldl
      (fun d k => if has a t.1 (2 * k) && has a t.1 (2 * k + 1) then dlx_set d row t.1.dlx_col
        else d) t.2.1
    (t.1, d1, t.2.2)
  | _ => s

/-- The loop `F(i, hint_n) opthints(hint[i])`: the hints are updated in place, the matrix
and the counter `dlxN` are threaded through. -/
def opthintsAll (N : Nat) (a : List Nat) (row : Nat) :
    List hint_s → dlx_t × Nat → List hint_s × dlx_t × Nat
  | [], s => ([], s)
  | h :: hs, s =>
    let t := opthints N a row (h, s)
    let r := opthintsAll N a row hs t.2
    (t.1 :: r.1, r.2)

/-- The variables of `per_col_dlx` that outlive a candidate: the matrix, the number `dlxM`
of DLX-rows, the number `dlxN` of DLX-columns, the array `dlx_a` of the candidates that
became DLX-rows, and the hints (whose `dlx_col` is assigned during the run). -/
structure State where
  dlx : dlx_t
  dlxM : Nat
  dlxN : Nat
  dlx_a : List (List Nat)
  hint : List hint_s
deriving DecidableEq, Repr

/-- The base case `i == M` of `f`: skip the candidate `a` if some hint disqualifies it,
otherwise record it as DLX-row `dlxM`, set its `M` symbol columns and its optional
columns. -/
def leaf (M N : Nat) (a : List Nat) (st : State) : State :=
  if st.hint.any (fun h => anon a h) then st
  else
    let d := (List.range M).foldl (fun d k => dlx_set d st.dlxM (N * k + a.getD k 0)) st.dlx
    let r := opthintsAll N a st.dlxM st.hint (d, st.dlxN)
    { dlx := r.2.1, dlxM := st.dlxM + 1, dlxN := r.2.2,
      dlx_a := st.dlx_a ++ [(List.range M).map (fun i => a.getD i 0)], hint := r.1 }

/-- The nested function `f(i)`, with `i = M - rem`: the loop `F(k, N) { a[i] = k; f(i+1); }`
and the base case. -/
def f (M N : Nat) : Nat → List Nat → State → State
  | 0, a, st => leaf M N a st
  | rem + 1, a, st =>
    (List.range N).foldl (fun st k => f M N rem (a.set (M - (rem + 1)) k) st) st

/-- The state before `f(0)`: an empty matrix, `dlxM = 0`, `dlxN = M * N`. -/
def init (M N : Nat) (hint : List hint_s) : State :=
  { dlx := dlx_new, dlxM := 0, dlxN := M * N, dlx_a := [], hint := hint }

end per_col_dlx

/-- The function `per_col_dlx(M, N, sym, hint_n, hint)` up to the call of the solver: the
exact-cover instance built by `f(0)`.  The array `a` is uninitialised in C and every cell
is written before the base case reads it; it starts here as zeros. -/
def per_col_dlx (M N : Nat) (hint : List hint_s) : per_col_dlx.State :=
  per_col_dlx.f M N M (List.replicate M 0) (per_col_dlx.init M N hint)

/-- How many of the selected DLX-rows `S` have a 1 in column `c`. -/
def coverCount (d : dlx_t) (S : List Nat) (c : Nat) : Nat :=
  S.countP (fun r => d.bit r c)

/-- Modelled from the spec: what the solver of `dlx.h` enumerates.  A set `S` of DLX-rows of
the instance is an exact cover when each of the `M * N` primary columns is set by exactly
one row of `S` and each optional column by at most one. -/
def isExactCover (M N : Nat) (st : per_col_dlx.State) (S : List Nat) : Prop :=
  S.Nodup ∧ (∀ r ∈ S, r < st.dlxM) ∧
    (∀ c < M * N, coverCount st.dlx S c = 1) ∧
    (∀ c ∈ st.dlx.optional, coverCount st.dlx S c ≤ 1)

instance (M N : Nat) (st : per_col_dlx.State) (S : List Nat) :
    Decidable (isExactCover M N st S) := by
  unfold isExactCover; infer_instance

/-- The grid read off a set of DLX-rows: the candidate with `a[0] = n` is final column `n`,
so `perm` is that grid when every selected candidate `a` has `a[k] = get(k, a[0])`. -/
def describes (M : Nat) (st : per_col_dlx.State) (S : List Nat) (perm : List (List Nat)) :
    Prop :=
  ∀ r ∈ S, ∀ k < M,
    (st.dlx_a.getD r []).getD k 0 = brute.get perm k ((st.dlx_a.getD r []).getD 0 0)

instance (M : Nat) (st : per_col_dlx.State) (S : List Nat) (perm : List (List Nat)) :
    Decidable (describes M st S perm) := by
  unfold describes; infer_instance

/-- A table of `M - 1` permuted rows with `N` entries each. -/
def isTable (M N : Nat) (perm : List (List Nat)) : Prop :=
  perm.length = M - 1 ∧ ∀ row ∈ perm, row.length = N

instance (M N : Nat) (perm : List (List Nat)) : Decidable (isTable M N perm) := by
  unfold isTable; infer_instance

/-- The grids of the exact-cover engine: `perm` is the grid of some exact cover. -/
def dlxAccepts (M N : Nat) (hint : List hint_s) (perm : List (List Nat)) : Prop :=
  isTable M N perm ∧
    ∃ S, isExactCover M N (per_col_dlx M N hint) S ∧ describes M (per_col_dlx M N hint) S perm

/-! ## The documented meaning of the hints

The table of the constraint language at the head of `grizzly.c`, stated over a grid and
independently of `check`, `anon` and `opthints`. -/

namespace Meaning

/-- Symbol `i` of the hint, as a coordinate `(row, original index)`. -/
def sym (h : hint_s) (i : Nat) : Nat × Nat := h.coord.getD i (0, 0)

/-- The symbol `s` stands in final column `n` of the grid. -/
def inColumn (perm : List (List Nat)) (s : Nat × Nat) (n : Nat) : Prop :=
  brute.get perm s.1 n = s.2

instance (perm : List (List Nat)) (s : Nat × Nat) (n : Nat) : Decidable (inColumn perm s n) := by
  unfold inColumn; infer_instance

/-- The symbols `s` and `t` lie in the same column. -/
def shareColumn (N : Nat) (perm : List (List Nat)) (s t : Nat × Nat) : Prop :=
  ∃ n < N, inColumn perm s n ∧ inColumn perm t n

instance (N : Nat) (perm : List (List Nat)) (s t : Nat × Nat) :
    Decidable (shareColumn N perm s t) := by
  unfold shareColumn; infer_instance

/-- How many of the first `cnt` symbols of the hint column `n` contains. -/
def inColumnCount (perm : List (List Nat)) (h : hint_s) (cnt n : Nat) : Nat :=
  ((List.range cnt).filter (fun i => decide (inColumn perm (sym h i) n))).length

/-- The columns of `s` and `t` stand in the relation `rel` (on column numbers). -/
def columnsRelated (N : Nat) (perm : List (List Nat)) (s t : Nat × Nat)
    (rel : Nat → Nat → Bool) : Prop :=
  ∃ n0 < N, ∃ n1 < N, inColumn perm s n0 ∧ inColumn perm t n1 ∧ rel n0 n1 = true

instance (N : Nat) (perm : List (List Nat)) (s t : Nat × Nat) (rel : Nat → Nat → Bool) :
    Decidable (columnsRelated N perm s t rel) := by
  unfold columnsRelated; infer_instance

/-- `!`: the given symbols lie in distinct columns. -/
def distinct (N : Nat) (perm : List (List Nat)) (h : hint_s) : Prop :=
  ∀ i < h.n, ∀ j < h.n, i ≠ j → ¬ shareColumn N perm (sym h i) (sym h j)

/-- `=`: the given symbols lie in the same column. -/
def same (N : Nat) (perm : List (List Nat)) (h : hint_s) : Prop :=
  ∀ i < h.n, ∀ j < h.n, shareColumn N perm (sym h i) (sym h j)

/-- `<`: the column of the 1st symbol lies left of the column of the 2nd symbol. -/
def leftOf (N : Nat) (perm : List (List Nat)) (h : hint_s) : Prop :=
  columnsRelated N perm (sym h 0) (sym h 1) (fun n0 n1 => decide (n0 < n1))

/-- `>`: the column of the 1st symbol lies right of the column of the 2nd symbol. -/
def rightOf (N : Nat) (perm : List (List Nat)) (h : hint_s) : Prop :=
  columnsRelated N perm (sym h 0) (sym h 1) (fun n0 n1 => decide (n1 < n0))

/-- `A`: the column of the 1st symbol is adjacent to the column of the 2nd symbol. -/
def adjacent (N : Nat) (perm : List (List Nat)) (h : hint_s) : Prop :=
  columnsRelated N perm (sym h 0) (sym h 1) (fun n0 n1 => decide (n0 + 1 = n1 ∨ n1 + 1 = n0))

/-- `1`: the column of the 1st symbol lies one to the left of the column of the 2nd. -/
def oneLeftOf (N : Nat) (perm : List (List Nat)) (h : hint_s) : Prop :=
  columnsRelated N perm (sym h 0) (sym h 1) (fun n0 n1 => decide (n0 + 1 = n1))

/-- `i`: the column of the 1st symbol contains exactly one of the following symbols. -/
def exactlyOne (N : Nat) (perm : List (List Nat)) (h : hint_s) : Prop :=
  ((List.range' 1 (h.n - 1)).filter
    (fun i => decide (shareColumn N perm (sym h 0) (sym h i)))).length = 1

/-- `^`: at most one column contains 2 or more of the given symbols. -/
def atMostOneCrowded (N : Nat) (perm : List (List Nat)) (h : hint_s) : Prop :=
  ((List.range N).filter (fun n => decide (2 ≤ inColumnCount perm h h.n n))).length ≤ 1

/-- `p`: the first 2 symbols lie in distinct columns; the next 2 symbols lie in distinct
columns; each column contains exactly 0 or 2 of these 4 symbols. -/
def paired (N : Nat) (perm : List (List Nat)) (h : hint_s) : Prop :=
  ¬ shareColumn N perm (sym h 0) (sym h 1) ∧ ¬ shareColumn N perm (sym h 2) (sym h 3) ∧
    ∀ n < N, inColumnCount perm h 4 n = 0 ∨ inColumnCount perm h 4 n = 2

/-- `X`: group the symbols in pairs; at most one of these pairs lies in the same column. -/
def atMostOnePair (N : Nat) (perm : List (List Nat)) (h : hint_s) : Prop :=
  ((List.range (h.n / 2)).filter
    (fun i => decide (shareColumn N perm (sym h (2 * i)) (sym h (2 * i + 1))))).length ≤ 1

instance (N : Nat) (perm : List (List Nat)) (h : hint_s) : Decidable (distinct N perm h) := by
  unfold distinct; infer_instance

instance (N : Nat) (perm : List (List Nat)) (h : hint_s) : Decidable (same N perm h) := by
  unfold same; infer_instance

instance (N : Nat) (perm : List (List Nat)) (h : hint_s) : Decidable (leftOf N perm h) := by
  unfold leftOf; infer_instance

instance (N : Nat) (perm : List (List Nat)) (h : hint_s) : Decidable (rightOf N perm h) := by
  unfold rightOf; infer_instance

instance (N : Nat) (perm : List (List Nat)) (h : hint_s) : Decidable (adjacent N perm h) := by
  unfold adjacent; infer_instance

instance (N : Nat) (perm : List (List Nat)) (h : hint_s) : Decidable (oneLeftOf N perm h) := by
  unfold oneLeftOf; infer_instance

instance (N : Nat) (perm : List (List Nat)) (h : hint_s) : Decidable (exactlyOne N perm h) := by
  unfold exactlyOne; infer_instance

instance (N : Nat) (perm : List (List Nat)) (h : hint_s) : Decidable (atMostOneCrowded N perm h) := by
  unfold atMostOneCrowded; infer_instance

instance (N : Nat) (perm : List (List Nat)) (h : hint_s) : Decidable (paired N perm h) := by
  unfold paired; infer_instance

instance (N : Nat) (perm : List (List Nat)) (h : hint_s) : Decidable (atMostOnePair N perm h) := by
  unfold atMostOnePair; infer_instance

/-- The meaning of a hint on a grid, by its type. -/
def holds (N : Nat) (perm : List (List Nat)) (h : hint_s) : Prop :=
  match h.cmd with
  | '!' => distinct N perm h
  | '=' => same N perm h
  | '<' => leftOf N perm h
  | '>' => rightOf N perm h
  | 'A' => adjacent N perm h
  | '1' => oneLeftOf N perm h
  | 'i' => exactlyOne N perm h
  | '^' => atMostOneCrowded N perm h
  | 'p' => paired N perm h
  | 'X' => atMostOnePair N perm h
  | _ => True

instance (N : Nat) (perm : List (List Nat)) (h : hint_s) : Decidable (holds N perm h) := by
  unfold holds
  split <;> infer_instance

end Meaning

/-- A grid: `M - 1` permuted rows, each a permutation of `0 .. N-1`. -/
def isGrid (M N : Nat) (perm : List (List Nat)) : Prop :=
  perm.length = M - 1 ∧ ∀ row ∈ perm, List.Perm row (List.range N)

instance (M N : Nat) (perm : List (List Nat)) : Decidable (isGrid M N perm) := by
  unfold isGrid; infer_instance

/-- Every symbol of the hint lies inside the `M × N` table. -/
def inGrid (M N : Nat) (h : hint_s) : Prop :=
  ∀ s ∈ h.coord, s.1 < M ∧ s.2 < N

instance (M N : Nat) (h : hint_s) : Decidable (inGrid M N h) := by
  unfold inGrid; infer_instance

/-- The arity of a hint fits its type: 2 symbols for `<`, `>`, `A`, `1`; 4 for `p`; an even
number for `X`. -/
def arityOk (h : hint_s) : Prop :=
  match h.cmd with
  | '<' => h.n = 2
  | '>' => h.n = 2
  | 'A' => h.n = 2
  | '1' => h.n = 2
  | 'p' => h.n = 4
  | 'X' => h.n % 2 = 0
  | _ => True

instance (h : hint_s) : Decidable (arityOk h) := by
  unfold arityOk; split <;> infer_instance

/-- The grids of the brute-force engine: the permutation tuples on which `check` returns 0
for every hint. -/
def bruteAccepts (M N : Nat) (hint : List hint_s) (perm : List (List Nat)) : Prop :=
  isGrid M N perm ∧ brute.rejected N perm hint = some false

instance (M N : Nat) (hint : List hint_s) (perm : List (List Nat)) :
    Decidable (bruteAccepts M N hint perm) := by
  unfold bruteAccepts; infer_instance

/-- What holds of the state throughout a run of `brute`: `perm` is a grid, every visited
leaf was a grid, and every printed grid was accepted by the checks. -/
def bruteInv (M N : Nat) (hint : List hint_s) (st : brute.State) : Prop :=
  isGrid M N st.perm ∧ (∀ p ∈ st.visited, isGrid M N p) ∧
    (∀ p ∈ st.printed, bruteAccepts M N hint p)

/-- All lists of `d` entries below `N`, in lexicographic order: the values that `d` nested
loops `F(k, N)` give to `d` consecutive cells of the array `a`. -/
def tuples (N : Nat) : Nat → List (List Nat)
  | 0 => [[]]
  | d + 1 => (List.range N).flatMap (fun k => (tuples N d).map (fun t => k :: t))

/-- The hint is of a type for which `opthints` sets optional DLX-columns. -/
def per_col_dlx.usesCols (h : hint_s) : Prop :=
  h.cmd = '1' ∨ h.cmd = 'A' ∨ h.cmd = '<' ∨ h.cmd = '^' ∨ h.cmd = 'X'

instance (h : hint_s) : Decidable (per_col_dlx.usesCols h) := by
  unfold per_col_dlx.usesCols; infer_instance

/-- The number of optional DLX-columns of a hint: `N` for `1`, `A`, `<`; one for `^`, `X`. -/
def per_col_dlx.width (N : Nat) (h : hint_s) : Nat :=
  if h.cmd = '1' ∨ h.cmd = 'A' ∨ h.cmd = '<' then N
  else if h.cmd = '^' ∨ h.cmd = 'X' then 1 else 0

/-- The next `opthints` will assign the DLX-columns of the hint. -/
def per_col_dlx.fresh (h : hint_s) : Prop := per_col_dlx.usesCols h ∧ h.dlx_col = 0

instance (h : hint_s) : Decidable (per_col_dlx.fresh h) := by
  unfold per_col_dlx.fresh; infer_instance

/-- The hint after `opthints` when the counter `dlxN` stands at `n`. -/
def per_col_dlx.settle (n : Nat) (h : hint_s) : hint_s :=
  if per_col_dlx.fresh h then { h with dlx_col := n } else h

/-- The counter `dlxN` after `opthints` on the hint. -/
def per_col_dlx.bump (N n : Nat) (h : hint_s) : Nat :=
  if per_col_dlx.fresh h then n + per_col_dlx.width N h else n

/-- The hints after the loop `F(i, hint_n) opthints(hint[i])` started with `dlxN = n`. -/
def per_col_dlx.settleAll (N : Nat) : Nat → List hint_s → List hint_s
  | _, [] => []
  | n, h :: hs => per_col_dlx.settle n h :: per_col_dlx.settleAll N (per_col_dlx.bump N n h) hs

/-- The counter `dlxN` after the loop `F(i, hint_n) opthints(hint[i])`. -/
def per_col_dlx.bumpAll (N : Nat) : Nat → List hint_s → Nat
  | n, [] => n
  | n, h :: hs => per_col_dlx.bumpAll N (per_col_dlx.bump N n h) hs

/-- The columns marked optional by the loop `F(i, hint_n) opthints(hint[i])`. -/
def per_col_dlx.newCols (N : Nat) : Nat → List hint_s → Nat → Prop
  | _, [], _ => False
  | n, h :: hs, c =>
    (per_col_dlx.fresh h ∧ n ≤ c ∧ c < n + per_col_dlx.width N h) ∨
      per_col_dlx.newCols N (per_col_dlx.bump N n h) hs c

/-- The DLX-row of candidate `a` sets the optional column `c` for the hint `h` (whose
`dlx_col` is assigned). -/
def per_col_dlx.optSet (N : Nat) (a : List Nat) (h : hint_s) (c : Nat) : Prop :=
  match h.cmd with
  | '1' =>
    (per_col_dlx.has a h 0 = true ∧ ∃ k < N, k ≠ a.getD 0 0 + 1 ∧ c = h.dlx_col + k) ∨
      (per_col_dlx.has a h 1 = true ∧ c = h.dlx_col + a.getD 0 0)
  | 'A' =>
    (per_col_dlx.has a h 0 = true ∧
        ∃ k < N, ((k : Int) - (a.getD 0 0 : Int)).natAbs ≠ 1 ∧ c = h.dlx_col + k) ∨
      (per_col_dlx.has a h 1 = true ∧ c = h.dlx_col + a.getD 0 0)
  | '<' =>
    (per_col_dlx.has a h 0 = true ∧ ∃ k, k ≤ a.getD 0 0 ∧ c = h.dlx_col + k) ∨
      (per_col_dlx.has a h 1 = true ∧ ∃ k, a.getD 0 0 ≤ k ∧ k < N ∧ c = h.dlx_col + k)
  | '^' => 2 ≤ per_col_dlx.match_ a h ∧ c = h.dlx_col
  | 'X' =>
    (∃ k < h.n / 2, per_col_dlx.has a h (2 * k) = true ∧ per_col_dlx.has a h (2 * k + 1) = true) ∧
      c = h.dlx_col
  | _ => False

/-- The DLX-row of candidate `a` sets the symbol column `c`: `c = N*k + a[k]` for a table
row `k`. -/
def per_col_dlx.symCol (M N : Nat) (a : List Nat) (c : Nat) : Prop :=
  ∃ k < M, c = N * k + a.getD k 0

/-- No hint disqualifies the candidate `a`. -/
def per_col_dlx.survives (hint : List hint_s) (a : List Nat) : Bool :=
  !(hint.any (fun h => per_col_dlx.anon a h))

/-- The candidates that become DLX-rows, in the order of their generation. -/
def per_col_dlx.survivors (M N : Nat) (hint : List hint_s) : List (List Nat) :=
  (tuples N M).filter (per_col_dlx.survives hint)

/-- The DLX-row of candidate `a` sets column `c`, given the hints `H` with their assigned
`dlx_col`. -/
def per_col_dlx.rowSets (M N : Nat) (H : List hint_s) (a : List Nat) (c : Nat) : Prop :=
  per_col_dlx.symCol M N a c ∨ ∃ h ∈ H, per_col_dlx.optSet N a h c

/-- The state of `per_col_dlx` after the candidates that gave the DLX-rows `s`. -/
def per_col_dlx.Built (M N : Nat) (hint : List hint_s) (s : List (List Nat))
    (st : per_col_dlx.State) : Prop :=
  st.dlx_a = s ∧ st.dlxM = s.length ∧
    (s = [] → st = per_col_dlx.init M N hint) ∧
    (s ≠ [] →
      st.hint = per_col_dlx.settleAll N (M * N) hint ∧
      st.dlxN = per_col_dlx.bumpAll N (M * N) hint ∧
      (∀ x, x ∈ st.dlx.cells ↔
        ∃ a, s[x.1]? = some a ∧
          per_col_dlx.rowSets M N (per_col_dlx.settleAll N (M * N) hint) a x.2) ∧
      (∀ c, c ∈ st.dlx.optional ↔ per_col_dlx.newCols N (M * N) hint c))

/-- The loop `F(k, 2) swap_int(h->coord[0] + k, h->coord[1] + k)` of `main`: component `k`
of the first two coordinates is exchanged, for `k = 0` and then `k = 1`. -/
def swapCoords (coord : List (Nat × Nat)) : List (Nat × Nat) :=
  let c0 := coord.getD 0 (0, 0)
  let c1 := coord.getD 1 (0, 0)
  let d0 : Nat × Nat := (c1.1, c0.2)
  let d1 : Nat × Nat := (c0.1, c1.2)
  let e0 : Nat × Nat := (d0.1, d1.2)
  let e1 : Nat × Nat := (d1.1, d0.2)
  (coord.set 0 e0).set 1 e1

/-- The rewrite of a `>` hint at the end of the loop of `main` that reads one constraint:
`none` stands for `die("inequality must have exactly 2 fields")`. -/
def normalize (h : hint_s) : Option hint_s :=
  if h.cmd = '>' then
    if h.n ≠ 2 then none
    else some { h with cmd := '<', coord := swapCoords h.coord }
  else some h

/-- The hints as `main` hands them to the engine: each constraint is normalized when it is
read, and `die` ends the process at the first `>` without exactly two symbols. -/
def load : List hint_s → Option (List hint_s)
  | [] => some []
  | h :: hs =>
    match normalize h with
    | none => none
    | some h1 =>
      match load hs with
      | none => none
      | some hs1 => some (h1 :: hs1)

/-- Final column `n` of a grid as a candidate: its entry `k` is `get(k, n)`. -/
def column (M : Nat) (perm : List (List Nat)) (n : Nat) : List Nat :=
  (List.range M).map (fun k => brute.get perm k n)

/-- The DLX-row of candidate `a` sets the optional column `c` for one of the hints `H`. -/
def per_col_dlx.optRow (N : Nat) (H : List hint_s) (a : List Nat) (c : Nat) : Prop :=
  ∃ h ∈ H, per_col_dlx.optSet N a h c

/-- The index of the first occurrence of `a` in a list of candidates. -/
def indexIn (a : List Nat) : List (List Nat) → Nat
  | [] => 0
  | b :: bs => if b = a then 0 else indexIn a bs + 1

/-- Strict lexicographic order on candidates, position 0 most significant. -/
def lexLt : List Nat → List Nat → Prop
  | [], [] => False
  | [], _ :: _ => True
  | _ :: _, [] => False
  | x :: s, y :: t => x < y ∨ (x = y ∧ lexLt s t)

instance : (s t : List Nat) → Decidable (lexLt s t)
  | [], [] => isFalse (by simp [lexLt])
  | [], _ :: _ => isTrue (by simp [lexLt])
  | _ :: _, [] => isFalse (by simp [lexLt])
  | x :: s, y :: t =>
    have : Decidable (lexLt s t) := instDecidableLexLt s t
    decidable_of_iff (x < y ∨ (x = y ∧ lexLt s t)) (by simp [lexLt])

/-- The state of `per_col_dlx` when `f(0)` has finished the base case for the first `j`
candidates. -/
def per_col_dlx.after (M N : Nat) (hint : List hint_s) (j : Nat) : per_col_dlx.State :=
  ((tuples N M).take j).foldl (fun st t => per_col_dlx.leaf M N t st) (per_col_dlx.init M N hint)

/-- The hint owns the optional DLX-column `c`: its columns are assigned and `c` is one of the
`width` columns from `dlx_col`. -/
def per_col_dlx.owns (N : Nat) (h : hint_s) (c : Nat) : Prop :=
  h.dlx_col ≠ 0 ∧ h.dlx_col ≤ c ∧ c < h.dlx_col + per_col_dlx.width N h

instance (N : Nat) (h : hint_s) (c : Nat) : Decidable (per_col_dlx.owns N h c) := by
  unfold per_col_dlx.owns; infer_instance

/-- The base case of `f` reached with `p` in the array `perm`: the leaf is run on `p`, and
`perm` is as in `st`. -/
def brute.visit (N : Nat) (hint : List hint_s) (st : brute.State) (p : List (List Nat)) :
    brute.State :=
  { brute.leaf N hint { st with perm := p } with perm := st.perm }

/-- The contents of one row of `perm` at the base cases `k == N` of `g`, in order, when
`g(N - rem)` is called with the row `r`: the loop `for (i = k; i < N; i++)` exchanges cells
`k` and `i` and recurses. -/
def brute.rowsFrom (N : Nat) : Nat → List Nat → List (List Nat)
  | 0, r => [r]
  | rem + 1, r =>
    (List.range' (N - (rem + 1)) (N - (N - (rem + 1)))).flatMap
      (fun i => brute.rowsFrom N rem (swap_int r (N - (rem + 1)) i))

/-- The contents of `perm` at the leaves, in order, when `f(M - 1 - rem)` is called with
`p` in `perm`. -/
def brute.leaves (M N : Nat) : Nat → List (List Nat) → List (List (List Nat))
  | 0, p => [p]
  | rem + 1, p =>
    (brute.rowsFrom N N (p.getD (M - 1 - (rem + 1)) [])).flatMap
      (fun r => brute.leaves M N rem (p.set (M - 1 - (rem + 1)) r))

/-! ## Theorems -/

/-! ### Counting in lists -/

theorem lor_two_eq_two (t : Nat) : t ||| 2 = 2 ↔ t = 0 ∨ t = 2 := by
  constructor
  · intro h
    have h4 : t < 2 ^ 2 := by
      apply Nat.lt_pow_two_of_testBit
      intro i hi
      have h2 : Nat.testBit 2 i = false :=
        Nat.testBit_lt_two_pow (Nat.lt_of_lt_of_le (by decide : 2 < 2 ^ 2)
          (Nat.pow_le_pow_right (by decide) hi))
      have := congrArg (fun x => Nat.testBit x i) h
      simp only [Nat.testBit_or, h2, Bool.or_false] at this
      exact this
    have h4 : t < 4 := h4
    interval_cases t <;> simp_all
  · rintro (h | h) <;> subst h <;> decide

theorem foldl_add_toNat (p : Nat → Bool) (l : List Nat) (init : Nat) :
    l.foldl (fun t i => t + (p i).toNat) init = init + l.countP p := by
  induction l generalizing init with
  | nil => simp
  | cons x xs ih =>
    rw [List.foldl_cons, ih, List.countP_cons]
    cases p x <;> simp
    omega

theorem foldl_max_lt (t : Nat → Nat) (l : List Nat) (init v : Nat) :
    l.foldl (fun c n => if c < t n then t n else c) init < v ↔
      init < v ∧ ∀ n ∈ l, t n < v := by
  induction l generalizing init with
  | nil => simp
  | cons x xs ih =>
    rw [List.foldl_cons, ih]
    simp only [List.mem_cons, forall_eq_or_imp]
    split <;> constructor <;> rintro ⟨h1, h2⟩ <;> refine ⟨?_, ?_⟩ <;> try omega
    all_goals first | exact h2 | exact h2.2 | exact ⟨by omega, h2⟩

theorem countP_single (p : Nat → Bool) (n : Nat) :
    List.countP p [n] = (p n).toNat := by
  cases h : p n <;> simp [h]

theorem countP_range_two_le (p : Nat → Bool) (n : Nat) :
    2 ≤ (List.range n).countP p ↔ ∃ i j, i < j ∧ j < n ∧ p i = true ∧ p j = true := by
  induction n with
  | zero => simp
  | succ n ih =>
    rw [List.range_succ, List.countP_append, countP_single]
    constructor
    · intro h
      by_cases h2 : 2 ≤ (List.range n).countP p
      · obtain ⟨i, j, hij, hj, hi, hpj⟩ := ih.mp h2
        exact ⟨i, j, hij, by omega, hi, hpj⟩
      · have hp : p n = true := by
          cases hp : p n
          · rw [hp] at h; simp only [Bool.toNat_false] at h; omega
          · rfl
        rw [hp] at h
        simp only [Bool.toNat_true] at h
        have h1 : 0 < (List.range n).countP p := by omega
        obtain ⟨i, hi, hpi⟩ := List.countP_pos_iff.mp h1
        exact ⟨i, n, by simpa using hi, by omega, hpi, hp⟩
    · rintro ⟨i, j, hij, hj, hi, hpj⟩
      by_cases hjn : j = n
      · subst hjn
        have h1 : 0 < (List.range j).countP p :=
          List.countP_pos_iff.mpr ⟨i, by simpa using hij, hi⟩
        rw [hpj]; simp only [Bool.toNat_true]; omega
      · have := ih.mpr ⟨i, j, hij, by omega, hi, hpj⟩
        omega

/-! ### Grids -/

theorem isGrid_row {M N : Nat} {perm : List (List Nat)} (hg : isGrid M N perm) {m : Nat}
    (hm : m + 1 < M) : List.Perm (perm.getD m []) (List.range N) := by
  have hlt : m < perm.length := by rw [hg.1]; omega
  apply hg.2
  rw [List.getD_eq_getElem _ _ hlt]
  exact List.getElem_mem hlt

theorem inColumn_unique {M N : Nat} {perm : List (List Nat)} (hg : isGrid M N perm)
    {s : Nat × Nat} (hs : s.1 < M) {n n' : Nat} (hn : n < N) (hn' : n' < N)
    (h1 : Meaning.inColumn perm s n) (h2 : Meaning.inColumn perm s n') : n = n' := by
  unfold Meaning.inColumn brute.get at h1 h2
  by_cases h0 : s.1 = 0
  · simp [h0] at h1 h2; omega
  · simp only [ne_eq, h0, not_false_eq_true, if_true] at h1 h2
    have hp := isGrid_row hg (m := s.1 - 1) (by omega)
    have hnd : (perm.getD (s.1 - 1) []).Nodup := hp.nodup_iff.mpr (List.nodup_range N)
    have hlen : (perm.getD (s.1 - 1) []).length = N := by simpa using hp.length_eq
    rw [List.getD_eq_getElem _ _ (by omega)] at h1 h2
    exact (List.Nodup.getElem_inj_iff hnd).mp (h1.trans h2.symm)

theorem inColumn_exists {M N : Nat} {perm : List (List Nat)} (hg : isGrid M N perm)
    {s : Nat × Nat} (hs : s.1 < M) (hs2 : s.2 < N) : ∃ n < N, Meaning.inColumn perm s n := by
  unfold Meaning.inColumn brute.get
  by_cases h0 : s.1 = 0
  · exact ⟨s.2, hs2, by simp [h0]⟩
  · simp only [ne_eq, h0, not_false_eq_true, if_true]
    have hp := isGrid_row hg (m := s.1 - 1) (by omega)
    have hlen : (perm.getD (s.1 - 1) []).length = N := by simpa using hp.length_eq
    have hmem : s.2 ∈ perm.getD (s.1 - 1) [] := hp.mem_iff.mpr (by simpa using hs2)
    obtain ⟨n, hn, hx⟩ := List.getElem_of_mem hmem
    exact ⟨n, by omega, by rw [List.getD_eq_getElem _ _ hn]; exact hx⟩

theorem has_iff (perm : List (List Nat)) (h : hint_s) (i n : Nat) :
    brute.has perm h i n = true ↔ Meaning.inColumn perm (Meaning.sym h i) n := by
  simp [brute.has, Meaning.inColumn, Meaning.sym]

theorem has_eq_decide (perm : List (List Nat)) (h : hint_s) (i n : Nat) :
    brute.has perm h i n = decide (Meaning.inColumn perm (Meaning.sym h i) n) := by
  rw [Bool.eq_iff_iff, has_iff]; simp

theorem tally_eq (perm : List (List Nat)) (h : hint_s) (cnt n : Nat) :
    brute.tally perm h cnt n = Meaning.inColumnCount perm h cnt n := by
  unfold brute.tally Meaning.inColumnCount
  rw [foldl_add_toNat, Nat.zero_add, List.countP_eq_length_filter]
  simp only [has_eq_decide]

theorem sym_inGrid {M N : Nat} {h : hint_s} (hw : inGrid M N h) {i : Nat} (hi : i < h.n) :
    (Meaning.sym h i).1 < M ∧ (Meaning.sym h i).2 < N := by
  apply hw
  unfold Meaning.sym
  rw [List.getD_eq_getElem _ _ hi]
  exact List.getElem_mem hi

/-! ### The checks of `brute` and the meaning of the hints -/

theorem inColumnCount_eq_countP (perm : List (List Nat)) (h : hint_s) (cnt n : Nat) :
    Meaning.inColumnCount perm h cnt n =
      (List.range cnt).countP (fun i => decide (Meaning.inColumn perm (Meaning.sym h i) n)) := by
  unfold Meaning.inColumnCount
  rw [List.countP_eq_length_filter]

theorem inColumnCount_le (perm : List (List Nat)) (h : hint_s) (cnt n : Nat) :
    Meaning.inColumnCount perm h cnt n ≤ cnt := by
  unfold Meaning.inColumnCount
  exact (List.length_filter_le _ _).trans (by simp)

theorem inColumnCount_lt_iff (perm : List (List Nat)) (h : hint_s) (cnt n : Nat) :
    Meaning.inColumnCount perm h cnt n < cnt ↔
      ∃ i < cnt, ¬ Meaning.inColumn perm (Meaning.sym h i) n := by
  have hle := inColumnCount_le perm h cnt n
  have heq : Meaning.inColumnCount perm h cnt n = cnt ↔
      ∀ i < cnt, Meaning.inColumn perm (Meaning.sym h i) n := by
    unfold Meaning.inColumnCount
    have := List.filter_length_eq_length
      (l := List.range cnt) (p := fun i => decide (Meaning.inColumn perm (Meaning.sym h i) n))
    simp only [List.length_range, List.mem_range, decide_eq_true_eq] at this
    exact this
  constructor
  · intro hlt
    by_contra hne
    push_neg at hne
    have := heq.mpr hne
    omega
  · rintro ⟨i, hi, hni⟩
    by_contra hge
    exact hni (heq.mp (by omega) i hi)

theorem inColumnCount_two_le (perm : List (List Nat)) (h : hint_s) (cnt n : Nat) :
    2 ≤ Meaning.inColumnCount perm h cnt n ↔
      ∃ i j, i < j ∧ j < cnt ∧ Meaning.inColumn perm (Meaning.sym h i) n ∧
        Meaning.inColumn perm (Meaning.sym h j) n := by
  rw [inColumnCount_eq_countP, countP_range_two_le]
  simp only [decide_eq_true_eq]

theorem matchmax_lt_iff (N : Nat) (perm : List (List Nat)) (h : hint_s) (v : Nat) :
    brute.matchmax N perm h < v ↔
      0 < v ∧ ∀ n < N, Meaning.inColumnCount perm h h.n n < v := by
  unfold brute.matchmax
  rw [foldl_max_lt]
  simp only [List.mem_range, tally_eq]

/-- Case `=` of `check`: `matchmax() < h->n` says that the symbols are not all in one column. -/
theorem check_same {M N : Nat} {perm : List (List Nat)} {h : hint_s} (hg : isGrid M N perm)
    (hw : inGrid M N h) :
    brute.matchmax N perm h < h.n ↔ ¬ Meaning.same N perm h := by
  rw [matchmax_lt_iff]
  unfold Meaning.same
  constructor
  · rintro ⟨hpos, hall⟩ hsame
    obtain ⟨c, hc, h0, -⟩ := hsame 0 hpos 0 hpos
    obtain ⟨i, hi, hni⟩ := (inColumnCount_lt_iff perm h h.n c).mp (hall c hc)
    obtain ⟨c', hc', h0', hi'⟩ := hsame 0 hpos i hi
    have := inColumn_unique hg (sym_inGrid hw hpos).1 hc hc' h0 h0'
    subst this
    exact hni hi'
  · intro hns
    have hpos : 0 < h.n := by
      by_contra h0
      exact hns (fun i hi => absurd hi (by omega))
    refine ⟨hpos, fun c hc => ?_⟩
    by_contra hge
    have hall : ∀ i < h.n, Meaning.inColumn perm (Meaning.sym h i) c := by
      intro i hi
      by_contra hni
      exact hge ((inColumnCount_lt_iff perm h h.n c).mpr ⟨i, hi, hni⟩)
    exact hns (fun i hi j hj => ⟨c, hc, hall i hi, hall j hj⟩)

/-- Case `!` of `check`: `matchmax() > 1` says that two of the symbols share a column. -/
theorem check_distinct (N : Nat) (perm : List (List Nat)) (h : hint_s) :
    brute.matchmax N perm h > 1 ↔ ¬ Meaning.distinct N perm h := by
  have := matchmax_lt_iff N perm h 2
  unfold Meaning.distinct Meaning.shareColumn
  constructor
  · intro hgt
    have h2 : ¬ (0 < 2 ∧ ∀ n < N, Meaning.inColumnCount perm h h.n n < 2) :=
      fun hh => by have := this.mpr hh; omega
    push_neg at h2
    obtain ⟨c, hc, hcnt⟩ := h2 (by decide)
    obtain ⟨i, j, hij, hj, hi, hjc⟩ := (inColumnCount_two_le perm h h.n c).mp hcnt
    intro hd
    exact hd i (by omega) j hj (by omega) ⟨c, hc, hi, hjc⟩
  · intro hnd
    by_contra hle
    have hlt : brute.matchmax N perm h < 2 := by omega
    obtain ⟨-, hall⟩ := this.mp hlt
    apply hnd
    rintro i hi j hj hij ⟨c, hc, hic, hjc⟩
    have h2 : 2 ≤ Meaning.inColumnCount perm h h.n c := by
      rw [inColumnCount_two_le]
      rcases Nat.lt_or_gt_of_ne hij with hlt | hgt
      · exact ⟨i, j, hlt, hj, hic, hjc⟩
      · exact ⟨j, i, hgt, hi, hjc, hic⟩
    have := hall c hc
    omega

/-- Case `^` of `check`: the count of columns with two or more symbols. -/
theorem check_crowded (N : Nat) (perm : List (List Nat)) (h : hint_s) :
    (List.range N).foldl
      (fun count n => count + (decide (brute.tally perm h h.n n ≥ 2)).toNat) 0 > 1 ↔
      ¬ Meaning.atMostOneCrowded N perm h := by
  unfold Meaning.atMostOneCrowded
  rw [foldl_add_toNat, Nat.zero_add, List.countP_eq_length_filter]
  simp only [tally_eq, ge_iff_le, gt_iff_lt, not_le]

/-- On a grid `col(i)` finds the one column of a symbol that lies inside the table. -/
theorem col_spec {M N : Nat} {perm : List (List Nat)} {h : hint_s} (hg : isGrid M N perm)
    {i : Nat} (hs : (Meaning.sym h i).1 < M ∧ (Meaning.sym h i).2 < N) :
    ∃ c < N, brute.col N perm h i = some c ∧ Meaning.inColumn perm (Meaning.sym h i) c := by
  obtain ⟨c, hc, hin⟩ := inColumn_exists hg hs.1 hs.2
  refine ⟨c, hc, ?_, hin⟩
  unfold brute.col
  rw [List.find?_range_eq_some]
  refine ⟨(has_iff perm h i c).mpr hin, List.mem_range.mpr hc, ?_⟩
  intro n hn
  simp only [Bool.not_eq_eq_eq_not, Bool.not_true]
  rw [Bool.eq_false_iff]
  intro hhas
  have := inColumn_unique hg hs.1 (by omega) hc ((has_iff perm h i n).mp hhas) hin
  omega

/-- On a grid the columns of two symbols of the table stand in a relation exactly when the
columns found by `col` do. -/
theorem col_related {M N : Nat} {perm : List (List Nat)} {h : hint_s} (hg : isGrid M N perm)
    (hw : inGrid M N h) (hn : 2 ≤ h.n) :
    ∃ c0 c1, brute.col N perm h 0 = some c0 ∧ brute.col N perm h 1 = some c1 ∧
      ∀ rel, Meaning.columnsRelated N perm (Meaning.sym h 0) (Meaning.sym h 1) rel ↔
        rel c0 c1 = true := by
  have hs0 := sym_inGrid hw (i := 0) (by omega)
  have hs1 := sym_inGrid hw (i := 1) (by omega)
  obtain ⟨c0, hc0, hcol0, hin0⟩ := col_spec hg hs0
  obtain ⟨c1, hc1, hcol1, hin1⟩ := col_spec hg hs1
  refine ⟨c0, c1, hcol0, hcol1, fun rel => ?_⟩
  unfold Meaning.columnsRelated
  constructor
  · rintro ⟨n0, hn0, n1, hn1, h0, h1, hr⟩
    have e0 := inColumn_unique hg hs0.1 hn0 hc0 h0 hin0
    have e1 := inColumn_unique hg hs1.1 hn1 hc1 h1 hin1
    subst e0 e1
    exact hr
  · intro hr
    exact ⟨c0, hc0, c1, hc1, hin0, hin1, hr⟩

/-- Case `p` of `check`. -/
theorem check_paired (N : Nat) (perm : List (List Nat)) (h : hint_s) :
    brute.checkP N perm h = true ↔ ¬ Meaning.paired N perm h := by
  unfold brute.checkP Meaning.paired Meaning.shareColumn
  simp only [List.any_eq_true, List.mem_range, Bool.or_eq_true, Bool.and_eq_true, has_iff,
    tally_eq, bne_iff_ne, ne_eq, lor_two_eq_two]
  constructor
  · rintro ⟨n, hn, (⟨h0, h1⟩ | ⟨h2, h3⟩) | ht⟩ ⟨p01, p23, pc⟩
    · exact p01 ⟨n, hn, h0, h1⟩
    · exact p23 ⟨n, hn, h2, h3⟩
    · exact ht (pc n hn)
  · intro hnp
    by_contra hno
    apply hnp
    refine ⟨?_, ?_, ?_⟩
    · rintro ⟨n, hn, h0, h1⟩
      exact hno ⟨n, hn, Or.inl (Or.inl ⟨h0, h1⟩)⟩
    · rintro ⟨n, hn, h2, h3⟩
      exact hno ⟨n, hn, Or.inl (Or.inr ⟨h2, h3⟩)⟩
    · intro n hn
      by_contra ht
      exact hno ⟨n, hn, Or.inr ht⟩

theorem foldl_add_eq_sum (g : Nat → Nat) (l : List Nat) (init : Nat) :
    l.foldl (fun c n => c + g n) init = init + (l.map g).sum := by
  induction l generalizing init with
  | nil => simp
  | cons x xs ih => rw [List.foldl_cons, ih, List.map_cons, List.sum_cons]; omega

theorem sum_map_toNat (p : Nat → Bool) (l : List Nat) :
    (l.map (fun n => (p n).toNat)).sum = l.countP p := by
  induction l with
  | nil => simp
  | cons x xs ih =>
    rw [List.map_cons, List.sum_cons, ih, List.countP_cons]
    cases p x <;> simp
    omega

theorem sum_countP_swap (P : Nat → Nat → Bool) (k : Nat) (l : List Nat) :
    (l.map (fun n => (List.range k).countP (fun i => P i n))).sum =
      ((List.range k).map (fun i => l.countP (fun n => P i n))).sum := by
  induction k with
  | zero => simp
  | succ k ih =>
    simp only [List.range_succ, List.countP_append, countP_single, List.map_append,
      List.sum_append, List.map_cons, List.map_nil, List.sum_cons, List.sum_nil, Nat.add_zero]
    rw [← ih, ← sum_map_toNat, List.sum_map_add]

theorem countP_range_unique (p : Nat → Bool) (N : Nat)
    (huniq : ∀ a b, a < N → b < N → p a = true → p b = true → a = b) :
    (List.range N).countP p = (decide (∃ n < N, p n = true)).toNat := by
  have hle : (List.range N).countP p ≤ 1 := by
    by_contra hgt
    obtain ⟨i, j, hij, hj, hi, hpj⟩ := (countP_range_two_le p N).mp (by omega)
    have := huniq i j (by omega) hj hi hpj
    omega
  by_cases hex : ∃ n < N, p n = true
  · obtain ⟨n, hn, hp⟩ := hex
    have : 0 < (List.range N).countP p :=
      List.countP_pos_iff.mpr ⟨n, List.mem_range.mpr hn, hp⟩
    rw [decide_eq_true ⟨n, hn, hp⟩]
    simp only [Bool.toNat_true]
    omega
  · rw [decide_eq_false hex]
    simp only [Bool.toNat_false]
    rw [List.countP_eq_zero]
    intro a ha hp
    exact hex ⟨a, List.mem_range.mp ha, hp⟩

/-- Case `X` of `check`: on a grid the double loop counts the pairs that share a column. -/
theorem check_pairs {M N : Nat} {perm : List (List Nat)} {h : hint_s} (hg : isGrid M N perm)
    (hw : inGrid M N h) :
    (List.range N).foldl
      (fun count n => (List.range (h.n / 2)).foldl
        (fun count i =>
          count + (brute.has perm h (2 * i) n && brute.has perm h (2 * i + 1) n).toNat)
        count) 0 > 1 ↔ ¬ Meaning.atMostOnePair N perm h := by
  unfold Meaning.atMostOnePair
  simp only [foldl_add_toNat]
  rw [foldl_add_eq_sum, Nat.zero_add,
    sum_countP_swap (fun i n => brute.has perm h (2 * i) n && brute.has perm h (2 * i + 1) n)]
  have hpt : ∀ i ∈ List.range (h.n / 2),
      (List.range N).countP
          (fun n => brute.has perm h (2 * i) n && brute.has perm h (2 * i + 1) n) =
        (decide (Meaning.shareColumn N perm (Meaning.sym h (2 * i))
          (Meaning.sym h (2 * i + 1)))).toNat := by
    intro i hi
    have hi : i < h.n / 2 := List.mem_range.mp hi
    have hs := sym_inGrid hw (i := 2 * i) (by omega)
    rw [countP_range_unique]
    · unfold Meaning.shareColumn
      simp only [Bool.and_eq_true, has_iff]
    · intro a b ha hb hpa hpb
      simp only [Bool.and_eq_true, has_iff] at hpa hpb
      exact inColumn_unique hg hs.1 ha hb hpa.1 hpb.1
  rw [List.map_congr_left hpt, sum_map_toNat, List.countP_eq_length_filter]
  omega

theorem check_meaning {M N : Nat} {perm : List (List Nat)} {h : hint_s}
    (hg : isGrid M N perm) (hw : inGrid M N h) (ha : arityOk h)
    (hc : h.cmd ∈ ['=', '!', '<', '>', '1', 'A', '^', 'p', 'X']) :
    brute.check N perm h = some (decide (¬ Meaning.holds N perm h)) := by
  simp only [List.mem_cons, List.mem_singleton, List.not_mem_nil, or_false] at hc
  rcases hc with hc | hc | hc | hc | hc | hc | hc | hc | hc
  · have hm : Meaning.holds N perm h ↔ Meaning.same N perm h := by
      simp only [Meaning.holds, hc]
    simp only [brute.check, hc, Option.some.injEq, decide_eq_decide, hm]
    exact check_same hg hw
  · have hm : Meaning.holds N perm h ↔ Meaning.distinct N perm h := by
      simp only [Meaning.holds, hc]
    simp only [brute.check, hc, Option.some.injEq, decide_eq_decide, hm]
    exact check_distinct N perm h
  · have hm : Meaning.holds N perm h ↔ Meaning.leftOf N perm h := by
      simp only [Meaning.holds, hc]
    have hn : h.n = 2 := by simpa [arityOk, hc] using ha
    obtain ⟨c0, c1, h0, h1, hrel⟩ := col_related hg hw (by omega)
    simp only [brute.check, hc, h0, h1, Option.pure_def, Option.bind_eq_bind, Option.some_bind,
      Option.some.injEq, decide_eq_decide, hm, Meaning.leftOf, hrel, decide_eq_true_eq]
    omega
  · have hm : Meaning.holds N perm h ↔ Meaning.rightOf N perm h := by
      simp only [Meaning.holds, hc]
    have hn : h.n = 2 := by simpa [arityOk, hc] using ha
    obtain ⟨c0, c1, h0, h1, hrel⟩ := col_related hg hw (by omega)
    simp only [brute.check, hc, h0, h1, Option.pure_def, Option.bind_eq_bind, Option.some_bind,
      Option.some.injEq, decide_eq_decide, hm, Meaning.rightOf, hrel, decide_eq_true_eq]
    omega
  · have hm : Meaning.holds N perm h ↔ Meaning.oneLeftOf N perm h := by
      simp only [Meaning.holds, hc]
    have hn : h.n = 2 := by simpa [arityOk, hc] using ha
    obtain ⟨c0, c1, h0, h1, hrel⟩ := col_related hg hw (by omega)
    simp only [brute.check, hc, h0, h1, Option.pure_def, Option.bind_eq_bind, Option.some_bind,
      Option.some.injEq, decide_eq_decide, hm, Meaning.oneLeftOf, hrel, decide_eq_true_eq]
  · have hm : Meaning.holds N perm h ↔ Meaning.adjacent N perm h := by
      simp only [Meaning.holds, hc]
    have hn : h.n = 2 := by simpa [arityOk, hc] using ha
    obtain ⟨c0, c1, h0, h1, hrel⟩ := col_related hg hw (by omega)
    simp only [brute.check, hc, h0, h1, Option.pure_def, Option.bind_eq_bind, Option.some_bind,
      Option.some.injEq, decide_eq_decide, hm, Meaning.adjacent, hrel, decide_eq_true_eq]
    omega
  · have hm : Meaning.holds N perm h ↔ Meaning.atMostOneCrowded N perm h := by
      simp only [Meaning.holds, hc]
    simp only [brute.check, hc, Option.some.injEq, decide_eq_decide, hm]
    exact check_crowded N perm h
  · have hm : Meaning.holds N perm h ↔ Meaning.paired N perm h := by
      simp only [Meaning.holds, hc]
    simp only [brute.check, hc, Option.some.injEq]
    rw [Bool.eq_iff_iff, check_paired, decide_eq_true_eq, hm]
  · have hm : Meaning.holds N perm h ↔ Meaning.atMostOnePair N perm h := by
      simp only [Meaning.holds, hc]
    simp only [brute.check, hc, Option.some.injEq, decide_eq_decide, hm]
    exact check_pairs hg hw

/-! ### The run of `brute` -/

theorem swap_int_perm (row : List Nat) {k i : Nat} (hk : k < row.length) (hi : i < row.length) :
    List.Perm (swap_int row k i) row := by
  rw [List.perm_iff_count]
  intro b
  unfold swap_int
  rw [List.getD_eq_getElem _ _ hi, List.getD_eq_getElem _ _ hk]
  rw [List.count_set _ _ _ _ (by simpa using hi), List.count_set _ _ _ _ hk]
  have hi2 : i < (row.set k row[i]).length := by simpa using hi
  have hget : (row.set k row[i])[i] = row[i] := by
    rw [List.getElem_set]
    split
    · rfl
    · rfl
  rw [hget]
  have h1 : (if row[k] == b then 1 else 0) ≤ row.count b := by
    split
    · rename_i hb
      have : row[k] = b := by simpa using hb
      have hmem : b ∈ row := this ▸ List.getElem_mem hk
      exact List.count_pos_iff.mpr hmem
    · omega
  omega

theorem foldl_preserves {α β : Type} (P : α → Prop) (step : α → β → α) (l : List β) (a : α)
    (hstep : ∀ a b, b ∈ l → P a → P (step a b)) (ha : P a) : P (l.foldl step a) := by
  induction l generalizing a with
  | nil => exact ha
  | cons x xs ih =>
    rw [List.foldl_cons]
    exact ih _ (fun a b hb hp => hstep a b (List.mem_cons_of_mem _ hb) hp)
      (hstep a x (List.mem_cons_self _ _) ha)

theorem swapRow_isGrid {M N : Nat} {perm : List (List Nat)} (hg : isGrid M N perm)
    (m : Nat) {k i : Nat} (hk : k < N) (hi : i < N) : isGrid M N (brute.swapRow perm m k i) := by
  unfold brute.swapRow
  refine ⟨by simpa using hg.1, ?_⟩
  intro row hrow
  rcases List.mem_or_eq_of_mem_set hrow with h | h
  · exact hg.2 row h
  · subst h
    by_cases hm : m < perm.length
    · have hp : List.Perm (perm.getD m []) (List.range N) := by
        apply hg.2
        rw [List.getD_eq_getElem _ _ hm]
        exact List.getElem_mem hm
      have hlen : (perm.getD m []).length = N := by simpa using hp.length_eq
      exact (swap_int_perm _ (by omega) (by omega)).trans hp
    · rw [List.set_eq_of_length_le (by omega)] at hrow
      have : perm.getD m [] = [] := by
        rw [List.getD_eq_default _ _ (by omega)]
      rw [this] at hrow ⊢
      have : swap_int [] k i = [] := by simp [swap_int]
      rw [this] at hrow ⊢
      exact hg.2 _ hrow

theorem leaf_inv {M N : Nat} {hint : List hint_s} {st : brute.State}
    (h : bruteInv M N hint st) : bruteInv M N hint (brute.leaf N hint st) := by
  obtain ⟨hg, hv, hp⟩ := h
  unfold brute.leaf
  split
  · exact ⟨hg, hv, hp⟩
  · split
    · refine ⟨hg, ?_, hp⟩
      intro p hp'
      rcases List.mem_append.mp hp' with h | h
      · exact hv p h
      · rw [List.mem_singleton.mp h]; exact hg
    · refine ⟨hg, ?_, hp⟩
      intro p hp'
      rcases List.mem_append.mp hp' with h | h
      · exact hv p h
      · rw [List.mem_singleton.mp h]; exact hg
    · rename_i hrej
      refine ⟨hg, ?_, ?_⟩
      · intro p hp'
        rcases List.mem_append.mp hp' with h | h
        · exact hv p h
        · rw [List.mem_singleton.mp h]; exact hg
      · intro p hp'
        rcases List.mem_append.mp hp' with h | h
        · exact hp p h
        · rw [List.mem_singleton.mp h]; exact ⟨hg, hrej⟩

theorem g_inv {M N : Nat} {hint : List hint_s} (m : Nat) (next : brute.State → brute.State)
    (hnext : ∀ st, bruteInv M N hint st → bruteInv M N hint (next st)) :
    ∀ rem, rem ≤ N → ∀ st, bruteInv M N hint st → bruteInv M N hint (brute.g N m next rem st) := by
  intro rem
  induction rem with
  | zero => intro _ st h; exact hnext st h
  | succ rem ih =>
    intro hrem st h
    unfold brute.g
    apply foldl_preserves (bruteInv M N hint) _ _ _ _ h
    intro a i hi ha
    have hi := List.mem_range'_1.mp hi
    have hk : N - (rem + 1) < N := by omega
    have hiN : i < N := by omega
    have h1 : bruteInv M N hint { a with perm := brute.swapRow a.perm m (N - (rem + 1)) i } :=
      ⟨swapRow_isGrid ha.1 m hk hiN, ha.2.1, ha.2.2⟩
    have h2 := ih (by omega) _ h1
    exact ⟨swapRow_isGrid h2.1 m hk hiN, h2.2.1, h2.2.2⟩

theorem f_inv {M N : Nat} {hint : List hint_s} :
    ∀ rem st, bruteInv M N hint st → bruteInv M N hint (brute.f M N hint rem st) := by
  intro rem
  induction rem with
  | zero => intro st h; exact leaf_inv h
  | succ rem ih =>
    intro st h
    unfold brute.f
    exact g_inv _ _ ih N (Nat.le_refl N) st h

theorem init_inv (M N : Nat) (hint : List hint_s) : bruteInv M N hint (brute.init M N) := by
  refine ⟨⟨by simp [brute.init], ?_⟩, ?_, ?_⟩
  · intro row hrow
    simp only [brute.init] at hrow
    rw [List.eq_of_mem_replicate hrow]
  · simp [brute.init]
  · simp [brute.init]

theorem brute_inv (M N : Nat) (hint : List hint_s) : bruteInv M N hint (brute M N hint) :=
  f_inv _ _ (init_inv M N hint)

/-! ### The candidates of `per_col_dlx` -/

theorem foldl_flatMap {α β γ : Type} (F : γ → β → γ) (g : α → List β) (l : List α) (s : γ) :
    (l.flatMap g).foldl F s = l.foldl (fun s x => (g x).foldl F s) s := by
  induction l generalizing s with
  | nil => simp
  | cons x xs ih => rw [List.flatMap_cons, List.foldl_append, ih, List.foldl_cons]

theorem mem_tuples {N d : Nat} {t : List Nat} :
    t ∈ tuples N d ↔ t.length = d ∧ ∀ x ∈ t, x < N := by
  induction d generalizing t with
  | zero =>
    simp only [tuples, List.mem_singleton]
    constructor
    · intro h; subst h; simp
    · intro h; exact List.length_eq_zero.mp h.1
  | succ d ih =>
    simp only [tuples, List.mem_flatMap, List.mem_range, List.mem_map]
    constructor
    · rintro ⟨k, hk, t', ht', rfl⟩
      obtain ⟨hl, hx⟩ := ih.mp ht'
      refine ⟨by simp [hl], ?_⟩
      intro x hx'
      rcases List.mem_cons.mp hx' with e | e
      · omega
      · exact hx x e
    · rintro ⟨hl, hx⟩
      cases t with
      | nil => simp at hl
      | cons k t' =>
        refine ⟨k, hx k (List.mem_cons_self _ _), t', ih.mpr ⟨by simpa using hl, ?_⟩, rfl⟩
        intro x hx'
        exact hx x (List.mem_cons_of_mem _ hx')

theorem tuples_nodup (N d : Nat) : (tuples N d).Nodup := by
  induction d with
  | zero => simp [tuples]
  | succ d ih =>
    simp only [tuples]
    rw [List.nodup_flatMap]
    constructor
    · intro k _
      exact ih.map (fun a b h => by simpa using h)
    · apply List.Pairwise.imp _ (List.nodup_range N)
      intro a b hab
      simp only [Function.onFun, List.disjoint_left, List.mem_map]
      rintro t ⟨t1, -, rfl⟩ ⟨t2, -, h2⟩
      simp at h2
      exact hab h2.1.symm

theorem take_succ_set (a : List Nat) (k : Nat) :
    ∀ i, i < a.length → (a.set i k).take (i + 1) = a.take i ++ [k] := by
  induction a with
  | nil => intro i hi; simp at hi
  | cons x xs ih =>
    intro i hi
    cases i with
    | zero => simp
    | succ i =>
      simp only [List.set_cons_succ, List.take_succ_cons, List.cons_append, List.cons.injEq,
        true_and]
      exact ih i (by simpa using hi)

theorem f_eq_foldl (M N : Nat) :
    ∀ rem (a : List Nat) (st : per_col_dlx.State), rem ≤ M → a.length = M →
      per_col_dlx.f M N rem a st =
        (tuples N rem).foldl
          (fun st t => per_col_dlx.leaf M N (a.take (M - rem) ++ t) st) st := by
  intro rem
  induction rem with
  | zero =>
    intro a st _ ha
    simp [per_col_dlx.f, tuples, ← ha]
  | succ rem ih =>
    intro a st hrem ha
    unfold per_col_dlx.f
    simp only [tuples]
    rw [foldl_flatMap]
    apply List.foldl_ext
    intro s k _
    rw [ih _ _ (by omega) (by simpa using ha), List.foldl_map]
    have hi : M - (rem + 1) < a.length := by omega
    have htake : (a.set (M - (rem + 1)) k).take (M - rem) = a.take (M - (rem + 1)) ++ [k] := by
      have : M - rem = (M - (rem + 1)) + 1 := by omega
      rw [this, take_succ_set a k _ hi]
    simp only [htake, List.append_assoc, List.singleton_append]

/-! ### The optional columns set by `opthints` -/

theorem markLoop_spec (l : List Nat) :
    ∀ (t : hint_s × dlx_t × Nat),
      ((l.foldl (fun t _ => (t.1, dlx_mark_optional t.2.1 t.2.2, t.2.2 + 1)) t).1 = t.1) ∧
      ((l.foldl (fun t _ => (t.1, dlx_mark_optional t.2.1 t.2.2, t.2.2 + 1)) t).2.2 =
        t.2.2 + l.length) ∧
      ((l.foldl (fun t _ => (t.1, dlx_mark_optional t.2.1 t.2.2, t.2.2 + 1)) t).2.1.cells =
        t.2.1.cells) ∧
      (∀ c, c ∈ (l.foldl (fun t _ => (t.1, dlx_mark_optional t.2.1 t.2.2, t.2.2 + 1))
          t).2.1.optional ↔ c ∈ t.2.1.optional ∨ (t.2.2 ≤ c ∧ c < t.2.2 + l.length)) := by
  induction l with
  | nil => intro t; simp
  | cons x xs ih =>
    intro t
    rw [List.foldl_cons]
    obtain ⟨h1, h2, h3, h4⟩ := ih (t.1, dlx_mark_optional t.2.1 t.2.2, t.2.2 + 1)
    refine ⟨h1, ?_, ?_, ?_⟩
    · rw [h2]; simp only [List.length_cons]; omega
    · rw [h3]; rfl
    · intro c
      rw [h4]
      simp only [dlx_mark_optional, List.mem_cons, List.length_cons]
      constructor
      · rintro ((h | h) | h)
        · right; omega
        · left; exact h
        · right; omega
      · rintro (h | h)
        · left; right; exact h
        · by_cases hc : c = t.2.2
          · left; left; exact hc
          · right; omega

theorem setLoop_spec (row : Nat) (b : Nat → Bool) (g : Nat → Nat) (l : List Nat) :
    ∀ (d : dlx_t),
      ((l.foldl (fun d k => if b k = true then dlx_set d row (g k) else d) d).optional =
        d.optional) ∧
      (∀ x, x ∈ (l.foldl (fun d k => if b k = true then dlx_set d row (g k) else d) d).cells ↔
        x ∈ d.cells ∨ (x.1 = row ∧ ∃ k ∈ l, b k = true ∧ x.2 = g k)) := by
  induction l with
  | nil => intro d; simp
  | cons y ys ih =>
    intro d
    rw [List.foldl_cons]
    obtain ⟨h1, h2⟩ := ih (if b y = true then dlx_set d row (g y) else d)
    constructor
    · rw [h1]; split <;> rfl
    · intro x
      rw [h2]
      by_cases hb : b y = true
      · simp only [hb, if_true, dlx_set, List.mem_cons]
        constructor
        · rintro ((h | h) | ⟨h, k, hk, hbk, hx⟩)
          · right; exact ⟨by rw [h], y, Or.inl rfl, hb, by rw [h]⟩
          · left; exact h
          · right; exact ⟨h, k, Or.inr hk, hbk, hx⟩
        · rintro (h | ⟨h, k, hk | hk, hbk, hx⟩)
          · left; right; exact h
          · left; left; subst hk; exact Prod.ext h hx
          · right; exact ⟨h, k, hk, hbk, hx⟩
      · simp only [hb, List.mem_cons]
        constructor
        · rintro (h | ⟨h, k, hk, hbk, hx⟩)
          · left; exact h
          · right; exact ⟨h, k, Or.inr hk, hbk, hx⟩
        · rintro (h | ⟨h, k, hk | hk, hbk, hx⟩)
          · left; exact h
          · subst hk; exact absurd hbk hb
          · right; exact ⟨h, k, hk, hbk, hx⟩

theorem assign_dlx_col_spec (N : Nat) (h : hint_s) (d : dlx_t) (n : Nat) :
    (per_col_dlx.assign_dlx_col N (h, d, n)).1 =
        (if h.dlx_col = 0 then { h with dlx_col := n } else h) ∧
      (per_col_dlx.assign_dlx_col N (h, d, n)).2.2 = (if h.dlx_col = 0 then n + N else n) ∧
      (per_col_dlx.assign_dlx_col N (h, d, n)).2.1.cells = d.cells ∧
      (∀ c, c ∈ (per_col_dlx.assign_dlx_col N (h, d, n)).2.1.optional ↔
        c ∈ d.optional ∨ (h.dlx_col = 0 ∧ n ≤ c ∧ c < n + N)) := by
  unfold per_col_dlx.assign_dlx_col
  by_cases h0 : h.dlx_col = 0
  · simp only [h0, if_true]
    obtain ⟨h1, h2, h3, h4⟩ := markLoop_spec (List.range N) ({ h with dlx_col := n }, d, n)
    refine ⟨h1, ?_, h3, ?_⟩
    · rw [h2]; simp
    · intro c; rw [h4]; simp
  · simp [h0]

theorem assign_one_spec (h : hint_s) (d : dlx_t) (n : Nat) :
    (per_col_dlx.assign_one (h, d, n)).1 =
        (if h.dlx_col = 0 then { h with dlx_col := n } else h) ∧
      (per_col_dlx.assign_one (h, d, n)).2.2 = (if h.dlx_col = 0 then n + 1 else n) ∧
      (per_col_dlx.assign_one (h, d, n)).2.1.cells = d.cells ∧
      (∀ c, c ∈ (per_col_dlx.assign_one (h, d, n)).2.1.optional ↔
        c ∈ d.optional ∨ (h.dlx_col = 0 ∧ n ≤ c ∧ c < n + 1)) := by
  unfold per_col_dlx.assign_one
  by_cases h0 : h.dlx_col = 0
  · simp only [h0, if_true, dlx_mark_optional, List.mem_cons, true_and]
    intro c
    constructor
    · rintro (h | h)
      · right; omega
      · left; exact h
    · rintro (h | h)
      · right; exact h
      · left; omega
  · simp [h0]

theorem skipLoop_spec (row : Nat) (P : Nat → Prop) [DecidablePred P] (g : Nat → Nat)
    (l : List Nat) (d : dlx_t) :
    ((l.foldl (fun d k => if P k then d else dlx_set d row (g k)) d).optional = d.optional) ∧
      (∀ x, x ∈ (l.foldl (fun d k => if P k then d else dlx_set d row (g k)) d).cells ↔
        x ∈ d.cells ∨ (x.1 = row ∧ ∃ k ∈ l, ¬ P k ∧ x.2 = g k)) := by
  have e : (fun (d : dlx_t) k => if P k then d else dlx_set d row (g k)) =
      (fun d k => if decide (¬ P k) = true then dlx_set d row (g k) else d) := by
    funext d k
    by_cases hp : P k <;> simp [hp]
  rw [e]
  simpa using setLoop_spec row (fun k => decide (¬ P k)) g l d

theorem allLoop_spec (row : Nat) (g : Nat → Nat) (l : List Nat) (d : dlx_t) :
    ((l.foldl (fun d k => dlx_set d row (g k)) d).optional = d.optional) ∧
      (∀ x, x ∈ (l.foldl (fun d k => dlx_set d row (g k)) d).cells ↔
        x ∈ d.cells ∨ (x.1 = row ∧ ∃ k ∈ l, x.2 = g k)) := by
  simpa using setLoop_spec row (fun _ => true) g l d

theorem has_settle (a : List Nat) (n : Nat) (h : hint_s) (i : Nat) :
    per_col_dlx.has a (per_col_dlx.settle n h) i = per_col_dlx.has a h i := by
  unfold per_col_dlx.settle per_col_dlx.has
  split <;> rfl

theorem cmd_settle (n : Nat) (h : hint_s) : (per_col_dlx.settle n h).cmd = h.cmd := by
  unfold per_col_dlx.settle
  split <;> rfl

theorem coord_settle (n : Nat) (h : hint_s) : (per_col_dlx.settle n h).coord = h.coord := by
  unfold per_col_dlx.settle
  split <;> rfl

theorem match_settle (a : List Nat) (n : Nat) (h : hint_s) :
    per_col_dlx.match_ a (per_col_dlx.settle n h) = per_col_dlx.match_ a h := by
  unfold per_col_dlx.match_ hint_s.n
  simp only [has_settle, coord_settle]

theorem anon_settle (a : List Nat) (n : Nat) (h : hint_s) :
    per_col_dlx.anon a (per_col_dlx.settle n h) = per_col_dlx.anon a h := by
  unfold per_col_dlx.anon
  simp only [has_settle, match_settle, cmd_settle]

theorem opthints_lt (N : Nat) (a : List Nat) (row : Nat) (h : hint_s) (d : dlx_t) (n : Nat)
    (hc : h.cmd = '<') :
    (per_col_dlx.opthints N a row (h, d, n)).1 = per_col_dlx.settle n h ∧
      (per_col_dlx.opthints N a row (h, d, n)).2.2 = per_col_dlx.bump N n h ∧
      (∀ x, x ∈ (per_col_dlx.opthints N a row (h, d, n)).2.1.cells ↔
        x ∈ d.cells ∨ (x.1 = row ∧ per_col_dlx.optSet N a (per_col_dlx.settle n h) x.2)) ∧
      (∀ c, c ∈ (per_col_dlx.opthints N a row (h, d, n)).2.1.optional ↔
        c ∈ d.optional ∨ (per_col_dlx.fresh h ∧ n ≤ c ∧ c < n + per_col_dlx.width N h)) := by
  obtain ⟨e1, e2, e3, e4⟩ := assign_dlx_col_spec N h d n
  have hs : per_col_dlx.settle n h = (per_col_dlx.assign_dlx_col N (h, d, n)).1 := by
    rw [e1]; simp [per_col_dlx.settle, per_col_dlx.fresh, per_col_dlx.usesCols, hc]
  have hf : per_col_dlx.fresh h ↔ h.dlx_col = 0 := by
    simp [per_col_dlx.fresh, per_col_dlx.usesCols, hc]
  have hw : per_col_dlx.width N h = N := by simp [per_col_dlx.width, hc]
  have hcs : (per_col_dlx.settle n h).cmd = '<' := by rw [cmd_settle, hc]
  simp only [per_col_dlx.opthints, hc]
  rw [← hs]
  refine ⟨rfl, ?_, ?_, ?_⟩
  · rw [e2]; simp only [per_col_dlx.bump, hf, hw]
  · intro x
    simp only [per_col_dlx.optSet, hcs]
    by_cases h0 : per_col_dlx.has a (per_col_dlx.settle n h) 0 = true <;>
      by_cases h1 : per_col_dlx.has a (per_col_dlx.settle n h) 1 = true <;>
      simp only [h0, h1, if_true, if_false, (allLoop_spec _ _ _ _).2, e3, List.mem_range,
        List.mem_range'_1, true_and, false_and, and_false, or_false, false_or,
        Nat.lt_succ_iff, Bool.false_eq_true]
    · constructor
      · rintro ((hx | ⟨hr, k, hk, hx⟩) | ⟨hr, k, hk, hx⟩)
        · exact Or.inl hx
        · exact Or.inr ⟨hr, Or.inl ⟨k, hk, hx⟩⟩
        · exact Or.inr ⟨hr, Or.inr ⟨k, hk.1, by omega, hx⟩⟩
      · rintro (hx | ⟨hr, ⟨k, hk, hx⟩ | ⟨k, hk1, hk2, hx⟩⟩)
        · exact Or.inl (Or.inl hx)
        · exact Or.inl (Or.inr ⟨hr, k, hk, hx⟩)
        · exact Or.inr ⟨hr, k, ⟨hk1, by omega⟩, hx⟩
    · constructor
      · rintro (hx | ⟨hr, k, hk, hx⟩)
        · exact Or.inl hx
        · exact Or.inr ⟨hr, k, hk.1, by omega, hx⟩
      · rintro (hx | ⟨hr, k, hk1, hk2, hx⟩)
        · exact Or.inl hx
        · exact Or.inr ⟨hr, k, ⟨hk1, by omega⟩, hx⟩
  · intro c
    have hopt : ∀ (D : dlx_t) (l : List Nat),
        (l.foldl (fun d k => dlx_set d row ((per_col_dlx.settle n h).dlx_col + k)) D).optional =
          D.optional := fun D l => (allLoop_spec row _ l D).1
    by_cases h0 : per_col_dlx.has a (per_col_dlx.settle n h) 0 = true <;>
      by_cases h1 : per_col_dlx.has a (per_col_dlx.settle n h) 1 = true <;>
      simp only [h0, h1, if_true, if_false, hopt, e4, hf, hw, Bool.false_eq_true]

theorem dlx_set_cells (d : dlx_t) (r c : Nat) : (dlx_set d r c).cells = (r, c) :: d.cells := rfl

theorem dlx_set_optional (d : dlx_t) (r c : Nat) : (dlx_set d r c).optional = d.optional := rfl

theorem opthints_one (N : Nat) (a : List Nat) (row : Nat) (h : hint_s) (d : dlx_t) (n : Nat)
    (hc : h.cmd = '1') :
    (per_col_dlx.opthints N a row (h, d, n)).1 = per_col_dlx.settle n h ∧
      (per_col_dlx.opthints N a row (h, d, n)).2.2 = per_col_dlx.bump N n h ∧
      (∀ x, x ∈ (per_col_dlx.opthints N a row (h, d, n)).2.1.cells ↔
        x ∈ d.cells ∨ (x.1 = row ∧ per_col_dlx.optSet N a (per_col_dlx.settle n h) x.2)) ∧
      (∀ c, c ∈ (per_col_dlx.opthints N a row (h, d, n)).2.1.optional ↔
        c ∈ d.optional ∨ (per_col_dlx.fresh h ∧ n ≤ c ∧ c < n + per_col_dlx.width N h)) := by
  obtain ⟨e1, e2, e3, e4⟩ := assign_dlx_col_spec N h d n
  have hs : per_col_dlx.settle n h = (per_col_dlx.assign_dlx_col N (h, d, n)).1 := by
    rw [e1]; simp [per_col_dlx.settle, per_col_dlx.fresh, per_col_dlx.usesCols, hc]
  have hf : per_col_dlx.fresh h ↔ h.dlx_col = 0 := by
    simp [per_col_dlx.fresh, per_col_dlx.usesCols, hc]
  have hw : per_col_dlx.width N h = N := by simp [per_col_dlx.width, hc]
  have hcs : (per_col_dlx.settle n h).cmd = '1' := by rw [cmd_settle, hc]
  simp only [per_col_dlx.opthints, hc]
  rw [← hs]
  refine ⟨rfl, ?_, ?_, ?_⟩
  · rw [e2]; simp only [per_col_dlx.bump, hf, hw]
  · intro x
    simp only [per_col_dlx.optSet, hcs]
    by_cases h0 : per_col_dlx.has a (per_col_dlx.settle n h) 0 = true <;>
      by_cases h1 : per_col_dlx.has a (per_col_dlx.settle n h) 1 = true <;>
      simp only [h0, h1, if_true, if_false, (skipLoop_spec _ _ _ _ _).2, e3, List.mem_range,
        dlx_set_cells, List.mem_cons, true_and, false_and, and_false, or_false, false_or,
        Bool.false_eq_true]
    · constructor
      · rintro (hx | hx | hx)
        · exact Or.inr ⟨by rw [hx], Or.inr (by rw [hx])⟩
        · exact Or.inl hx
        · exact Or.inr ⟨hx.1, Or.inl hx.2⟩
      · rintro (hx | ⟨hr, hx | hx⟩)
        · exact Or.inr (Or.inl hx)
        · exact Or.inr (Or.inr ⟨hr, hx⟩)
        · exact Or.inl (Prod.ext hr hx)
    · constructor
      · rintro (hx | hx)
        · exact Or.inr ⟨by rw [hx], by rw [hx]⟩
        · exact Or.inl hx
      · rintro (hx | ⟨hr, hx⟩)
        · exact Or.inr hx
        · exact Or.inl (Prod.ext hr hx)
  · intro c
    have hopt : ∀ (D : dlx_t) (l : List Nat),
        (l.foldl (fun d k => if k = a.getD 0 0 + 1 then d
          else dlx_set d row ((per_col_dlx.settle n h).dlx_col + k)) D).optional =
          D.optional := fun D l => (skipLoop_spec row _ _ l D).1
    by_cases h0 : per_col_dlx.has a (per_col_dlx.settle n h) 0 = true <;>
      by_cases h1 : per_col_dlx.has a (per_col_dlx.settle n h) 1 = true <;>
      simp only [h0, h1, if_true, if_false, hopt, e4, hf, hw, Bool.false_eq_true,
        dlx_set_optional]

theorem opthints_adj (N : Nat) (a : List Nat) (row : Nat) (h : hint_s) (d : dlx_t) (n : Nat)
    (hc : h.cmd = 'A') :
    (per_col_dlx.opthints N a row (h, d, n)).1 = per_col_dlx.settle n h ∧
      (per_col_dlx.opthints N a row (h, d, n)).2.2 = per_col_dlx.bump N n h ∧
      (∀ x, x ∈ (per_col_dlx.opthints N a row (h, d, n)).2.1.cells ↔
        x ∈ d.cells ∨ (x.1 = row ∧ per_col_dlx.optSet N a (per_col_dlx.settle n h) x.2)) ∧
      (∀ c, c ∈ (per_col_dlx.opthints N a row (h, d, n)).2.1.optional ↔
        c ∈ d.optional ∨ (per_col_dlx.fresh h ∧ n ≤ c ∧ c < n + per_col_dlx.width N h)) := by
  obtain ⟨e1, e2, e3, e4⟩ := assign_dlx_col_spec N h d n
  have hs : per_col_dlx.settle n h = (per_col_dlx.assign_dlx_col N (h, d, n)).1 := by
    rw [e1]; simp [per_col_dlx.settle, per_col_dlx.fresh, per_col_dlx.usesCols, hc]
  have hf : per_col_dlx.fresh h ↔ h.dlx_col = 0 := by
    simp [per_col_dlx.fresh, per_col_dlx.usesCols, hc]
  have hw : per_col_dlx.width N h = N := by simp [per_col_dlx.width, hc]
  have hcs : (per_col_dlx.settle n h).cmd = 'A' := by rw [cmd_settle, hc]
  simp only [per_col_dlx.opthints, hc]
  rw [← hs]
  refine ⟨rfl, ?_, ?_, ?_⟩
  · rw [e2]; simp only [per_col_dlx.bump, hf, hw]
  · intro x
    simp only [per_col_dlx.optSet, hcs]
    by_cases h0 : per_col_dlx.has a (per_col_dlx.settle n h) 0 = true <;>
      by_cases h1 : per_col_dlx.has a (per_col_dlx.settle n h) 1 = true <;>
      simp only [h0, h1, if_true, if_false, (skipLoop_spec _ _ _ _ _).2, e3, List.mem_range,
        dlx_set_cells, List.mem_cons, true_and, false_and, and_false, or_false, false_or,
        Bool.false_eq_true]
    · constructor
      · rintro (hx | hx | hx)
        · exact Or.inr ⟨by rw [hx], Or.inr (by rw [hx])⟩
        · exact Or.inl hx
        · exact Or.inr ⟨hx.1, Or.inl hx.2⟩
      · rintro (hx | ⟨hr, hx | hx⟩)
        · exact Or.inr (Or.inl hx)
        · exact Or.inr (Or.inr ⟨hr, hx⟩)
        · exact Or.inl (Prod.ext hr hx)
    · constructor
      · rintro (hx | hx)
        · exact Or.inr ⟨by rw [hx], by rw [hx]⟩
        · exact Or.inl hx
      · rintro (hx | ⟨hr, hx⟩)
        · exact Or.inr hx
        · exact Or.inl (Prod.ext hr hx)
  · intro c
    have hopt : ∀ (D : dlx_t) (l : List Nat),
        (l.foldl (fun d (k : Nat) => if ((k : Int) - (a.getD 0 0 : Int)).natAbs = 1 then d
          else dlx_set d row ((per_col_dlx.settle n h).dlx_col + k)) D).optional =
          D.optional := fun D l => (skipLoop_spec row _ _ l D).1
    by_cases h0 : per_col_dlx.has a (per_col_dlx.settle n h) 0 = true <;>
      by_cases h1 : per_col_dlx.has a (per_col_dlx.settle n h) 1 = true <;>
      simp only [h0, h1, if_true, if_false, hopt, e4, hf, hw, Bool.false_eq_true,
        dlx_set_optional]

theorem opthints_crowd (N : Nat) (a : List Nat) (row : Nat) (h : hint_s) (d : dlx_t) (n : Nat)
    (hc : h.cmd = '^') :
    (per_col_dlx.opthints N a row (h, d, n)).1 = per_col_dlx.settle n h ∧
      (per_col_dlx.opthints N a row (h, d, n)).2.2 = per_col_dlx.bump N n h ∧
      (∀ x, x ∈ (per_col_dlx.opthints N a row (h, d, n)).2.1.cells ↔
        x ∈ d.cells ∨ (x.1 = row ∧ per_col_dlx.optSet N a (per_col_dlx.settle n h) x.2)) ∧
      (∀ c, c ∈ (per_col_dlx.opthints N a row (h, d, n)).2.1.optional ↔
        c ∈ d.optional ∨ (per_col_dlx.fresh h ∧ n ≤ c ∧ c < n + per_col_dlx.width N h)) := by
  obtain ⟨e1, e2, e3, e4⟩ := assign_one_spec h d n
  have hs : per_col_dlx.settle n h = (per_col_dlx.assign_one (h, d, n)).1 := by
    rw [e1]; simp [per_col_dlx.settle, per_col_dlx.fresh, per_col_dlx.usesCols, hc]
  have hf : per_col_dlx.fresh h ↔ h.dlx_col = 0 := by
    simp [per_col_dlx.fresh, per_col_dlx.usesCols, hc]
  have hw : per_col_dlx.width N h = 1 := by simp [per_col_dlx.width, hc]
  have hcs : (per_col_dlx.settle n h).cmd = '^' := by rw [cmd_settle, hc]
  simp only [per_col_dlx.opthints, hc]
  rw [← hs]
  refine ⟨rfl, ?_, ?_, ?_⟩
  · rw [e2]; simp only [per_col_dlx.bump, hf, hw]
  · intro x
    simp only [per_col_dlx.optSet, hcs, per_col_dlx.match_]
    split
    · rename_i h2
      simp only [dlx_set_cells, List.mem_cons, e3]
      constructor
      · rintro (hx | hx)
        · exact Or.inr ⟨by rw [hx], h2, by rw [hx]⟩
        · exact Or.inl hx
      · rintro (hx | ⟨hr, -, hx⟩)
        · exact Or.inr hx
        · exact Or.inl (Prod.ext hr hx)
    · rename_i h2
      rw [e3]
      constructor
      · exact Or.inl
      · rintro (hx | ⟨-, h2', -⟩)
        · exact hx
        · exact absurd h2' h2
  · intro c
    split <;> simp only [dlx_set_optional, e4, hf, hw]

theorem opthints_cross (N : Nat) (a : List Nat) (row : Nat) (h : hint_s) (d : dlx_t) (n : Nat)
    (hc : h.cmd = 'X') :
    (per_col_dlx.opthints N a row (h, d, n)).1 = per_col_dlx.settle n h ∧
      (per_col_dlx.opthints N a row (h, d, n)).2.2 = per_col_dlx.bump N n h ∧
      (∀ x, x ∈ (per_col_dlx.opthints N a row (h, d, n)).2.1.cells ↔
        x ∈ d.cells ∨ (x.1 = row ∧ per_col_dlx.optSet N a (per_col_dlx.settle n h) x.2)) ∧
      (∀ c, c ∈ (per_col_dlx.opthints N a row (h, d, n)).2.1.optional ↔
        c ∈ d.optional ∨ (per_col_dlx.fresh h ∧ n ≤ c ∧ c < n + per_col_dlx.width N h)) := by
  obtain ⟨e1, e2, e3, e4⟩ := assign_one_spec h d n
  have hs : per_col_dlx.settle n h = (per_col_dlx.assign_one (h, d, n)).1 := by
    rw [e1]; simp [per_col_dlx.settle, per_col_dlx.fresh, per_col_dlx.usesCols, hc]
  have hf : per_col_dlx.fresh h ↔ h.dlx_col = 0 := by
    simp [per_col_dlx.fresh, per_col_dlx.usesCols, hc]
  have hw : per_col_dlx.width N h = 1 := by simp [per_col_dlx.width, hc]
  have hcs : (per_col_dlx.settle n h).cmd = 'X' := by rw [cmd_settle, hc]
  simp only [per_col_dlx.opthints, hc]
  rw [← hs]
  refine ⟨rfl, ?_, ?_, ?_⟩
  · rw [e2]; simp only [per_col_dlx.bump, hf, hw]
  · intro x
    simp only [per_col_dlx.optSet, hcs]
    rw [(setLoop_spec row
      (fun k => per_col_dlx.has a (per_col_dlx.settle n h) (2 * k) &&
        per_col_dlx.has a (per_col_dlx.settle n h) (2 * k + 1))
      (fun _ => (per_col_dlx.settle n h).dlx_col) _ _).2 x, e3]
    simp only [List.mem_range, Bool.and_eq_true]
    constructor
    · rintro (hx | ⟨hr, k, hk, hb, hx⟩)
      · exact Or.inl hx
      · exact Or.inr ⟨hr, ⟨k, hk, hb⟩, hx⟩
    · rintro (hx | ⟨hr, ⟨k, hk, hb⟩, hx⟩)
      · exact Or.inl hx
      · exact Or.inr ⟨hr, k, hk, hb, hx⟩
  · intro c
    rw [(setLoop_spec row
      (fun k => per_col_dlx.has a (per_col_dlx.settle n h) (2 * k) &&
        per_col_dlx.has a (per_col_dlx.settle n h) (2 * k + 1))
      (fun _ => (per_col_dlx.settle n h).dlx_col) _ _).1, e4, hf, hw]

theorem opthints_other (N : Nat) (a : List Nat) (row : Nat) (h : hint_s) (d : dlx_t) (n : Nat)
    (hc : ¬ per_col_dlx.usesCols h) :
    per_col_dlx.opthints N a row (h, d, n) = (h, d, n) := by
  unfold per_col_dlx.usesCols at hc
  unfold per_col_dlx.opthints
  split <;> simp_all

theorem optSet_other (N : Nat) (a : List Nat) (h : hint_s) (c : Nat)
    (hc : ¬ per_col_dlx.usesCols h) : ¬ per_col_dlx.optSet N a h c := by
  unfold per_col_dlx.usesCols at hc
  unfold per_col_dlx.optSet
  split <;> simp_all

/-- What `opthints` does to the hint, the counter and the matrix. -/
theorem opthints_spec (N : Nat) (a : List Nat) (row : Nat) (h : hint_s) (d : dlx_t) (n : Nat) :
    (per_col_dlx.opthints N a row (h, d, n)).1 = per_col_dlx.settle n h ∧
      (per_col_dlx.opthints N a row (h, d, n)).2.2 = per_col_dlx.bump N n h ∧
      (∀ x, x ∈ (per_col_dlx.opthints N a row (h, d, n)).2.1.cells ↔
        x ∈ d.cells ∨ (x.1 = row ∧ per_col_dlx.optSet N a (per_col_dlx.settle n h) x.2)) ∧
      (∀ c, c ∈ (per_col_dlx.opthints N a row (h, d, n)).2.1.optional ↔
        c ∈ d.optional ∨ (per_col_dlx.fresh h ∧ n ≤ c ∧ c < n + per_col_dlx.width N h)) := by
  by_cases hu : per_col_dlx.usesCols h
  · rcases hu with hc | hc | hc | hc | hc
    · exact opthints_one N a row h d n hc
    · exact opthints_adj N a row h d n hc
    · exact opthints_lt N a row h d n hc
    · exact opthints_crowd N a row h d n hc
    · exact opthints_cross N a row h d n hc
  · have hnf : ¬ per_col_dlx.fresh h := fun hf => hu hf.1
    have hs : per_col_dlx.settle n h = h := by simp [per_col_dlx.settle, hnf]
    rw [opthints_other N a row h d n hu, hs]
    refine ⟨rfl, by simp [per_col_dlx.bump, hnf], ?_, ?_⟩
    · intro x
      constructor
      · exact Or.inl
      · rintro (hx | ⟨-, hx⟩)
        · exact hx
        · exact absurd hx (optSet_other N a h x.2 hu)
    · intro c
      constructor
      · exact Or.inl
      · rintro (hx | ⟨hx, -⟩)
        · exact hx
        · exact absurd hx hnf

/-! ### The instance built by `per_col_dlx` -/

/-- What the loop `F(i, hint_n) opthints(hint[i])` does to the hints, the counter and the
matrix. -/
theorem opthintsAll_spec (N : Nat) (a : List Nat) (row : Nat) :
    ∀ (hs : List hint_s) (d : dlx_t) (n : Nat),
      (per_col_dlx.opthintsAll N a row hs (d, n)).1 = per_col_dlx.settleAll N n hs ∧
      (per_col_dlx.opthintsAll N a row hs (d, n)).2.2 = per_col_dlx.bumpAll N n hs ∧
      (∀ x, x ∈ (per_col_dlx.opthintsAll N a row hs (d, n)).2.1.cells ↔
        x ∈ d.cells ∨
          (x.1 = row ∧ ∃ h ∈ per_col_dlx.settleAll N n hs, per_col_dlx.optSet N a h x.2)) ∧
      (∀ c, c ∈ (per_col_dlx.opthintsAll N a row hs (d, n)).2.1.optional ↔
        c ∈ d.optional ∨ per_col_dlx.newCols N n hs c) := by
  intro hs
  induction hs with
  | nil =>
    intro d n
    simp [per_col_dlx.opthintsAll, per_col_dlx.settleAll, per_col_dlx.bumpAll,
      per_col_dlx.newCols]
  | cons h hs ih =>
    intro d n
    obtain ⟨o1, o2, o3, o4⟩ := opthints_spec N a row h d n
    have ih' := ih (per_col_dlx.opthints N a row (h, d, n)).2.1
      (per_col_dlx.opthints N a row (h, d, n)).2.2
    have i1 : (per_col_dlx.opthintsAll N a row hs (per_col_dlx.opthints N a row (h, d, n)).2).1 =
        per_col_dlx.settleAll N (per_col_dlx.opthints N a row (h, d, n)).2.2 hs := ih'.1
    have i2 : (per_col_dlx.opthintsAll N a row hs
        (per_col_dlx.opthints N a row (h, d, n)).2).2.2 =
        per_col_dlx.bumpAll N (per_col_dlx.opthints N a row (h, d, n)).2.2 hs := ih'.2.1
    have i3 : ∀ x, x ∈ (per_col_dlx.opthintsAll N a row hs
        (per_col_dlx.opthints N a row (h, d, n)).2).2.1.cells ↔
        x ∈ (per_col_dlx.opthints N a row (h, d, n)).2.1.cells ∨
          (x.1 = row ∧ ∃ h' ∈ per_col_dlx.settleAll N
            (per_col_dlx.opthints N a row (h, d, n)).2.2 hs, per_col_dlx.optSet N a h' x.2) :=
      ih'.2.2.1
    have i4 : ∀ c, c ∈ (per_col_dlx.opthintsAll N a row hs
        (per_col_dlx.opthints N a row (h, d, n)).2).2.1.optional ↔
        c ∈ (per_col_dlx.opthints N a row (h, d, n)).2.1.optional ∨
          per_col_dlx.newCols N (per_col_dlx.opthints N a row (h, d, n)).2.2 hs c := ih'.2.2.2
    rw [o2] at i1 i2 i3 i4
    refine ⟨?_, ?_, ?_, ?_⟩
    · show (per_col_dlx.opthints N a row (h, d, n)).1 :: _ = _
      rw [o1]
      exact congrArg _ i1
    · exact i2
    · intro x
      simp only [per_col_dlx.settleAll, List.mem_cons]
      refine (i3 x).trans ?_
      rw [o3]
      constructor
      · rintro ((hx | ⟨hr, hx⟩) | ⟨hr, h', hh, hx⟩)
        · exact Or.inl hx
        · exact Or.inr ⟨hr, _, Or.inl rfl, hx⟩
        · exact Or.inr ⟨hr, h', Or.inr hh, hx⟩
      · rintro (hx | ⟨hr, h', rfl | hh, hx⟩)
        · exact Or.inl (Or.inl hx)
        · exact Or.inl (Or.inr ⟨hr, hx⟩)
        · exact Or.inr ⟨hr, h', hh, hx⟩
    · intro c
      simp only [per_col_dlx.newCols]
      refine (i4 c).trans ?_
      rw [o4]
      tauto

theorem any_anon_settleAll (N : Nat) (a : List Nat) :
    ∀ (hs : List hint_s) (n : Nat),
      (per_col_dlx.settleAll N n hs).any (fun h => per_col_dlx.anon a h) =
        hs.any (fun h => per_col_dlx.anon a h) := by
  intro hs
  induction hs with
  | nil => intro n; rfl
  | cons h hs ih =>
    intro n
    simp only [per_col_dlx.settleAll, List.any_cons, anon_settle, ih]

theorem bump_le (N n : Nat) (h : hint_s) : n ≤ per_col_dlx.bump N n h := by
  unfold per_col_dlx.bump
  split <;> omega

theorem settle_not_fresh {n : Nat} (hn : 1 ≤ n) (h : hint_s) :
    ¬ per_col_dlx.fresh (per_col_dlx.settle n h) := by
  unfold per_col_dlx.settle
  split
  · rename_i hf
    rintro ⟨-, h0⟩
    simp at h0
    omega
  · rename_i hf
    exact hf

theorem settleAll_not_fresh (N : Nat) :
    ∀ (hs : List hint_s) (n : Nat), 1 ≤ n →
      ∀ h ∈ per_col_dlx.settleAll N n hs, ¬ per_col_dlx.fresh h := by
  intro hs
  induction hs with
  | nil => intro n _ h hh; simp [per_col_dlx.settleAll] at hh
  | cons x xs ih =>
    intro n hn h hh
    simp only [per_col_dlx.settleAll, List.mem_cons] at hh
    rcases hh with e | e
    · rw [e]; exact settle_not_fresh hn x
    · exact ih _ (Nat.le_trans hn (bump_le N n x)) h e

theorem settleAll_fixed (N : Nat) :
    ∀ (hs : List hint_s) (n : Nat), (∀ h ∈ hs, ¬ per_col_dlx.fresh h) →
      per_col_dlx.settleAll N n hs = hs ∧ per_col_dlx.bumpAll N n hs = n ∧
        ∀ c, ¬ per_col_dlx.newCols N n hs c := by
  intro hs
  induction hs with
  | nil => intro n _; simp [per_col_dlx.settleAll, per_col_dlx.bumpAll, per_col_dlx.newCols]
  | cons x xs ih =>
    intro n hnf
    have hx : ¬ per_col_dlx.fresh x := hnf x (List.mem_cons_self _ _)
    have hb : per_col_dlx.bump N n x = n := by simp [per_col_dlx.bump, hx]
    have hs : per_col_dlx.settle n x = x := by simp [per_col_dlx.settle, hx]
    obtain ⟨i1, i2, i3⟩ := ih n (fun h hh => hnf h (List.mem_cons_of_mem _ hh))
    simp only [per_col_dlx.settleAll, per_col_dlx.bumpAll, per_col_dlx.newCols, hb, hs, i1, i2,
      true_and]
    intro c
    rintro (⟨hf, -⟩ | hc)
    · exact hx hf
    · exact i3 c hc

theorem map_getD_range (a : List Nat) : (List.range a.length).map (fun i => a.getD i 0) = a := by
  apply List.ext_getElem
  · simp
  · intro i h1 h2
    simp only [List.getElem_map, List.getElem_range]
    exact List.getD_eq_getElem _ _ h2

/-- What the base case of `f` does with a candidate that no hint disqualifies. -/
theorem leaf_survivor (M N : Nat) (a : List Nat) (st : per_col_dlx.State) (ha : a.length = M)
    (hs : st.hint.any (fun h => per_col_dlx.anon a h) = false) :
    (per_col_dlx.leaf M N a st).dlx_a = st.dlx_a ++ [a] ∧
      (per_col_dlx.leaf M N a st).dlxM = st.dlxM + 1 ∧
      (per_col_dlx.leaf M N a st).hint = per_col_dlx.settleAll N st.dlxN st.hint ∧
      (per_col_dlx.leaf M N a st).dlxN = per_col_dlx.bumpAll N st.dlxN st.hint ∧
      (∀ x, x ∈ (per_col_dlx.leaf M N a st).dlx.cells ↔
        x ∈ st.dlx.cells ∨ (x.1 = st.dlxM ∧
          per_col_dlx.rowSets M N (per_col_dlx.settleAll N st.dlxN st.hint) a x.2)) ∧
      (∀ c, c ∈ (per_col_dlx.leaf M N a st).dlx.optional ↔
        c ∈ st.dlx.optional ∨ per_col_dlx.newCols N st.dlxN st.hint c) := by
  obtain ⟨p1, p2⟩ := allLoop_spec st.dlxM (fun k => N * k + a.getD k 0) (List.range M) st.dlx
  obtain ⟨o1, o2, o3, o4⟩ := opthintsAll_spec N a st.dlxM st.hint
    ((List.range M).foldl (fun d k => dlx_set d st.dlxM (N * k + a.getD k 0)) st.dlx) st.dlxN
  unfold per_col_dlx.leaf
  simp only [hs, Bool.false_eq_true, if_false]
  refine ⟨?_, trivial, o1, o2, ?_, ?_⟩
  · rw [← ha, map_getD_range]
  · intro x
    rw [o3, p2]
    unfold per_col_dlx.rowSets per_col_dlx.symCol
    simp only [List.mem_range]
    constructor
    · rintro ((hx | ⟨hr, hx⟩) | ⟨hr, hx⟩)
      · exact Or.inl hx
      · exact Or.inr ⟨hr, Or.inl hx⟩
      · exact Or.inr ⟨hr, Or.inr hx⟩
    · rintro (hx | ⟨hr, hx | hx⟩)
      · exact Or.inl (Or.inl hx)
      · exact Or.inl (Or.inr ⟨hr, hx⟩)
      · exact Or.inr ⟨hr, hx⟩
  · intro c
    rw [o4, p1]

theorem getElem?_append_singleton (s : List (List Nat)) (a : List Nat) (r : Nat) (b : List Nat) :
    (s ++ [a])[r]? = some b ↔ s[r]? = some b ∨ (r = s.length ∧ b = a) := by
  by_cases hr : r < s.length
  · rw [List.getElem?_append_left hr]
    constructor
    · exact Or.inl
    · rintro (h | ⟨h, -⟩)
      · exact h
      · omega
  · rw [List.getElem?_append_right (by omega)]
    have hnone : s[r]? = none := List.getElem?_eq_none (by omega)
    rw [hnone]
    by_cases he : r = s.length
    · subst he
      simp [eq_comm]
    · have : r - s.length ≠ 0 := by omega
      obtain ⟨m, hm⟩ := Nat.exists_eq_succ_of_ne_zero this
      rw [hm]
      simp [he]

theorem leaf_built {M N : Nat} {hint : List hint_s} {s : List (List Nat)}
    {st : per_col_dlx.State} (hMN : 1 ≤ M * N) (hb : per_col_dlx.Built M N hint s st)
    {a : List Nat} (ha : a.length = M) :
    per_col_dlx.Built M N hint (s ++ (if per_col_dlx.survives hint a = true then [a] else []))
      (per_col_dlx.leaf M N a st) := by
  obtain ⟨b1, b2, b3, b4⟩ := hb
  have hany : st.hint.any (fun h => per_col_dlx.anon a h) =
      hint.any (fun h => per_col_dlx.anon a h) := by
    by_cases hs : s = []
    · rw [b3 hs]; rfl
    · rw [(b4 hs).1, any_anon_settleAll]
  by_cases hsv : per_col_dlx.survives hint a = true
  · have hfalse : st.hint.any (fun h => per_col_dlx.anon a h) = false := by
      rw [hany]
      unfold per_col_dlx.survives at hsv
      simpa using hsv
    obtain ⟨l1, l2, l3, l4, l5, l6⟩ := leaf_survivor M N a st ha hfalse
    simp only [hsv, if_true]
    by_cases hs : s = []
    · have hst := b3 hs
      subst hs
      have hd : st.dlx = dlx_new := by rw [hst]; rfl
      have hN : st.dlxN = M * N := by rw [hst]; rfl
      have hh : st.hint = hint := by rw [hst]; rfl
      have hM : st.dlxM = 0 := by rw [hst]; rfl
      rw [hN, hh] at l3 l4 l5 l6
      refine ⟨by rw [l1, b1], by rw [l2, hM]; rfl, fun h => by simp at h, fun _ => ⟨l3, l4, ?_, ?_⟩⟩
      · intro x
        rw [l5, hd, hM]
        simp only [dlx_new, List.not_mem_nil, false_or, List.nil_append]
        constructor
        · rintro ⟨hx, hr⟩
          exact ⟨a, by rw [hx]; rfl, hr⟩
        · rintro ⟨a', ha', hr⟩
          have := (getElem?_append_singleton [] a x.1 a').mp ha'
          simp at this
          exact ⟨this.1, this.2 ▸ hr⟩
      · intro c
        rw [l6, hd]
        simp [dlx_new]
    · obtain ⟨c1, c2, c3, c4⟩ := b4 hs
      have hB : 1 ≤ M * N := hMN
      obtain ⟨f1, f2, f3⟩ := settleAll_fixed N (per_col_dlx.settleAll N (M * N) hint)
        (per_col_dlx.bumpAll N (M * N) hint) (settleAll_not_fresh N hint (M * N) hB)
      rw [c2, c1, f1] at l3 l5
      rw [c2, c1, f2] at l4
      rw [c2, c1] at l6
      refine ⟨by rw [l1, b1], by rw [l2, b2]; simp, fun h => by simp at h,
        fun _ => ⟨l3, l4, ?_, ?_⟩⟩
      · intro x
        rw [l5, c3, b2]
        constructor
        · rintro (⟨a', ha', hr⟩ | ⟨hx, hr⟩)
          · exact ⟨a', (getElem?_append_singleton s a x.1 a').mpr (Or.inl ha'), hr⟩
          · exact ⟨a, (getElem?_append_singleton s a x.1 a).mpr (Or.inr ⟨hx, rfl⟩), hr⟩
        · rintro ⟨a', ha', hr⟩
          rcases (getElem?_append_singleton s a x.1 a').mp ha' with h | ⟨h, e⟩
          · exact Or.inl ⟨a', h, hr⟩
          · exact Or.inr ⟨h, e ▸ hr⟩
      · intro c
        rw [l6, c4]
        constructor
        · rintro (h | h)
          · exact h
          · exact absurd h (f3 c)
        · exact Or.inl
  · have htrue : st.hint.any (fun h => per_col_dlx.anon a h) = true := by
      rw [hany]
      unfold per_col_dlx.survives at hsv
      simpa using hsv
    have hleaf : per_col_dlx.leaf M N a st = st := by
      unfold per_col_dlx.leaf
      simp only [htrue, if_true]
    simp only [hsv, Bool.false_eq_true, if_false, List.append_nil, hleaf]
    exact ⟨b1, b2, b3, b4⟩

theorem foldl_built {M N : Nat} {hint : List hint_s} (hMN : 1 ≤ M * N) :
    ∀ (l : List (List Nat)) (s : List (List Nat)) (st : per_col_dlx.State),
      (∀ a ∈ l, a.length = M) → per_col_dlx.Built M N hint s st →
      per_col_dlx.Built M N hint (s ++ l.filter (per_col_dlx.survives hint))
        (l.foldl (fun st t => per_col_dlx.leaf M N t st) st) := by
  intro l
  induction l with
  | nil => intro s st _ hb; simpa using hb
  | cons a l ih =>
    intro s st hl hb
    rw [List.foldl_cons]
    have h1 := leaf_built hMN hb (hl a (List.mem_cons_self _ _))
    have h2 := ih _ _ (fun b hb' => hl b (List.mem_cons_of_mem _ hb')) h1
    rw [List.filter_cons]
    by_cases hsv : per_col_dlx.survives hint a = true
    · simp only [hsv, if_true] at h2 ⊢
      simpa using h2
    · simp only [hsv, Bool.false_eq_true, if_false, List.append_nil] at h2 ⊢
      exact h2

/-- The instance that `per_col_dlx` builds: its DLX-rows are the surviving candidates in
lexicographic order, and the matrix holds the columns of each. -/
theorem per_col_dlx_built (M N : Nat) (hint : List hint_s) (hMN : 1 ≤ M * N) :
    per_col_dlx.Built M N hint (per_col_dlx.survivors M N hint) (per_col_dlx M N hint) := by
  have hf := f_eq_foldl M N M (List.replicate M 0) (per_col_dlx.init M N hint) (Nat.le_refl M)
    (by simp)
  simp only [Nat.sub_self, List.take_zero, List.nil_append] at hf
  unfold per_col_dlx
  rw [hf]
  have h0 : per_col_dlx.Built M N hint [] (per_col_dlx.init M N hint) :=
    ⟨rfl, rfl, fun _ => rfl, fun h => absurd rfl h⟩
  have := foldl_built hMN (tuples N M) [] (per_col_dlx.init M N hint)
    (fun a ha => (mem_tuples.mp ha).1) h0
  simpa [per_col_dlx.survivors] using this

theorem optSet_ge {N : Nat} {a : List Nat} {h : hint_s} {c : Nat}
    (ho : per_col_dlx.optSet N a h c) : per_col_dlx.usesCols h ∧ h.dlx_col ≤ c := by
  unfold per_col_dlx.optSet at ho
  unfold per_col_dlx.usesCols
  split at ho
  · rename_i hc
    refine ⟨by simp [hc], ?_⟩
    rcases ho with ⟨-, k, -, -, e⟩ | ⟨-, e⟩ <;> omega
  · rename_i hc
    refine ⟨by simp [hc], ?_⟩
    rcases ho with ⟨-, k, -, -, e⟩ | ⟨-, e⟩ <;> omega
  · rename_i hc
    refine ⟨by simp [hc], ?_⟩
    rcases ho with ⟨-, k, -, e⟩ | ⟨-, k, -, -, e⟩ <;> omega
  · rename_i hc
    exact ⟨by simp [hc], by omega⟩
  · rename_i hc
    exact ⟨by simp [hc], by omega⟩
  · exact absurd ho id

theorem settleAll_base (N : Nat) :
    ∀ (hs : List hint_s) (n : Nat), (∀ h ∈ hs, h.dlx_col = 0) →
      ∀ h ∈ per_col_dlx.settleAll N n hs, per_col_dlx.usesCols h → n ≤ h.dlx_col := by
  intro hs
  induction hs with
  | nil => intro n _ h hh; simp [per_col_dlx.settleAll] at hh
  | cons x xs ih =>
    intro n h0 h hh hu
    simp only [per_col_dlx.settleAll, List.mem_cons] at hh
    rcases hh with e | e
    · subst e
      have hx0 := h0 x (List.mem_cons_self _ _)
      have hux : per_col_dlx.usesCols x := by
        unfold per_col_dlx.usesCols at hu ⊢
        rwa [cmd_settle] at hu
      have : per_col_dlx.fresh x := ⟨hux, hx0⟩
      simp [per_col_dlx.settle, this]
    · exact Nat.le_trans (bump_le N n x)
        (ih _ (fun h' hh' => h0 h' (List.mem_cons_of_mem _ hh')) h e hu)

theorem sym_index_lt {M N k v : Nat} (hk : k < M) (hv : v < N) : N * k + v < M * N := by
  have : N * k + N ≤ N * M := by
    have := Nat.mul_le_mul_left N (Nat.succ_le_of_lt hk)
    rw [Nat.mul_succ] at this
    exact this
  rw [Nat.mul_comm M N]
  omega

theorem symCol_lt {M N : Nat} {a : List Nat} {c : Nat} (ha : ∀ x ∈ a, x < N) (hl : a.length = M)
    (hs : per_col_dlx.symCol M N a c) : c < M * N := by
  obtain ⟨k, hk, e⟩ := hs
  have hv : a.getD k 0 < N := by
    rw [List.getD_eq_getElem _ _ (by omega)]
    exact ha _ (List.getElem_mem _)
  have : N * k + N ≤ N * M := by
    have := Nat.mul_le_mul_left N (Nat.succ_le_of_lt hk)
    rw [Nat.mul_succ] at this
    exact this
  rw [Nat.mul_comm M N]
  omega

theorem symCol_iff {M N : Nat} {a : List Nat} {k v : Nat} (ha : ∀ x ∈ a, x < N)
    (hl : a.length = M) (hk : k < M) (hv : v < N) :
    per_col_dlx.symCol M N a (N * k + v) ↔ a.getD k 0 = v := by
  constructor
  · rintro ⟨k', hk', e⟩
    have hv' : a.getD k' 0 < N := by
      rw [List.getD_eq_getElem _ _ (by omega)]
      exact ha _ (List.getElem_mem _)
    have hkk : k = k' := by
      rcases Nat.lt_trichotomy k k' with h | h | h
      · have := Nat.mul_le_mul_left N (Nat.succ_le_of_lt h)
        rw [Nat.mul_succ] at this
        omega
      · exact h
      · have := Nat.mul_le_mul_left N (Nat.succ_le_of_lt h)
        rw [Nat.mul_succ] at this
        omega
    subst hkk
    omega
  · intro e
    exact ⟨k, hk, by rw [e]⟩

/-- The cells of the built matrix: DLX-row `r` has a 1 in column `c` exactly when `r` is the
index of a surviving candidate whose row sets `c`. -/
theorem bit_iff (M N : Nat) (hint : List hint_s) (hMN : 1 ≤ M * N) (r c : Nat) :
    (per_col_dlx M N hint).dlx.bit r c = true ↔
      ∃ a, (per_col_dlx.survivors M N hint)[r]? = some a ∧
        per_col_dlx.rowSets M N (per_col_dlx.settleAll N (M * N) hint) a c := by
  obtain ⟨b1, b2, b3, b4⟩ := per_col_dlx_built M N hint hMN
  unfold dlx_t.bit
  rw [decide_eq_true_eq]
  by_cases hs : per_col_dlx.survivors M N hint = []
  · rw [b3 hs, hs]
    simp [per_col_dlx.init, dlx_new]
  · exact (b4 hs).2.2.1 (r, c)

theorem survivors_mem {M N : Nat} {hint : List hint_s} {a : List Nat}
    (ha : a ∈ per_col_dlx.survivors M N hint) :
    a.length = M ∧ (∀ x ∈ a, x < N) ∧ per_col_dlx.survives hint a = true := by
  unfold per_col_dlx.survivors at ha
  obtain ⟨h1, h2⟩ := List.mem_filter.mp ha
  exact ⟨(mem_tuples.mp h1).1, (mem_tuples.mp h1).2, h2⟩

/-- A surviving candidate sets the symbol column of `(k, v)` exactly when `a[k] = v`. -/
theorem rowSets_sym {M N : Nat} {hint : List hint_s} (h0 : ∀ h ∈ hint, h.dlx_col = 0)
    {a : List Nat} (ha : a ∈ per_col_dlx.survivors M N hint) {k v : Nat} (hk : k < M)
    (hv : v < N) :
    per_col_dlx.rowSets M N (per_col_dlx.settleAll N (M * N) hint) a (N * k + v) ↔
      a.getD k 0 = v := by
  obtain ⟨hl, hx, -⟩ := survivors_mem ha
  unfold per_col_dlx.rowSets
  rw [symCol_iff hx hl hk hv]
  constructor
  · rintro (h | ⟨h, hh, ho⟩)
    · exact h
    · obtain ⟨hu, hge⟩ := optSet_ge ho
      have := settleAll_base N hint (M * N) h0 h hh hu
      have hlt : N * k + v < M * N := sym_index_lt hk hv
      omega
  · exact Or.inl

theorem load_append_congr (h1 h2 : hint_s) (he : normalize h1 = normalize h2) :
    ∀ (pre post : List hint_s), load (pre ++ h1 :: post) = load (pre ++ h2 :: post) := by
  intro pre post
  induction pre with
  | nil => simp only [List.nil_append, load, he]
  | cons x xs ih =>
    show load (x :: (xs ++ h1 :: post)) = load (x :: (xs ++ h2 :: post))
    simp only [load, ih]

theorem column_length (M : Nat) (perm : List (List Nat)) (n : Nat) :
    (column M perm n).length = M := by
  simp [column]

theorem column_getD {M : Nat} (perm : List (List Nat)) (n : Nat) {k : Nat} (hk : k < M) :
    (column M perm n).getD k 0 = brute.get perm k n := by
  rw [List.getD_eq_getElem _ _ (by rw [column_length]; exact hk)]
  simp [column]

theorem column_zero {M : Nat} (hM : 1 ≤ M) (perm : List (List Nat)) (n : Nat) :
    (column M perm n).getD 0 0 = n := by
  rw [column_getD perm n (by omega)]
  simp [brute.get]

theorem get_lt {M N : Nat} {perm : List (List Nat)} (hg : isGrid M N perm) {k n : Nat}
    (hk : k < M) (hn : n < N) : brute.get perm k n < N := by
  unfold brute.get
  by_cases h0 : k = 0
  · simp [h0, hn]
  · simp only [ne_eq, h0, not_false_eq_true, if_true]
    have hp := isGrid_row hg (m := k - 1) (by omega)
    have hlen : (perm.getD (k - 1) []).length = N := by simpa using hp.length_eq
    rw [List.getD_eq_getElem _ _ (by omega)]
    exact List.mem_range.mp (hp.mem_iff.mp (List.getElem_mem _))

theorem column_mem_tuples {M N : Nat} {perm : List (List Nat)} (hg : isGrid M N perm) {n : Nat}
    (hn : n < N) : column M perm n ∈ tuples N M := by
  rw [mem_tuples]
  refine ⟨column_length M perm n, ?_⟩
  intro x hx
  simp only [column, List.mem_map, List.mem_range] at hx
  obtain ⟨k, hk, rfl⟩ := hx
  exact get_lt hg hk hn

theorem has_column {M : Nat} (perm : List (List Nat)) (h : hint_s) (i n : Nat)
    (hi : (Meaning.sym h i).1 < M) :
    per_col_dlx.has (column M perm n) h i = brute.has perm h i n := by
  unfold per_col_dlx.has brute.has
  unfold Meaning.sym at hi
  rw [column_getD perm n hi]

theorem match_column {M N : Nat} (perm : List (List Nat)) {h : hint_s} (hw : inGrid M N h)
    (n : Nat) : per_col_dlx.match_ (column M perm n) h = Meaning.inColumnCount perm h h.n n := by
  rw [← tally_eq]
  unfold per_col_dlx.match_ brute.tally
  rw [foldl_add_toNat, foldl_add_toNat]
  congr 1
  apply List.countP_congr
  intro i hi
  rw [has_column perm h i n (sym_inGrid hw (List.mem_range.mp hi)).1]

theorem countP_le_one_iff {α : Type} (p : α → Bool) (l : List α) (hl : l.Nodup) :
    l.countP p ≤ 1 ↔ ∀ a ∈ l, ∀ b ∈ l, p a = true → p b = true → a = b := by
  induction l with
  | nil => simp
  | cons x xs ih =>
    have hx : x ∉ xs := (List.nodup_cons.mp hl).1
    have ih' := ih (List.nodup_cons.mp hl).2
    rw [List.countP_cons]
    constructor
    · intro hc a ha b hb pa pb
      by_cases hpx : p x = true
      · have h0 : xs.countP p = 0 := by rw [if_pos hpx] at hc; omega
        rw [List.countP_eq_zero] at h0
        rcases List.mem_cons.mp ha with e1 | e1
        · rcases List.mem_cons.mp hb with e2 | e2
          · rw [e1, e2]
          · exact absurd pb (h0 b e2)
        · exact absurd pa (h0 a e1)
      · have hc' : xs.countP p ≤ 1 := by rw [if_neg hpx] at hc; omega
        rcases List.mem_cons.mp ha with e1 | e1
        · rw [e1] at pa; exact absurd pa hpx
        · rcases List.mem_cons.mp hb with e2 | e2
          · rw [e2] at pb; exact absurd pb hpx
          · exact ih'.mp hc' a e1 b e2 pa pb
    · intro hu
      by_cases hpx : p x = true
      · have h0 : xs.countP p = 0 := by
          rw [List.countP_eq_zero]
          intro a ha pa
          have := hu a (List.mem_cons_of_mem _ ha) x (List.mem_cons_self _ _) pa hpx
          exact hx (this ▸ ha)
        rw [if_pos hpx, h0]
      · have : xs.countP p ≤ 1 := ih'.mpr (fun a ha b hb pa pb =>
          hu a (List.mem_cons_of_mem _ ha) b (List.mem_cons_of_mem _ hb) pa pb)
        rw [if_neg hpx]
        omega

theorem countP_eq_one_of_unique {α : Type} (p : α → Bool) (l : List α) (hl : l.Nodup) {a : α}
    (ha : a ∈ l) (hpa : p a = true) (hu : ∀ b ∈ l, p b = true → b = a) : l.countP p = 1 := by
  have h1 : l.countP p ≤ 1 := (countP_le_one_iff p l hl).mpr
    (fun x hx y hy px py => (hu x hx px).trans (hu y hy py).symm)
  have h2 : 0 < l.countP p := List.countP_pos_iff.mpr ⟨a, ha, hpa⟩
  omega

theorem newCols_ge (N : Nat) :
    ∀ (hs : List hint_s) (n c : Nat), per_col_dlx.newCols N n hs c → n ≤ c := by
  intro hs
  induction hs with
  | nil => intro n c h; exact absurd h id
  | cons x xs ih =>
    intro n c h
    rcases h with ⟨-, h, -⟩ | h
    · exact h
    · exact Nat.le_trans (bump_le N n x) (ih _ c h)

theorem coverCount_pos_mem {d : dlx_t} {S : List Nat} {c : Nat} (h : 0 < coverCount d S c) :
    ∃ r ∈ S, d.bit r c = true := by
  unfold coverCount at h
  obtain ⟨r, hr, hb⟩ := List.countP_pos_iff.mp h
  exact ⟨r, hr, by simpa using hb⟩

theorem rejected_false {N : Nat} {perm : List (List Nat)} {hint : List hint_s}
    (hr : brute.rejected N perm hint = some false) :
    ∀ h ∈ hint, brute.check N perm h = some false := by
  induction hint with
  | nil => intro h hh; simp at hh
  | cons x xs ih =>
    unfold brute.rejected at hr
    split at hr
    · simp at hr
    · simp at hr
    · rename_i hx
      intro h hh
      rcases List.mem_cons.mp hh with e | e
      · rw [e]; exact hx
      · exact ih hr h e

theorem row_at {M N : Nat} {hint : List hint_s} (hMN : 1 ≤ M * N) {r : Nat}
    (hr : r < (per_col_dlx M N hint).dlxM) :
    (per_col_dlx.survivors M N hint)[r]? = some ((per_col_dlx M N hint).dlx_a.getD r []) ∧
      (per_col_dlx M N hint).dlx_a.getD r [] ∈ per_col_dlx.survivors M N hint := by
  obtain ⟨b1, b2, -, -⟩ := per_col_dlx_built M N hint hMN
  rw [b2] at hr
  rw [b1, List.getD_eq_getElem _ _ hr, List.getElem?_eq_getElem hr]
  exact ⟨rfl, List.getElem_mem _⟩

/-! ### Exact covers and grids -/

/-- In the built matrix DLX-row `r` has a 1 in the symbol column of `(k, v)` exactly when
its candidate has `a[k] = v`. -/
theorem bit_sym {M N : Nat} {hint : List hint_s} (hMN : 1 ≤ M * N)
    (h0 : ∀ h ∈ hint, h.dlx_col = 0) {r : Nat} (hr : r < (per_col_dlx M N hint).dlxM)
    {k v : Nat} (hk : k < M) (hv : v < N) :
    (per_col_dlx M N hint).dlx.bit r (N * k + v) = true ↔
      ((per_col_dlx M N hint).dlx_a.getD r []).getD k 0 = v := by
  obtain ⟨e, hm⟩ := row_at hMN hr
  rw [bit_iff M N hint hMN]
  constructor
  · rintro ⟨a, ha, hs⟩
    rw [e] at ha
    cases ha
    exact (rowSets_sym h0 hm hk hv).mp hs
  · intro hv'
    exact ⟨_, e, (rowSets_sym h0 hm hk hv).mpr hv'⟩

theorem count_range (N v : Nat) : (List.range N).count v = if v < N then 1 else 0 := by
  split
  · rename_i h
    exact List.count_eq_one_of_mem (List.nodup_range N) (List.mem_range.mpr h)
  · rename_i h
    exact List.count_eq_zero_of_not_mem (fun hm => h (List.mem_range.mp hm))

/-- The values `a[k]` of the rows of a set that covers every symbol column once. -/
theorem cover_values_perm {M N : Nat} {hint : List hint_s} (hMN : 1 ≤ M * N)
    (h0 : ∀ h ∈ hint, h.dlx_col = 0) {S : List Nat}
    (hr : ∀ r ∈ S, r < (per_col_dlx M N hint).dlxM)
    (hp : ∀ c < M * N, coverCount (per_col_dlx M N hint).dlx S c = 1) {k : Nat} (hk : k < M) :
    List.Perm (S.map (fun r => ((per_col_dlx M N hint).dlx_a.getD r []).getD k 0))
      (List.range N) := by
  rw [List.perm_iff_count]
  intro v
  rw [count_range, List.count_eq_countP, List.countP_map]
  split
  · rename_i hv
    rw [← hp (N * k + v) (sym_index_lt hk hv)]
    unfold coverCount
    apply List.countP_congr
    intro r hrS
    simp only [Function.comp, beq_iff_eq]
    rw [bit_sym hMN h0 (hr r hrS) hk hv]
  · rename_i hv
    rw [List.countP_eq_zero]
    intro r hrS
    simp only [Function.comp, beq_iff_eq]
    obtain ⟨-, hm⟩ := row_at hMN (hr r hrS)
    obtain ⟨hl, hx, -⟩ := survivors_mem hm
    have : ((per_col_dlx M N hint).dlx_a.getD r []).getD k 0 < N := by
      rw [List.getD_eq_getElem _ _ (by omega)]
      exact hx _ (List.getElem_mem _)
    omega

theorem survives_all {hint : List hint_s} {a : List Nat}
    (hs : per_col_dlx.survives hint a = true) :
    ∀ h ∈ hint, per_col_dlx.anon a h = false := by
  unfold per_col_dlx.survives at hs
  intro h hh
  by_contra hne
  have : hint.any (fun h => per_col_dlx.anon a h) = true :=
    List.any_eq_true.mpr ⟨h, hh, by simpa using hne⟩
  rw [this] at hs
  simp at hs

theorem cover_has_column {M N : Nat} {hint : List hint_s} (hM : 1 ≤ M) (hN : 1 ≤ N)
    (h0 : ∀ h ∈ hint, h.dlx_col = 0) {S : List Nat} {perm : List (List Nat)}
    (hcov : isExactCover M N (per_col_dlx M N hint) S)
    (hdesc : describes M (per_col_dlx M N hint) S perm) {n : Nat} (hn : n < N) :
    ∃ r ∈ S, (per_col_dlx M N hint).dlx_a.getD r [] = column M perm n := by
  have hMN : 1 ≤ M * N := Nat.mul_le_mul hM hN
  obtain ⟨-, hlt, hprim, -⟩ := hcov
  have hc := hprim (N * 0 + n) (sym_index_lt (by omega) hn)
  obtain ⟨r, hr, hb⟩ := coverCount_pos_mem (by rw [hc]; decide)
  have ha0 := (bit_sym hMN h0 (hlt r hr) (by omega) hn).mp hb
  obtain ⟨-, hm⟩ := row_at hMN (hlt r hr)
  obtain ⟨hl, -, -⟩ := survivors_mem hm
  refine ⟨r, hr, ?_⟩
  apply List.ext_getElem
  · rw [hl, column_length]
  · intro k h1 h2
    have hk : k < M := by omega
    have e1 := hdesc r hr k hk
    rw [ha0] at e1
    rw [List.getD_eq_getElem _ _ h1] at e1
    rw [e1]
    have e2 := column_getD perm n hk
    rw [List.getD_eq_getElem _ _ h2] at e2
    exact e2.symm

theorem optional_iff {M N : Nat} {hint : List hint_s} (hMN : 1 ≤ M * N) (c : Nat) :
    c ∈ (per_col_dlx M N hint).dlx.optional ↔
      per_col_dlx.survivors M N hint ≠ [] ∧ per_col_dlx.newCols N (M * N) hint c := by
  obtain ⟨-, -, b3, b4⟩ := per_col_dlx_built M N hint hMN
  by_cases hs : per_col_dlx.survivors M N hint = []
  · rw [b3 hs]
    simp [per_col_dlx.init, dlx_new, hs]
  · rw [(b4 hs).2.2.2 c]
    exact ⟨fun h => ⟨hs, h⟩, fun h => h.2⟩

/-- Every grid of an exact cover is a grid whose columns all survive and never set one
optional column twice. -/
theorem dlxAccepts_imp {M N : Nat} {hint : List hint_s} (hM : 1 ≤ M) (hN : 1 ≤ N)
    (h0 : ∀ h ∈ hint, h.dlx_col = 0) {perm : List (List Nat)}
    (hacc : dlxAccepts M N hint perm) :
    isGrid M N perm ∧ (∀ n < N, per_col_dlx.survives hint (column M perm n) = true) ∧
      (∀ c, per_col_dlx.newCols N (M * N) hint c → ∀ n1 < N, ∀ n2 < N,
        per_col_dlx.optRow N (per_col_dlx.settleAll N (M * N) hint) (column M perm n1) c →
        per_col_dlx.optRow N (per_col_dlx.settleAll N (M * N) hint) (column M perm n2) c →
        n1 = n2) := by
  have hMN : 1 ≤ M * N := Nat.mul_le_mul hM hN
  obtain ⟨htab, S, hcov, hdesc⟩ := hacc
  have hcol := fun n (hn : n < N) => cover_has_column hM hN h0 hcov hdesc hn
  obtain ⟨hnd, hlt, hprim, hopt⟩ := hcov
  refine ⟨⟨htab.1, ?_⟩, ?_, ?_⟩
  · intro row hrow
    obtain ⟨m, hm, hrm⟩ := List.getElem_of_mem hrow
    have hmM : m + 1 < M := by rw [htab.1] at hm; omega
    have hlen : row.length = N := htab.2 row hrow
    have hsub : List.range N ⊆ row := by
      intro v hv
      have hv := List.mem_range.mp hv
      have hp := cover_values_perm hMN h0 hlt hprim hmM
      have hvm := hp.mem_iff.mpr (List.mem_range.mpr hv)
      obtain ⟨r, hr, e⟩ := List.mem_map.mp hvm
      have e1 := hdesc r hr (m + 1) hmM
      rw [e] at e1
      obtain ⟨-, hmem⟩ := row_at hMN (hlt r hr)
      obtain ⟨hl, hx, -⟩ := survivors_mem hmem
      have h0N : ((per_col_dlx M N hint).dlx_a.getD r []).getD 0 0 < N := by
        rw [List.getD_eq_getElem _ _ (by omega)]
        exact hx _ (List.getElem_mem _)
      have hget : brute.get perm (m + 1) (((per_col_dlx M N hint).dlx_a.getD r []).getD 0 0) =
          row[((per_col_dlx M N hint).dlx_a.getD r []).getD 0 0] := by
        unfold brute.get
        simp only [ne_eq, Nat.add_one_ne_zero, not_false_eq_true, if_true, Nat.add_sub_cancel]
        rw [List.getD_eq_getElem _ _ hm]
        simp only [hrm]
        rw [List.getD_eq_getElem _ _ (by omega)]
      rw [hget] at e1
      rw [e1]
      exact List.getElem_mem _
    exact ((List.subperm_of_subset (List.nodup_range N) hsub).perm_of_length_le
      (by simp [hlen])).symm
  · intro n hn
    obtain ⟨r, hr, e⟩ := hcol n hn
    obtain ⟨-, hmem⟩ := row_at hMN (hlt r hr)
    rw [e] at hmem
    exact (survivors_mem hmem).2.2
  · intro c hc n1 hn1 n2 hn2 o1 o2
    obtain ⟨r1, hr1, e1⟩ := hcol n1 hn1
    obtain ⟨r2, hr2, e2⟩ := hcol n2 hn2
    obtain ⟨g1, -⟩ := row_at hMN (hlt r1 hr1)
    obtain ⟨g2, -⟩ := row_at hMN (hlt r2 hr2)
    rw [e1] at g1
    rw [e2] at g2
    have b1 : (per_col_dlx M N hint).dlx.bit r1 c = true :=
      (bit_iff M N hint hMN r1 c).mpr ⟨_, g1, Or.inr o1⟩
    have b2 : (per_col_dlx M N hint).dlx.bit r2 c = true :=
      (bit_iff M N hint hMN r2 c).mpr ⟨_, g2, Or.inr o2⟩
    have hne : per_col_dlx.survivors M N hint ≠ [] := by
      intro hnil
      rw [hnil] at g1
      simp at g1
    have hco := hopt c ((optional_iff hMN c).mpr ⟨hne, hc⟩)
    have hrr := (countP_le_one_iff _ S hnd).mp hco r1 hr1 r2 hr2 b1 b2
    rw [hrr, e2] at e1
    have := congrArg (fun l => l.getD 0 0) e1
    simp only [column_zero hM] at this
    exact this.symm

theorem indexIn_spec {a : List Nat} {l : List (List Nat)} (h : a ∈ l) :
    indexIn a l < l.length ∧ l.getD (indexIn a l) [] = a := by
  induction l with
  | nil => simp at h
  | cons b bs ih =>
    unfold indexIn
    by_cases hb : b = a
    · simp [hb]
    · rcases List.mem_cons.mp h with e | e
      · exact absurd e.symm hb
      · obtain ⟨h1, h2⟩ := ih e
        simp only [hb, if_false, List.length_cons]
        refine ⟨by omega, ?_⟩
        rw [List.getD_cons_succ]
        exact h2

theorem column_survivor {M N : Nat} {hint : List hint_s} {perm : List (List Nat)}
    (hg : isGrid M N perm) {n : Nat} (hn : n < N)
    (hsv : per_col_dlx.survives hint (column M perm n) = true) :
    column M perm n ∈ per_col_dlx.survivors M N hint :=
  List.mem_filter.mpr ⟨column_mem_tuples hg hn, hsv⟩

theorem column_inj {M : Nat} (hM : 1 ≤ M) {perm : List (List Nat)} {n1 n2 : Nat}
    (h : column M perm n1 = column M perm n2) : n1 = n2 := by
  have := congrArg (fun l => l.getD 0 0) h
  simpa only [column_zero hM] using this

/-- A grid whose columns all survive and never set one optional column twice is the grid of
an exact cover. -/
theorem dlxAccepts_of {M N : Nat} {hint : List hint_s} (hM : 1 ≤ M) (hN : 1 ≤ N)
    (h0 : ∀ h ∈ hint, h.dlx_col = 0) {perm : List (List Nat)} (hg : isGrid M N perm)
    (hsv : ∀ n < N, per_col_dlx.survives hint (column M perm n) = true)
    (hslot : ∀ c, per_col_dlx.newCols N (M * N) hint c → ∀ n1 < N, ∀ n2 < N,
        per_col_dlx.optRow N (per_col_dlx.settleAll N (M * N) hint) (column M perm n1) c →
        per_col_dlx.optRow N (per_col_dlx.settleAll N (M * N) hint) (column M perm n2) c →
        n1 = n2) :
    dlxAccepts M N hint perm := by
  have hMN : 1 ≤ M * N := Nat.mul_le_mul hM hN
  obtain ⟨b1, b2, -, -⟩ := per_col_dlx_built M N hint hMN
  have hmem := fun n (hn : n < N) => column_survivor hg hn (hsv n hn)
  have hidx : ∀ n, n < N →
      indexIn (column M perm n) (per_col_dlx.survivors M N hint) <
        (per_col_dlx M N hint).dlxM := by
    intro n hn
    rw [b2]
    exact (indexIn_spec (hmem n hn)).1
  have hrow : ∀ n, n < N →
      (per_col_dlx M N hint).dlx_a.getD
        (indexIn (column M perm n) (per_col_dlx.survivors M N hint)) [] =
        column M perm n := by
    intro n hn
    rw [b1]
    exact (indexIn_spec (hmem n hn)).2
  have hS : ∀ r ∈ (List.range N).map
      (fun n => indexIn (column M perm n) (per_col_dlx.survivors M N hint)),
      ∃ n < N, r = indexIn (column M perm n) (per_col_dlx.survivors M N hint) := by
    intro r hr
    obtain ⟨n, hn, e⟩ := List.mem_map.mp hr
    exact ⟨n, List.mem_range.mp hn, e.symm⟩
  have hSmem : ∀ n, n < N →
      indexIn (column M perm n) (per_col_dlx.survivors M N hint) ∈ (List.range N).map
        (fun n => indexIn (column M perm n) (per_col_dlx.survivors M N hint)) :=
    fun n hn => List.mem_map.mpr ⟨n, List.mem_range.mpr hn, rfl⟩
  have hnd : ((List.range N).map
      (fun n => indexIn (column M perm n) (per_col_dlx.survivors M N hint))).Nodup := by
    apply List.Nodup.map_on _ (List.nodup_range N)
    intro x hx y hy hxy
    have hx := List.mem_range.mp hx
    have hy := List.mem_range.mp hy
    have e1 := (indexIn_spec (hmem x hx)).2
    have e2 := (indexIn_spec (hmem y hy)).2
    simp only at hxy
    rw [hxy, e2] at e1
    exact (column_inj hM e1).symm
  refine ⟨⟨hg.1, fun row hr => by simpa using (hg.2 row hr).length_eq⟩,
    (List.range N).map
      (fun n => indexIn (column M perm n) (per_col_dlx.survivors M N hint)),
    ⟨hnd, ?_, ?_, ?_⟩, ?_⟩
  · intro r hr
    obtain ⟨n, hn, e⟩ := hS r hr
    rw [e]
    exact hidx n hn
  · intro c hc
    have hk : c / N < M := by
      apply Nat.div_lt_of_lt_mul
      rw [Nat.mul_comm]
      exact hc
    have hv : c % N < N := Nat.mod_lt _ (by omega)
    have hce : c = N * (c / N) + c % N := (Nat.div_add_mod c N).symm
    obtain ⟨n0, hn0, hin0⟩ := inColumn_exists hg (s := (c / N, c % N)) hk hv
    unfold coverCount
    apply countP_eq_one_of_unique _ _ hnd (hSmem n0 hn0)
    · rw [hce, bit_sym hMN h0 (hidx n0 hn0) hk hv, hrow n0 hn0, column_getD perm n0 hk]
      exact hin0
    · intro r hr hb
      obtain ⟨n, hn, e⟩ := hS r hr
      rw [e] at hb ⊢
      rw [hce, bit_sym hMN h0 (hidx n hn) hk hv, hrow n hn, column_getD perm n hk] at hb
      have := inColumn_unique hg (s := (c / N, c % N)) hk hn hn0 hb hin0
      rw [this]
  · intro c hc
    obtain ⟨hne, hnew⟩ := (optional_iff hMN c).mp hc
    unfold coverCount
    rw [countP_le_one_iff _ _ hnd]
    intro r1 hr1 r2 hr2 hb1 hb2
    obtain ⟨n1, hn1, e1⟩ := hS r1 hr1
    obtain ⟨n2, hn2, e2⟩ := hS r2 hr2
    have hopt : ∀ n, n < N →
        (per_col_dlx M N hint).dlx.bit
          (indexIn (column M perm n) (per_col_dlx.survivors M N hint)) c = true →
        per_col_dlx.optRow N (per_col_dlx.settleAll N (M * N) hint) (column M perm n) c := by
      intro n hn hb
      obtain ⟨a, ha, hrs⟩ := (bit_iff M N hint hMN _ c).mp hb
      obtain ⟨g1, -⟩ := row_at hMN (hidx n hn)
      rw [hrow n hn] at g1
      rw [g1] at ha
      cases ha
      rcases hrs with hsym | ho
      · obtain ⟨hl, hx, -⟩ := survivors_mem (hmem n hn)
        have := symCol_lt hx hl hsym
        have := newCols_ge N hint (M * N) c hnew
        omega
      · exact ho
    rw [e1] at hb1
    rw [e2] at hb2
    have := hslot c hnew n1 hn1 n2 hn2 (hopt n1 hn1 hb1) (hopt n2 hn2 hb2)
    rw [e1, e2, this]
  · intro r hr k hk
    obtain ⟨n, hn, e⟩ := hS r hr
    rw [e, hrow n hn, column_getD perm n hk, column_zero hM]

/-- The grids of the exact-cover engine: the grids whose columns all survive the column-local
tests and in which no optional column is set by two columns. -/
theorem dlxAccepts_iff {M N : Nat} {hint : List hint_s} (hM : 1 ≤ M) (hN : 1 ≤ N)
    (h0 : ∀ h ∈ hint, h.dlx_col = 0) (perm : List (List Nat)) :
    dlxAccepts M N hint perm ↔
      isGrid M N perm ∧ (∀ n < N, per_col_dlx.survives hint (column M perm n) = true) ∧
      (∀ c, per_col_dlx.newCols N (M * N) hint c → ∀ n1 < N, ∀ n2 < N,
        per_col_dlx.optRow N (per_col_dlx.settleAll N (M * N) hint) (column M perm n1) c →
        per_col_dlx.optRow N (per_col_dlx.settleAll N (M * N) hint) (column M perm n2) c →
        n1 = n2) :=
  ⟨dlxAccepts_imp hM hN h0, fun h => dlxAccepts_of hM hN h0 h.1 h.2.1 h.2.2⟩

/-- With a single hint of a type other than `i`, `brute` accepts exactly the grids on which
the hint holds. -/
theorem bruteAccepts_single {M N : Nat} {h : hint_s} (hw : inGrid M N h) (ha : arityOk h)
    (hc : h.cmd ∈ ['=', '!', '<', '>', '1', 'A', '^', 'p', 'X']) (perm : List (List Nat)) :
    bruteAccepts M N [h] perm ↔ isGrid M N perm ∧ Meaning.holds N perm h := by
  unfold bruteAccepts
  constructor
  · rintro ⟨hg, hr⟩
    have := rejected_false hr h (List.mem_singleton.mpr rfl)
    rw [check_meaning hg hw ha hc] at this
    exact ⟨hg, by simpa using this⟩
  · rintro ⟨hg, hh⟩
    refine ⟨hg, ?_⟩
    simp only [brute.rejected, check_meaning hg hw ha hc]
    simp [hh]

/-- In the built matrix DLX-row `r` has a 1 in an optional column `c` exactly when its
candidate sets `c` for one of the hints. -/
theorem bit_opt {M N : Nat} {hint : List hint_s} (hMN : 1 ≤ M * N) {r : Nat}
    (hr : r < (per_col_dlx M N hint).dlxM) {c : Nat}
    (hc : per_col_dlx.newCols N (M * N) hint c) :
    (per_col_dlx M N hint).dlx.bit r c = true ↔
      per_col_dlx.optRow N (per_col_dlx.settleAll N (M * N) hint)
        ((per_col_dlx M N hint).dlx_a.getD r []) c := by
  obtain ⟨e, hm⟩ := row_at hMN hr
  rw [bit_iff M N hint hMN]
  constructor
  · rintro ⟨a, ha, hs⟩
    rw [e] at ha
    cases ha
    rcases hs with hsym | ho
    · obtain ⟨hl, hx, -⟩ := survivors_mem hm
      have := symCol_lt hx hl hsym
      have := newCols_ge N hint (M * N) c hc
      omega
    · exact ho
  · intro ho
    exact ⟨_, e, Or.inr ho⟩

theorem match_two (a : List Nat) (h : hint_s) (hn : h.n = 2) :
    per_col_dlx.match_ a h = (per_col_dlx.has a h 0).toNat + (per_col_dlx.has a h 1).toNat := by
  unfold per_col_dlx.match_
  rw [hn]
  simp [List.range_succ]

theorem survives_single (h : hint_s) (a : List Nat) :
    per_col_dlx.survives [h] a = !per_col_dlx.anon a h := by
  simp [per_col_dlx.survives]

theorem optRow_single (N n : Nat) (h : hint_s) (a : List Nat) (c : Nat) :
    per_col_dlx.optRow N (per_col_dlx.settleAll N n [h]) a c ↔
      per_col_dlx.optSet N a (per_col_dlx.settle n h) c := by
  simp [per_col_dlx.optRow, per_col_dlx.settleAll]

theorem newCols_single (N n : Nat) (h : hint_s) (c : Nat) :
    per_col_dlx.newCols N n [h] c ↔
      per_col_dlx.fresh h ∧ n ≤ c ∧ c < n + per_col_dlx.width N h := by
  simp [per_col_dlx.newCols]

theorem lt_hint_facts (M N : Nat) (c0 c1 : Nat × Nat) :
    per_col_dlx.fresh ⟨'<', [c0, c1], 0⟩ ∧ per_col_dlx.width N ⟨'<', [c0, c1], 0⟩ = N ∧
      per_col_dlx.settle (M * N) ⟨'<', [c0, c1], 0⟩ = ⟨'<', [c0, c1], M * N⟩ := by
  refine ⟨⟨by simp [per_col_dlx.usesCols], rfl⟩, by simp [per_col_dlx.width], ?_⟩
  simp [per_col_dlx.settle, per_col_dlx.fresh, per_col_dlx.usesCols]

theorem has_fst (cmd : Char) (c0 : Nat × Nat) (cs : List (Nat × Nat)) (d : Nat)
    (a : List Nat) :
    per_col_dlx.has a ⟨cmd, c0 :: cs, d⟩ 0 = true ↔ a.getD c0.1 0 = c0.2 := by
  show (a.getD c0.1 0 == c0.2) = true ↔ _
  exact beq_iff_eq

theorem has_snd (cmd : Char) (c0 c1 : Nat × Nat) (cs : List (Nat × Nat)) (d : Nat)
    (a : List Nat) :
    per_col_dlx.has a ⟨cmd, c0 :: c1 :: cs, d⟩ 1 = true ↔ a.getD c1.1 0 = c1.2 := by
  show (a.getD c1.1 0 == c1.2) = true ↔ _
  exact beq_iff_eq

theorem toNat_add_le_one (b0 b1 : Bool) :
    ¬ (b0.toNat + b1.toNat > 1) ↔ ¬ (b0 = true ∧ b1 = true) := by
  cases b0 <;> cases b1 <;> simp

theorem lt_optSet (M N : Nat) (c0 c1 : Nat × Nat) (a : List Nat) (c : Nat) :
    per_col_dlx.optSet N a ⟨'<', [c0, c1], M * N⟩ c ↔
      (a.getD c0.1 0 = c0.2 ∧ ∃ k, k ≤ a.getD 0 0 ∧ c = M * N + k) ∨
        (a.getD c1.1 0 = c1.2 ∧ ∃ k, a.getD 0 0 ≤ k ∧ k < N ∧ c = M * N + k) := by
  simp only [per_col_dlx.optSet, has_fst, has_snd]

theorem lt_survives (c0 c1 : Nat × Nat) (a : List Nat) :
    per_col_dlx.survives [⟨'<', [c0, c1], 0⟩] a = true ↔
      ¬ (a.getD c0.1 0 = c0.2 ∧ a.getD c1.1 0 = c1.2) := by
  rw [survives_single]
  simp only [per_col_dlx.anon, match_two a ⟨'<', [c0, c1], 0⟩ rfl, Bool.not_eq_true',
    decide_eq_false_iff_not, toNat_add_le_one, has_fst, has_snd]

theorem column_holds {M : Nat} (perm : List (List Nat)) (n : Nat) {s : Nat × Nat}
    (hs : s.1 < M) : (column M perm n).getD s.1 0 = s.2 ↔ Meaning.inColumn perm s n := by
  rw [column_getD perm n hs]
  rfl

theorem leftOf_iff {M N : Nat} {perm : List (List Nat)} (hg : isGrid M N perm)
    {c0 c1 : Nat × Nat} (h0 : c0.1 < M) (h1 : c1.1 < M) {p q : Nat} (hp : p < N) (hq : q < N)
    (hp0 : Meaning.inColumn perm c0 p) (hq1 : Meaning.inColumn perm c1 q) :
    Meaning.leftOf N perm ⟨'<', [c0, c1], 0⟩ ↔ p < q := by
  unfold Meaning.leftOf Meaning.columnsRelated
  constructor
  · rintro ⟨n0, hn0, n1, hn1, i0, i1, hr⟩
    have e0 := inColumn_unique hg h0 hn0 hp i0 hp0
    have e1 := inColumn_unique hg h1 hn1 hq i1 hq1
    subst e0 e1
    simpa using hr
  · intro hpq
    exact ⟨p, hp, q, hq, hp0, hq1, by simpa using hpq⟩

/-- The grids of the exact-cover engine for a single `<` hint. -/
theorem lt_dlxAccepts {M N : Nat} (c0 c1 : Nat × Nat) (hM : 1 ≤ M) (hN : 1 ≤ N)
    (h0 : c0.1 < M ∧ c0.2 < N) (h1 : c1.1 < M ∧ c1.2 < N) (perm : List (List Nat)) :
    dlxAccepts M N [⟨'<', [c0, c1], 0⟩] perm ↔
      isGrid M N perm ∧ Meaning.leftOf N perm ⟨'<', [c0, c1], 0⟩ := by
  obtain ⟨hf, hw, hs⟩ := lt_hint_facts M N c0 c1
  rw [dlxAccepts_iff hM hN (by simp)]
  simp only [optRow_single, newCols_single, hs, hw, lt_optSet, lt_survives, column_zero hM,
    column_holds perm _ h0.1, column_holds perm _ h1.1]
  constructor
  · rintro ⟨hg, hsv, hslot⟩
    refine ⟨hg, ?_⟩
    obtain ⟨p, hp, hp0⟩ := inColumn_exists hg h0.1 h0.2
    obtain ⟨q, hq, hq1⟩ := inColumn_exists hg h1.1 h1.2
    rw [leftOf_iff hg h0.1 h1.1 hp hq hp0 hq1]
    by_contra hle
    have hqp : q ≤ p := by omega
    have := hslot (M * N + p) ⟨hf, by omega, by omega⟩ p hp q hq
      (Or.inl ⟨hp0, p, Nat.le_refl p, rfl⟩) (Or.inr ⟨hq1, p, hqp, hp, rfl⟩)
    subst this
    exact hsv p hp ⟨hp0, hq1⟩
  · rintro ⟨hg, hl⟩
    obtain ⟨p, hp, hp0⟩ := inColumn_exists hg h0.1 h0.2
    obtain ⟨q, hq, hq1⟩ := inColumn_exists hg h1.1 h1.2
    rw [leftOf_iff hg h0.1 h1.1 hp hq hp0 hq1] at hl
    refine ⟨hg, ?_, ?_⟩
    · rintro n hn ⟨i0, i1⟩
      have e0 := inColumn_unique hg h0.1 hn hp i0 hp0
      have e1 := inColumn_unique hg h1.1 hn hq i1 hq1
      omega
    · rintro c - n1 hn1 n2 hn2 o1 o2
      rcases o1 with ⟨i1, k1, hk1, e1⟩ | ⟨i1, k1, hk1, -, e1⟩ <;>
        rcases o2 with ⟨i2, k2, hk2, e2⟩ | ⟨i2, k2, hk2, -, e2⟩
      · exact (inColumn_unique hg h0.1 hn1 hp i1 hp0).trans
          (inColumn_unique hg h0.1 hn2 hp i2 hp0).symm
      · have a1 := inColumn_unique hg h0.1 hn1 hp i1 hp0
        have a2 := inColumn_unique hg h1.1 hn2 hq i2 hq1
        omega
      · have a1 := inColumn_unique hg h1.1 hn1 hq i1 hq1
        have a2 := inColumn_unique hg h0.1 hn2 hp i2 hp0
        omega
      · exact (inColumn_unique hg h1.1 hn1 hq i1 hq1).trans
          (inColumn_unique hg h1.1 hn2 hq i2 hq1).symm

/-- The optional columns shared by a DLX-row that holds the first symbol of a `<` hint and a
DLX-row that holds the second. -/
theorem lt_rows_share {M N : Nat} (c0 c1 : Nat × Nat) (hM : 1 ≤ M) (hN : 1 ≤ N)
    {r1 r2 : Nat} (hr1 : r1 < (per_col_dlx M N [⟨'<', [c0, c1], 0⟩]).dlxM)
    (hr2 : r2 < (per_col_dlx M N [⟨'<', [c0, c1], 0⟩]).dlxM)
    (hc0 : ((per_col_dlx M N [⟨'<', [c0, c1], 0⟩]).dlx_a.getD r1 []).getD c0.1 0 = c0.2)
    (hc1 : ((per_col_dlx M N [⟨'<', [c0, c1], 0⟩]).dlx_a.getD r2 []).getD c1.1 0 = c1.2) :
    (∃ c ∈ (per_col_dlx M N [⟨'<', [c0, c1], 0⟩]).dlx.optional,
        (per_col_dlx M N [⟨'<', [c0, c1], 0⟩]).dlx.bit r1 c = true ∧
        (per_col_dlx M N [⟨'<', [c0, c1], 0⟩]).dlx.bit r2 c = true) ↔
      ((per_col_dlx M N [⟨'<', [c0, c1], 0⟩]).dlx_a.getD r2 []).getD 0 0 ≤
        ((per_col_dlx M N [⟨'<', [c0, c1], 0⟩]).dlx_a.getD r1 []).getD 0 0 := by
  have hMN : 1 ≤ M * N := Nat.mul_le_mul hM hN
  obtain ⟨hf, hw, hs⟩ := lt_hint_facts M N c0 c1
  obtain ⟨g1, m1⟩ := row_at hMN hr1
  obtain ⟨g2, m2⟩ := row_at hMN hr2
  obtain ⟨l1, x1, s1⟩ := survivors_mem m1
  obtain ⟨l2, x2, s2⟩ := survivors_mem m2
  rw [lt_survives] at s1 s2
  have hne : per_col_dlx.survivors M N [⟨'<', [c0, c1], 0⟩] ≠ [] :=
    fun h => by rw [h] at m1; simp at m1
  have hpN : ((per_col_dlx M N [⟨'<', [c0, c1], 0⟩]).dlx_a.getD r1 []).getD 0 0 < N := by
    rw [List.getD_eq_getElem _ _ (by omega)]
    exact x1 _ (List.getElem_mem _)
  have hbit : ∀ r, r < (per_col_dlx M N [⟨'<', [c0, c1], 0⟩]).dlxM → ∀ c,
      per_col_dlx.newCols N (M * N) [⟨'<', [c0, c1], 0⟩] c →
      ((per_col_dlx M N [⟨'<', [c0, c1], 0⟩]).dlx.bit r c = true ↔
        per_col_dlx.optSet N ((per_col_dlx M N [⟨'<', [c0, c1], 0⟩]).dlx_a.getD r [])
          ⟨'<', [c0, c1], M * N⟩ c) := by
    intro r hr c hc
    rw [bit_opt hMN hr hc, optRow_single, hs]
  constructor
  · rintro ⟨c, hc, b1, b2⟩
    have hnew := ((optional_iff hMN c).mp hc).2
    rw [hbit r1 hr1 c hnew, lt_optSet] at b1
    rw [hbit r2 hr2 c hnew, lt_optSet] at b2
    rcases b1 with ⟨-, k1, hk1, e1⟩ | ⟨i1, -⟩
    · rcases b2 with ⟨i2, -⟩ | ⟨-, k2, hk2, -, e2⟩
      · exact absurd ⟨i2, hc1⟩ s2
      · omega
    · exact absurd ⟨hc0, i1⟩ s1
  · intro hle
    have hnew : per_col_dlx.newCols N (M * N) [⟨'<', [c0, c1], 0⟩]
        (M * N + ((per_col_dlx M N [⟨'<', [c0, c1], 0⟩]).dlx_a.getD r1 []).getD 0 0) := by
      rw [newCols_single, hw]
      exact ⟨hf, by omega, by omega⟩
    refine ⟨_, (optional_iff hMN _).mpr ⟨hne, hnew⟩, ?_, ?_⟩
    · rw [hbit r1 hr1 _ hnew, lt_optSet]
      exact Or.inl ⟨hc0, _, Nat.le_refl _, rfl⟩
    · rw [hbit r2 hr2 _ hnew, lt_optSet]
      exact Or.inr ⟨hc1, _, hle, hpN, rfl⟩

theorem crowd_hint_facts (M N : Nat) (cs : List (Nat × Nat)) :
    per_col_dlx.fresh ⟨'^', cs, 0⟩ ∧ per_col_dlx.width N ⟨'^', cs, 0⟩ = 1 ∧
      per_col_dlx.settle (M * N) ⟨'^', cs, 0⟩ = ⟨'^', cs, M * N⟩ := by
  refine ⟨⟨by simp [per_col_dlx.usesCols], rfl⟩, by simp [per_col_dlx.width], ?_⟩
  simp [per_col_dlx.settle, per_col_dlx.fresh, per_col_dlx.usesCols]

theorem crowd_optSet (M N : Nat) (cs : List (Nat × Nat)) (a : List Nat) (c : Nat) :
    per_col_dlx.optSet N a ⟨'^', cs, M * N⟩ c ↔
      2 ≤ per_col_dlx.match_ a ⟨'^', cs, 0⟩ ∧ c = M * N := by
  have : per_col_dlx.match_ a ⟨'^', cs, M * N⟩ = per_col_dlx.match_ a ⟨'^', cs, 0⟩ := rfl
  simp only [per_col_dlx.optSet, this]

theorem crowd_survives (cs : List (Nat × Nat)) (a : List Nat) :
    per_col_dlx.survives [⟨'^', cs, 0⟩] a = true := by
  rw [survives_single]
  simp [per_col_dlx.anon]

theorem survivors_ne_nil {M N : Nat} {hint : List hint_s} (hN : 1 ≤ N)
    (hs : ∀ a, per_col_dlx.survives hint a = true) : per_col_dlx.survivors M N hint ≠ [] := by
  have hm : List.replicate M 0 ∈ per_col_dlx.survivors M N hint := by
    apply List.mem_filter.mpr
    refine ⟨mem_tuples.mpr ⟨by simp, ?_⟩, hs _⟩
    intro x hx
    rw [List.eq_of_mem_replicate hx]
    omega
  intro h
  rw [h] at hm
  simp at hm

theorem atMostOneCrowded_iff (N : Nat) (perm : List (List Nat)) (h : hint_s) :
    Meaning.atMostOneCrowded N perm h ↔
      ∀ n1 < N, ∀ n2 < N, 2 ≤ Meaning.inColumnCount perm h h.n n1 →
        2 ≤ Meaning.inColumnCount perm h h.n n2 → n1 = n2 := by
  unfold Meaning.atMostOneCrowded
  rw [← List.countP_eq_length_filter, countP_le_one_iff _ _ (List.nodup_range N)]
  simp only [List.mem_range, decide_eq_true_eq]

/-! ### Rules of the encoder, optional columns, and the search of `brute` -/

/-- The base case of `f` skips a candidate that some hint disqualifies: the state is
unchanged. -/
theorem leaf_discards (M N : Nat) (a : List Nat) (st : per_col_dlx.State) {h : hint_s}
    (hh : h ∈ st.hint) (ha : per_col_dlx.anon a h = true) : per_col_dlx.leaf M N a st = st := by
  unfold per_col_dlx.leaf
  have : st.hint.any (fun h => per_col_dlx.anon a h) = true :=
    List.any_eq_true.mpr ⟨h, hh, ha⟩
  simp only [this, if_true]

theorem range_eq_zero_cons (n : Nat) (hn : 1 ≤ n) :
    List.range n = 0 :: List.range' 1 (n - 1) := by
  obtain ⟨m, rfl⟩ : ∃ m, n = m + 1 := ⟨n - 1, by omega⟩
  rw [List.range_eq_range', List.range'_succ]
  simp

/-- With a first symbol, `match(h)` is its `has` plus the number of the following symbols
that the candidate holds. -/
theorem match_split (a : List Nat) (h : hint_s) (hn : 1 ≤ h.n) :
    per_col_dlx.match_ a h = (per_col_dlx.has a h 0).toNat +
      (List.range' 1 (h.n - 1)).countP (fun i => per_col_dlx.has a h i) := by
  unfold per_col_dlx.match_
  rw [foldl_add_toNat (fun i => per_col_dlx.has a h i), range_eq_zero_cons h.n hn,
    List.countP_cons]
  by_cases hb : per_col_dlx.has a h 0 = true
  · rw [if_pos hb, hb, Bool.toNat_true]
    omega
  · rw [if_neg hb]
    rw [Bool.not_eq_true] at hb
    rw [hb, Bool.toNat_false]
    omega

theorem newCols_not_uses (N n : Nat) {h : hint_s} (hu : ¬ per_col_dlx.usesCols h) (c : Nat) :
    ¬ per_col_dlx.newCols N n [h] c := by
  rw [newCols_single]
  rintro ⟨hf, -⟩
  exact hu hf.1

theorem anon_p_column {M N : Nat} (perm : List (List Nat)) {h : hint_s} (hc : h.cmd = 'p')
    (hn : h.n = 4) (hw : inGrid M N h) (n : Nat) :
    per_col_dlx.anon (column M perm n) h =
      ((brute.has perm h 0 n && brute.has perm h 1 n) ||
        (brute.has perm h 2 n && brute.has perm h 3 n) ||
        ((brute.tally perm h 4 n) ||| 2) != 2) := by
  have hs := fun i (hi : i < h.n) => (sym_inGrid hw hi).1
  simp only [per_col_dlx.anon, hc]
  rw [has_column perm h 0 n (hs 0 (by omega)), has_column perm h 1 n (hs 1 (by omega)),
    has_column perm h 2 n (hs 2 (by omega)), has_column perm h 3 n (hs 3 (by omega)),
    match_column perm hw n, hn, tally_eq]

/-- A call of `opthints` on a hint whose columns are assigned: the hint and the counter stay
as they are, no column is marked optional, and on an empty matrix the cells set are those
of `optSet`. -/
theorem opthints_assigned (N : Nat) (a : List Nat) (row : Nat) (h : hint_s) (n : Nat)
    (hb : h.dlx_col ≠ 0) :
    (per_col_dlx.opthints N a row (h, dlx_new, n)).1 = h ∧
      (per_col_dlx.opthints N a row (h, dlx_new, n)).2.2 = n ∧
      (per_col_dlx.opthints N a row (h, dlx_new, n)).2.1.optional = [] ∧
      (∀ x, x ∈ (per_col_dlx.opthints N a row (h, dlx_new, n)).2.1.cells ↔
        x.1 = row ∧ per_col_dlx.optSet N a h x.2) := by
  obtain ⟨o1, o2, o3, o4⟩ := opthints_spec N a row h dlx_new n
  have hnf : ¬ per_col_dlx.fresh h := fun hf => hb hf.2
  have hs : per_col_dlx.settle n h = h := by simp [per_col_dlx.settle, hnf]
  rw [hs] at o1 o3
  refine ⟨o1, by rw [o2]; simp [per_col_dlx.bump, hnf], ?_, ?_⟩
  · apply List.eq_nil_iff_forall_not_mem.mpr
    intro c hc
    rcases (o4 c).mp hc with h1 | ⟨h1, -⟩
    · simp [dlx_new] at h1
    · exact hnf h1
  · intro x
    rw [o3]
    simp [dlx_new]

/-- The first call of `opthints` on a hint that uses optional columns, with the counter at
`n`: the hint gets `dlx_col = n`, the columns `n .. n + width - 1` are marked optional, and
the cells set are those of the hint with its columns assigned. -/
theorem opthints_first (N : Nat) (a : List Nat) (row : Nat) (h : hint_s) (n : Nat)
    (hu : per_col_dlx.usesCols h) (h0 : h.dlx_col = 0) :
    (per_col_dlx.opthints N a row (h, dlx_new, n)).1 = { h with dlx_col := n } ∧
      (per_col_dlx.opthints N a row (h, dlx_new, n)).2.2 = n + per_col_dlx.width N h ∧
      (∀ c, c ∈ (per_col_dlx.opthints N a row (h, dlx_new, n)).2.1.optional ↔
        n ≤ c ∧ c < n + per_col_dlx.width N h) ∧
      (∀ x, x ∈ (per_col_dlx.opthints N a row (h, dlx_new, n)).2.1.cells ↔
        x.1 = row ∧ per_col_dlx.optSet N a { h with dlx_col := n } x.2) := by
  obtain ⟨o1, o2, o3, o4⟩ := opthints_spec N a row h dlx_new n
  have hf : per_col_dlx.fresh h := ⟨hu, h0⟩
  have hs : per_col_dlx.settle n h = { h with dlx_col := n } := by
    simp [per_col_dlx.settle, hf]
  rw [hs] at o1 o3
  refine ⟨o1, by rw [o2]; simp [per_col_dlx.bump, hf], ?_, ?_⟩
  · intro c
    rw [o4]
    simp [dlx_new, hf]
  · intro x
    rw [o3]
    simp [dlx_new]

theorem adj_optSet (N : Nat) (c0 c1 : Nat × Nat) (base : Nat) (a : List Nat) (c : Nat) :
    per_col_dlx.optSet N a ⟨'A', [c0, c1], base⟩ c ↔
      (a.getD c0.1 0 = c0.2 ∧
        ∃ k < N, ((k : Int) - (a.getD 0 0 : Int)).natAbs ≠ 1 ∧ c = base + k) ∨
        (a.getD c1.1 0 = c1.2 ∧ c = base + a.getD 0 0) := by
  simp only [per_col_dlx.optSet, has_fst, has_snd]

theorem one_optSet (N : Nat) (c0 c1 : Nat × Nat) (base : Nat) (a : List Nat) (c : Nat) :
    per_col_dlx.optSet N a ⟨'1', [c0, c1], base⟩ c ↔
      (a.getD c0.1 0 = c0.2 ∧ ∃ k < N, k ≠ a.getD 0 0 + 1 ∧ c = base + k) ∨
        (a.getD c1.1 0 = c1.2 ∧ c = base + a.getD 0 0) := by
  simp only [per_col_dlx.optSet, has_fst, has_snd]

/-- A candidate that a two-symbol hint of type `<`, `1` or `A` does not disqualify holds at
most one of the two symbols. -/
theorem anon_pair_false {cmd : Char} (hc : cmd = '<' ∨ cmd = '1' ∨ cmd = 'A')
    (c0 c1 : Nat × Nat) (base : Nat) (a : List Nat)
    (ha : per_col_dlx.anon a ⟨cmd, [c0, c1], base⟩ = false) :
    ¬ (a.getD c0.1 0 = c0.2 ∧ a.getD c1.1 0 = c1.2) := by
  have hm := match_two a ⟨cmd, [c0, c1], base⟩ rfl
  rw [← has_fst cmd c0 [c1] base a, ← has_snd cmd c0 c1 [] base a, ← toNat_add_le_one, ← hm]
  rcases hc with rfl | rfl | rfl <;> simpa [per_col_dlx.anon] using ha

theorem flatMap_range_length {β : Type} (g : Nat → List β) (L : Nat)
    (h : ∀ k, (g k).length = L) (n : Nat) : ((List.range n).flatMap g).length = n * L := by
  induction n with
  | zero => simp
  | succ n ih =>
    rw [List.range_succ, List.flatMap_append, List.length_append, ih]
    simp [h, Nat.succ_mul]

theorem flatMap_range_get {β : Type} (g : Nat → List β) (L : Nat)
    (h : ∀ k, (g k).length = L) (n j : Nat) (hj : j < n * L) :
    ((List.range n).flatMap g)[j]? = (g (j / L))[j % L]? := by
  induction n with
  | zero => simp at hj
  | succ n ih =>
    have hL : 0 < L := by
      rcases Nat.eq_zero_or_pos L with h0 | h0
      · subst h0; simp at hj
      · exact h0
    rw [List.range_succ, List.flatMap_append]
    by_cases hlt : j < n * L
    · rw [List.getElem?_append_left (by rw [flatMap_range_length g L h]; exact hlt)]
      exact ih hlt
    · have hge : n * L ≤ j := Nat.le_of_not_lt hlt
      rw [List.getElem?_append_right (by rw [flatMap_range_length g L h]; exact hge)]
      rw [flatMap_range_length g L h]
      have hd : j / L = n := by
        apply Nat.div_eq_of_lt_le
        · rw [Nat.mul_comm] at hge; rw [Nat.mul_comm]; exact hge
        · rw [Nat.succ_mul] at hj; rw [Nat.succ_mul]; exact hj
      have hm : j % L = j - n * L := by
        have := Nat.div_add_mod j L
        rw [hd, Nat.mul_comm] at this
        omega
      simp [hd, hm]

theorem tuples_length (N d : Nat) : (tuples N d).length = N ^ d := by
  induction d with
  | zero => simp [tuples]
  | succ d ih =>
    simp only [tuples]
    rw [flatMap_range_length _ (N ^ d) (fun k => by simp [ih]), Nat.pow_succ, Nat.mul_comm]

theorem tuples_getD_succ (N d j : Nat) (hj : j < N ^ (d + 1)) :
    (tuples N (d + 1)).getD j [] = (j / N ^ d) :: (tuples N d).getD (j % N ^ d) [] := by
  have hpos : 0 < N ^ d := by
    rcases Nat.eq_zero_or_pos (N ^ d) with h0 | h0
    · rw [Nat.pow_succ, h0] at hj; simp at hj
    · exact h0
  have hm : j % N ^ d < (tuples N d).length := by
    rw [tuples_length]; exact Nat.mod_lt _ hpos
  simp only [tuples, List.getD_eq_getElem?_getD]
  rw [flatMap_range_get _ (N ^ d) (fun k => by simp [tuples_length]) N j
    (by rw [Nat.pow_succ, Nat.mul_comm] at hj; exact hj)]
  rw [List.getElem?_map, List.getElem?_eq_getElem hm]
  simp

theorem tuples_digit (N : Nat) : ∀ (d j k : Nat), j < N ^ d → k < d →
    ((tuples N d).getD j []).getD k 0 = j / N ^ (d - 1 - k) % N := by
  intro d
  induction d with
  | zero => intro j k _ hk; omega
  | succ d ih =>
    intro j k hj hk
    rw [tuples_getD_succ N d j hj]
    have hpos : 0 < N ^ d := by
      rcases Nat.eq_zero_or_pos (N ^ d) with h0 | h0
      · rw [Nat.pow_succ, h0] at hj; simp at hj
      · exact h0
    cases k with
    | zero =>
      simp only [List.getD_cons_zero, Nat.add_sub_cancel, Nat.sub_zero]
      rw [Nat.mod_eq_of_lt]
      apply Nat.div_lt_of_lt_mul
      rw [Nat.pow_succ] at hj; exact hj
    | succ k =>
      have hk' : k < d := by omega
      rw [List.getD_cons_succ, ih (j % N ^ d) k (Nat.mod_lt _ hpos) hk']
      have e1 : d + 1 - 1 - (k + 1) = d - 1 - k := by omega
      rw [e1]
      have e2 : N ^ d = N ^ (d - 1 - k) * N ^ (k + 1) := by
        rw [← Nat.pow_add]; congr 1; omega
      rw [e2, Nat.mod_mul_right_div_self]
      apply Nat.mod_mod_of_dvd
      exact Dvd.intro_left (N ^ k) (by rw [Nat.pow_succ])

theorem tuples_lex (N d : Nat) : (tuples N d).Pairwise lexLt := by
  induction d with
  | zero => simp [tuples]
  | succ d ih =>
    simp only [tuples]
    rw [List.pairwise_flatMap]
    constructor
    · intro k _
      rw [List.pairwise_map]
      exact ih.imp (fun {s t} h => by simp [lexLt, h])
    · apply List.Pairwise.imp _ (List.pairwise_lt_range N)
      intro a b hab x hx y hy
      obtain ⟨s, -, rfl⟩ := List.mem_map.mp hx
      obtain ⟨t, -, rfl⟩ := List.mem_map.mp hy
      simp [lexLt, hab]

theorem settle_zero (n : Nat) {h : hint_s} (h0 : h.dlx_col = 0) (N : Nat) :
    (per_col_dlx.settle n h).cmd = h.cmd ∧ (per_col_dlx.settle n h).coord = h.coord ∧
      per_col_dlx.width N (per_col_dlx.settle n h) = per_col_dlx.width N h ∧
      ((per_col_dlx.usesCols h ∧ (per_col_dlx.settle n h).dlx_col = n) ∨
        (¬ per_col_dlx.usesCols h ∧ (per_col_dlx.settle n h).dlx_col = 0)) := by
  unfold per_col_dlx.settle
  by_cases hf : per_col_dlx.fresh h
  · rw [if_pos hf]
    exact ⟨rfl, rfl, rfl, Or.inl ⟨hf.1, rfl⟩⟩
  · rw [if_neg hf]
    exact ⟨rfl, rfl, rfl, Or.inr ⟨fun hu => hf ⟨hu, h0⟩, h0⟩⟩

theorem settleAll_get (N : Nat) :
    ∀ (hs : List hint_s) (n i : Nat) (h : hint_s), (per_col_dlx.settleAll N n hs)[i]? = some h →
      ∃ h0 m, hs[i]? = some h0 ∧ n ≤ m ∧ h = per_col_dlx.settle m h0 := by
  intro hs
  induction hs with
  | nil => intro n i h hh; simp [per_col_dlx.settleAll] at hh
  | cons hd hs ih =>
    intro n i h hh
    cases i with
    | zero =>
      simp only [per_col_dlx.settleAll, List.getElem?_cons_zero, Option.some.injEq] at hh
      exact ⟨hd, n, by simp, Nat.le_refl n, hh.symm⟩
    | succ i =>
      simp only [per_col_dlx.settleAll, List.getElem?_cons_succ] at hh
      obtain ⟨h0, m, e1, e2, e3⟩ := ih _ i h hh
      exact ⟨h0, m, by simpa using e1, Nat.le_trans (bump_le N n hd) e2, e3⟩

theorem bump_zero (N n : Nat) {h : hint_s} (h0 : h.dlx_col = 0) :
    per_col_dlx.bump N n h = if per_col_dlx.usesCols h then n + per_col_dlx.width N h else n := by
  unfold per_col_dlx.bump
  by_cases hu : per_col_dlx.usesCols h
  · rw [if_pos ⟨hu, h0⟩, if_pos hu]
  · rw [if_neg (fun hf => hu hf.1), if_neg hu]

theorem newCols_iff_owns (N : Nat) :
    ∀ (hs : List hint_s) (n : Nat), 1 ≤ n → (∀ h ∈ hs, h.dlx_col = 0) → ∀ c,
      (per_col_dlx.newCols N n hs c ↔
        ∃ (i : Nat) (h : hint_s),
          (per_col_dlx.settleAll N n hs)[i]? = some h ∧ per_col_dlx.owns N h c) := by
  intro hs
  induction hs with
  | nil => intro n _ _ c; simp [per_col_dlx.newCols, per_col_dlx.settleAll]
  | cons hd hs ih =>
    intro n hn h0 c
    have hd0 : hd.dlx_col = 0 := h0 hd (List.mem_cons_self _ _)
    have ih' := ih (per_col_dlx.bump N n hd) (Nat.le_trans hn (bump_le N n hd))
      (fun h hh => h0 h (List.mem_cons_of_mem _ hh)) c
    obtain ⟨-, -, s3, s4⟩ := settle_zero n hd0 N
    simp only [per_col_dlx.newCols, per_col_dlx.settleAll]
    rw [ih']
    constructor
    · rintro (⟨hf, h1, h2⟩ | ⟨i, h, e, ho⟩)
      · refine ⟨0, per_col_dlx.settle n hd, by simp, ?_⟩
        rcases s4 with ⟨-, e⟩ | ⟨hu, -⟩
        · exact ⟨by omega, by omega, by rw [s3]; omega⟩
        · exact absurd hf.1 hu
      · exact ⟨i + 1, h, by simpa using e, ho⟩
    · rintro ⟨i, h, e, ho⟩
      cases i with
      | zero =>
        simp only [List.getElem?_cons_zero, Option.some.injEq] at e
        subst e
        obtain ⟨o1, o2, o3⟩ := ho
        rcases s4 with ⟨hu, e⟩ | ⟨-, e⟩
        · left
          rw [s3] at o3
          exact ⟨⟨hu, hd0⟩, by omega, by omega⟩
        · exact absurd e o1
      | succ i =>
        right
        exact ⟨i, h, by simpa using e, ho⟩

theorem settleAll_ordered (N : Nat) :
    ∀ (hs : List hint_s) (n : Nat), 1 ≤ n → (∀ h ∈ hs, h.dlx_col = 0) →
      ∀ (i k : Nat) (h g : hint_s), i < k → (per_col_dlx.settleAll N n hs)[i]? = some h →
        (per_col_dlx.settleAll N n hs)[k]? = some g → h.dlx_col ≠ 0 → g.dlx_col ≠ 0 →
        h.dlx_col + per_col_dlx.width N h ≤ g.dlx_col := by
  intro hs
  induction hs with
  | nil => intro n _ _ i k h g _ hh; simp [per_col_dlx.settleAll] at hh
  | cons hd hs ih =>
    intro n hn h0 i k h g hik eh eg hne gne
    have hd0 : hd.dlx_col = 0 := h0 hd (List.mem_cons_self _ _)
    have hs0 : ∀ h ∈ hs, h.dlx_col = 0 := fun h hh => h0 h (List.mem_cons_of_mem _ hh)
    cases k with
    | zero => omega
    | succ k =>
      simp only [per_col_dlx.settleAll, List.getElem?_cons_succ] at eg
      cases i with
      | zero =>
        simp only [per_col_dlx.settleAll, List.getElem?_cons_zero, Option.some.injEq] at eh
        subst eh
        obtain ⟨-, -, s3, s4⟩ := settle_zero n hd0 N
        obtain ⟨g0, m, e1, e2, e3⟩ := settleAll_get N hs _ k g eg
        have hm : 1 ≤ m := Nat.le_trans (Nat.le_trans hn (bump_le N n hd)) e2
        have hg0 : g0.dlx_col = 0 := hs0 g0 (List.getElem?_mem e1)
        obtain ⟨-, -, -, t4⟩ := settle_zero m hg0 N
        rw [← e3] at t4
        rcases s4 with ⟨hu, e⟩ | ⟨-, e⟩
        · rcases t4 with ⟨-, eg'⟩ | ⟨-, eg'⟩
          · rw [bump_zero N n hd0, if_pos hu] at e2
            rw [s3, e, eg']
            exact e2
          · exact absurd eg' gne
        · exact absurd e hne
      | succ i =>
        simp only [per_col_dlx.settleAll, List.getElem?_cons_succ] at eh
        exact ih _ (Nat.le_trans hn (bump_le N n hd)) hs0 i k h g (by omega) eh eg hne gne

theorem optSet_owns {N : Nat} {a : List Nat} {h : hint_s} {c : Nat} (ha : a.getD 0 0 < N)
    (hb : h.dlx_col ≠ 0) (ho : per_col_dlx.optSet N a h c) : per_col_dlx.owns N h c := by
  refine ⟨hb, (optSet_ge ho).2, ?_⟩
  unfold per_col_dlx.optSet at ho
  unfold per_col_dlx.width
  split at ho
  · rename_i hc
    rw [if_pos (Or.inl hc)]
    rcases ho with ⟨-, k, hk, -, e⟩ | ⟨-, e⟩ <;> omega
  · rename_i hc
    rw [if_pos (Or.inr (Or.inl hc))]
    rcases ho with ⟨-, k, hk, -, e⟩ | ⟨-, e⟩ <;> omega
  · rename_i hc
    rw [if_pos (Or.inr (Or.inr hc))]
    rcases ho with ⟨-, k, hk, e⟩ | ⟨-, k, -, hk, e⟩ <;> omega
  · rename_i hc
    rw [if_neg (by rw [hc]; decide), if_pos (Or.inl hc)]
    omega
  · rename_i hc
    rw [if_neg (by rw [hc]; decide), if_pos (Or.inr hc)]
    omega
  · exact absurd ho id

theorem after_built (M N : Nat) (hint : List hint_s) (hMN : 1 ≤ M * N) (j : Nat) :
    per_col_dlx.Built M N hint (((tuples N M).take j).filter (per_col_dlx.survives hint))
      (per_col_dlx.after M N hint j) := by
  have h0 : per_col_dlx.Built M N hint [] (per_col_dlx.init M N hint) :=
    ⟨rfl, rfl, fun _ => rfl, fun h => absurd rfl h⟩
  have := foldl_built hMN ((tuples N M).take j) [] (per_col_dlx.init M N hint)
    (fun a ha => (mem_tuples.mp (List.mem_of_mem_take ha)).1) h0
  simpa [per_col_dlx.after] using this

theorem after_all (M N : Nat) (hint : List hint_s) :
    per_col_dlx.after M N hint (N ^ M) = per_col_dlx M N hint := by
  have hf := f_eq_foldl M N M (List.replicate M 0) (per_col_dlx.init M N hint) (Nat.le_refl M)
    (by simp)
  simp only [Nat.sub_self, List.take_zero, List.nil_append] at hf
  unfold per_col_dlx per_col_dlx.after
  rw [hf, List.take_of_length_le (by rw [tuples_length])]

theorem settleAll_length (N : Nat) :
    ∀ (hs : List hint_s) (n : Nat), (per_col_dlx.settleAll N n hs).length = hs.length := by
  intro hs
  induction hs with
  | nil => intro n; rfl
  | cons hd hs ih => intro n; simp [per_col_dlx.settleAll, ih]

theorem after_succ (M N : Nat) (hint : List hint_s) (j : Nat) (hj : j < N ^ M) :
    per_col_dlx.after M N hint (j + 1) =
      per_col_dlx.leaf M N ((tuples N M).getD j []) (per_col_dlx.after M N hint j) := by
  have hlt : j < (tuples N M).length := by rw [tuples_length]; exact hj
  unfold per_col_dlx.after
  rw [List.take_succ, List.foldl_append, List.getD_eq_getElem _ _ hlt,
    List.getElem?_eq_getElem hlt]
  rfl

theorem after_cases (M N : Nat) (hint : List hint_s) (hMN : 1 ≤ M * N) (j : Nat) :
    (((tuples N M).take j).filter (per_col_dlx.survives hint) = [] ∧
        per_col_dlx.after M N hint j = per_col_dlx.init M N hint) ∨
      (((tuples N M).take j).filter (per_col_dlx.survives hint) ≠ [] ∧
        (per_col_dlx.after M N hint j).hint = per_col_dlx.settleAll N (M * N) hint ∧
        (∀ x, x ∈ (per_col_dlx.after M N hint j).dlx.cells ↔
          ∃ a, (((tuples N M).take j).filter (per_col_dlx.survives hint))[x.1]? = some a ∧
            per_col_dlx.rowSets M N (per_col_dlx.settleAll N (M * N) hint) a x.2) ∧
        (∀ c, c ∈ (per_col_dlx.after M N hint j).dlx.optional ↔
          per_col_dlx.newCols N (M * N) hint c)) := by
  obtain ⟨-, -, b3, b4⟩ := after_built M N hint hMN j
  by_cases hs : ((tuples N M).take j).filter (per_col_dlx.survives hint) = []
  · exact Or.inl ⟨hs, b3 hs⟩
  · obtain ⟨c1, -, c3, c4⟩ := b4 hs
    exact Or.inr ⟨hs, c1, c3, c4⟩

theorem swap_int_length (r : List Nat) (k i : Nat) : (swap_int r k i).length = r.length := by
  simp [swap_int]

theorem swap_int_getD (r : List Nat) {k i : Nat} (hk : k < r.length) (hi : i < r.length)
    (j : Nat) :
    (swap_int r k i).getD j 0 =
      if j = i then r.getD k 0 else if j = k then r.getD i 0 else r.getD j 0 := by
  unfold swap_int
  simp only [List.getD_eq_getElem?_getD, List.getElem?_set]
  by_cases h1 : i = j
  · subst h1
    simp [hi, hk]
  · by_cases h2 : k = j
    · subst h2
      have : ¬ k = i := fun h => h1 h.symm
      simp [h1, this, hk, hi]
    · have h1' : ¬ j = i := fun h => h1 h.symm
      have h2' : ¬ j = k := fun h => h2 h.symm
      simp [h1, h2, h1', h2']

theorem getD_ext {r s : List Nat} (hl : r.length = s.length)
    (h : ∀ j < r.length, r.getD j 0 = s.getD j 0) : r = s := by
  apply List.ext_getElem hl
  intro j h1 h2
  have := h j h1
  rw [List.getD_eq_getElem _ _ h1, List.getD_eq_getElem _ _ h2] at this
  exact this

theorem swap_int_swap (r : List Nat) {k i : Nat} (hk : k < r.length) (hi : i < r.length) :
    swap_int (swap_int r k i) k i = r := by
  apply getD_ext (by simp [swap_int_length])
  intro j _
  rw [swap_int_getD _ (by rw [swap_int_length]; exact hk) (by rw [swap_int_length]; exact hi),
    swap_int_getD r hk hi, swap_int_getD r hk hi, swap_int_getD r hk hi]
  by_cases h1 : j = i
  · subst h1
    by_cases h3 : k = j
    · subst h3; simp
    · simp [h3]
  · by_cases h2 : j = k
    · subst h2
      have h3 : ¬ i = j := fun h => h1 h.symm
      simp [h1, h3]
    · simp [h1, h2]

theorem leaf_perm (N : Nat) (hint : List hint_s) (st : brute.State) :
    (brute.leaf N hint st).perm = st.perm := by
  unfold brute.leaf
  split
  · rfl
  · split <;> rfl

theorem leaf_eq_visit (N : Nat) (hint : List hint_s) (st : brute.State) :
    brute.leaf N hint st = brute.visit N hint st st.perm := by
  unfold brute.visit
  have h := leaf_perm N hint st
  cases hs : brute.leaf N hint st
  rw [hs] at h
  simp only at h
  subst h
  rfl

theorem visit_perm (N : Nat) (hint : List hint_s) (st : brute.State) (p : List (List Nat)) :
    (brute.visit N hint st p).perm = st.perm := rfl

theorem foldl_visit_perm (N : Nat) (hint : List hint_s) (l : List (List (List Nat)))
    (st : brute.State) : (l.foldl (brute.visit N hint) st).perm = st.perm := by
  induction l generalizing st with
  | nil => rfl
  | cons p l ih => rw [List.foldl_cons, ih, visit_perm]

theorem visit_setperm (N : Nat) (hint : List hint_s) (st : brute.State)
    (p q : List (List Nat)) :
    brute.visit N hint { st with perm := q } p = { brute.visit N hint st p with perm := q } := by
  rfl

theorem foldl_visit_setperm (N : Nat) (hint : List hint_s) (l : List (List (List Nat)))
    (st : brute.State) (q : List (List Nat)) :
    l.foldl (brute.visit N hint) { st with perm := q } =
      { l.foldl (brute.visit N hint) st with perm := q } := by
  induction l generalizing st with
  | nil => rfl
  | cons p l ih =>
    rw [List.foldl_cons, List.foldl_cons, visit_setperm, ih]

theorem foldl_steps {β : Type} (N : Nat) (hint : List hint_s) (step : brute.State → β → brute.State)
    (L : β → List (List (List Nat))) (p : List (List Nat)) :
    ∀ (l : List β) (st : brute.State), st.perm = p →
      (∀ i ∈ l, ∀ st : brute.State, st.perm = p →
        step st i = (L i).foldl (brute.visit N hint) st) →
      l.foldl step st = (l.flatMap L).foldl (brute.visit N hint) st := by
  intro l
  induction l with
  | nil => intro st _ _; rfl
  | cons i l ih =>
    intro st hp hstep
    rw [List.foldl_cons, List.flatMap_cons, List.foldl_append,
      hstep i (List.mem_cons_self _ _) st hp]
    apply ih
    · rw [foldl_visit_perm]; exact hp
    · intro j hj st' hp'
      exact hstep j (List.mem_cons_of_mem _ hj) st' hp'

theorem set_getD_self (p : List (List Nat)) {m : Nat} (hm : m < p.length) :
    p.set m (p.getD m []) = p := by
  apply List.ext_getElem? 
  intro n
  rw [List.getElem?_set]
  by_cases h : m = n
  · subst h
    simp [hm, List.getD_eq_getElem?_getD]
  · simp [h]

theorem setperm_self (s : brute.State) (p : List (List Nat)) (h : s.perm = p) :
    { s with perm := p } = s := by
  subst h
  rfl

theorem swapRow_getD (p : List (List Nat)) {m : Nat} (hm : m < p.length) (k i : Nat) :
    (brute.swapRow p m k i).getD m [] = swap_int (p.getD m []) k i := by
  unfold brute.swapRow
  simp [List.getD_eq_getElem?_getD, List.getElem?_set, hm]

theorem g_enum {M N : Nat} {hint : List hint_s} (m : Nat) (hm : m + 1 < M)
    (next : brute.State → brute.State) (En : List (List Nat) → List (List (List Nat)))
    (hnext : ∀ st : brute.State, isGrid M N st.perm →
      next st = (En st.perm).foldl (brute.visit N hint) st) :
    ∀ rem, rem ≤ N → ∀ st : brute.State, isGrid M N st.perm →
      brute.g N m next rem st =
        ((brute.rowsFrom N rem (st.perm.getD m [])).flatMap
          (fun r => En (st.perm.set m r))).foldl (brute.visit N hint) st := by
  intro rem
  induction rem with
  | zero =>
    intro _ st hg
    have hml : m < st.perm.length := by rw [hg.1]; omega
    have hself : st.perm.set m (st.perm.getD m []) = st.perm := set_getD_self _ hml
    simp only [brute.g, brute.rowsFrom, List.flatMap_cons, List.flatMap_nil, List.append_nil]
    rw [hself]
    exact hnext st hg
  | succ rem ih =>
    intro hrem st hg
    have hml : m < st.perm.length := by rw [hg.1]; omega
    have hrow : (st.perm.getD m []).length = N := by
      have := (isGrid_row hg hm).length_eq
      simpa using this
    have hk : N - (rem + 1) < N := by omega
    unfold brute.g
    simp only [brute.rowsFrom]
    rw [List.flatMap_assoc]
    apply foldl_steps N hint _ _ st.perm _ st rfl
    intro i hi st' hp'
    have hi' := List.mem_range'_1.mp hi
    have hiN : i < N := by omega
    have hg' : isGrid M N st'.perm := by rw [hp']; exact hg
    have hg1 : isGrid M N (brute.swapRow st'.perm m (N - (rem + 1)) i) :=
      swapRow_isGrid hg' m hk hiN
    have h2 := ih (by omega) { st' with perm := brute.swapRow st'.perm m (N - (rem + 1)) i } hg1
    simp only at h2 ⊢
    rw [h2, foldl_visit_setperm]
    simp only
    rw [hp']
    have e1 : (brute.swapRow st.perm m (N - (rem + 1)) i).getD m [] =
        swap_int (st.perm.getD m []) (N - (rem + 1)) i := swapRow_getD _ hml _ _
    have e2 : ∀ r, (brute.swapRow st.perm m (N - (rem + 1)) i).set m r = st.perm.set m r := by
      intro r
      unfold brute.swapRow
      rw [List.set_set]
    have e3 : brute.swapRow (brute.swapRow st.perm m (N - (rem + 1)) i) m (N - (rem + 1)) i =
        st.perm := by
      unfold brute.swapRow at e1 ⊢
      rw [e1, List.set_set, swap_int_swap _ (by omega) (by omega)]
      exact set_getD_self _ hml
    rw [e1, e3]
    simp only [e2]
    apply setperm_self
    rw [foldl_visit_perm, hp']

theorem f_enum {M N : Nat} {hint : List hint_s} :
    ∀ rem, rem ≤ M - 1 → ∀ st : brute.State, isGrid M N st.perm →
      brute.f M N hint rem st =
        (brute.leaves M N rem st.perm).foldl (brute.visit N hint) st := by
  intro rem
  induction rem with
  | zero =>
    intro _ st _
    simp only [brute.f, brute.leaves, List.foldl_cons, List.foldl_nil]
    exact leaf_eq_visit N hint st
  | succ rem ih =>
    intro hrem st hg
    unfold brute.f
    rw [g_enum (M - 1 - (rem + 1)) (by omega) _ (brute.leaves M N rem)
      (fun st' hg' => ih (by omega) st' hg') N (Nat.le_refl N) st hg]
    rfl

theorem flatMap_length_const {α β : Type} (g : α → List β) (L : Nat) :
    ∀ (l : List α), (∀ x ∈ l, (g x).length = L) → (l.flatMap g).length = l.length * L := by
  intro l
  induction l with
  | nil => intro _; simp
  | cons x l ih =>
    intro h
    rw [List.flatMap_cons, List.length_append, h x (List.mem_cons_self _ _),
      ih (fun y hy => h y (List.mem_cons_of_mem _ hy)), List.length_cons, Nat.succ_mul]
    omega

theorem getD_inj {r : List Nat} (hn : r.Nodup) {a b : Nat} (ha : a < r.length)
    (hb : b < r.length) (h : r.getD a 0 = r.getD b 0) : a = b := by
  rw [List.getD_eq_getElem _ _ ha, List.getD_eq_getElem _ _ hb] at h
  exact (hn.getElem_inj_iff).mp h

theorem rowsFrom_mem (N : Nat) :
    ∀ rem, rem ≤ N → ∀ r : List Nat, r.length = N → r.Nodup → ∀ s : List Nat,
      (s ∈ brute.rowsFrom N rem r ↔
        List.Perm s r ∧ ∀ j < N - rem, s.getD j 0 = r.getD j 0) := by
  intro rem
  induction rem with
  | zero =>
    intro _ r hl _ s
    simp only [brute.rowsFrom, List.mem_singleton, Nat.sub_zero]
    constructor
    · intro h; subst h; exact ⟨List.Perm.refl _, fun _ _ => rfl⟩
    · rintro ⟨hp, hj⟩
      exact getD_ext (by rw [hp.length_eq]) (fun j hjl => hj j (by rw [hp.length_eq, hl] at hjl; exact hjl))
  | succ rem ih =>
    intro hrem r hl hn s
    have hk : N - (rem + 1) < N := by omega
    have hkk : N - rem = N - (rem + 1) + 1 := by omega
    simp only [brute.rowsFrom, List.mem_flatMap]
    constructor
    · rintro ⟨i, hi, hs⟩
      have hi' := List.mem_range'_1.mp hi
      have hiN : i < N := by omega
      have hsw := swap_int_perm r (by omega : N - (rem + 1) < r.length) (by omega : i < r.length)
      obtain ⟨h1, h2⟩ := (ih (by omega) _ (by rw [swap_int_length]; exact hl)
        (hsw.nodup_iff.mpr hn) s).mp hs
      refine ⟨h1.trans hsw, ?_⟩
      intro j hj
      rw [h2 j (by omega), swap_int_getD r (by omega) (by omega)]
      rw [if_neg (by omega), if_neg (by omega)]
    · rintro ⟨hp, hj⟩
      have hsl : s.length = N := by rw [hp.length_eq, hl]
      have hsn : s.Nodup := hp.nodup_iff.mpr hn
      have hmem : s.getD (N - (rem + 1)) 0 ∈ r := by
        rw [List.getD_eq_getElem _ _ (by omega)]
        exact hp.subset (List.getElem_mem _)
      obtain ⟨i, hil, hri⟩ := List.getElem_of_mem hmem
      have hri' : r.getD i 0 = s.getD (N - (rem + 1)) 0 := by
        rw [List.getD_eq_getElem _ _ hil]; exact hri
      have hge : N - (rem + 1) ≤ i := by
        apply Nat.le_of_not_lt
        intro hlt
        have := hj i hlt
        rw [hri'] at this
        have := getD_inj hsn (by omega) (by omega) this
        omega
      refine ⟨i, List.mem_range'_1.mpr ⟨hge, by omega⟩, ?_⟩
      have hsw := swap_int_perm r (by omega : N - (rem + 1) < r.length) (by omega : i < r.length)
      apply (ih (by omega) _ (by rw [swap_int_length]; exact hl) (hsw.nodup_iff.mpr hn) s).mpr
      refine ⟨hp.trans hsw.symm, ?_⟩
      intro j hjlt
      rw [swap_int_getD r (by omega) (by omega)]
      by_cases h1 : j = i
      · rw [if_pos h1]
        have e : i = N - (rem + 1) := by omega
        rw [h1, e]
        rw [e] at hri'
        exact hri'.symm
      · rw [if_neg h1]
        by_cases h2 : j = N - (rem + 1)
        · rw [if_pos h2, h2, hri']
        · rw [if_neg h2]
          exact hj j (by omega)

theorem rowsFrom_nodup (N : Nat) :
    ∀ rem, rem ≤ N → ∀ r : List Nat, r.length = N → r.Nodup →
      (brute.rowsFrom N rem r).Nodup := by
  intro rem
  induction rem with
  | zero => intro _ r _ _; simp [brute.rowsFrom]
  | succ rem ih =>
    intro hrem r hl hn
    have hk : N - (rem + 1) < N := by omega
    simp only [brute.rowsFrom]
    rw [List.nodup_flatMap]
    constructor
    · intro i hi
      have hi' := List.mem_range'_1.mp hi
      have hsw := swap_int_perm r (by omega : N - (rem + 1) < r.length) (by omega : i < r.length)
      exact ih (by omega) _ (by rw [swap_int_length]; exact hl) (hsw.nodup_iff.mpr hn)
    · apply List.Pairwise.imp_of_mem _ (List.nodup_range' _ _)
      intro a b ha hb hab
      have ha' := List.mem_range'_1.mp ha
      have hb' := List.mem_range'_1.mp hb
      simp only [Function.onFun, List.disjoint_left]
      intro s hsa hsb
      have hswa := swap_int_perm r (by omega : N - (rem + 1) < r.length) (by omega : a < r.length)
      have hswb := swap_int_perm r (by omega : N - (rem + 1) < r.length) (by omega : b < r.length)
      have h1 := ((rowsFrom_mem N rem (by omega) _ (by rw [swap_int_length]; exact hl)
        (hswa.nodup_iff.mpr hn) s).mp hsa).2 (N - (rem + 1)) (by omega)
      have h2 := ((rowsFrom_mem N rem (by omega) _ (by rw [swap_int_length]; exact hl)
        (hswb.nodup_iff.mpr hn) s).mp hsb).2 (N - (rem + 1)) (by omega)
      rw [swap_int_getD r (by omega) (by omega)] at h1 h2
      have e1 : r.getD a 0 = s.getD (N - (rem + 1)) 0 := by
        by_cases h : N - (rem + 1) = a
        · rw [if_pos h] at h1; rw [h1, h]
        · rw [if_neg h, if_pos rfl] at h1; exact h1.symm
      have e2 : r.getD b 0 = s.getD (N - (rem + 1)) 0 := by
        by_cases h : N - (rem + 1) = b
        · rw [if_pos h] at h2; rw [h2, h]
        · rw [if_neg h, if_pos rfl] at h2; exact h2.symm
      exact hab (getD_inj hn (by omega) (by omega) (e1.trans e2.symm))

theorem rowsFrom_length (N : Nat) :
    ∀ rem, rem ≤ N → ∀ r : List Nat, (brute.rowsFrom N rem r).length = rem.factorial := by
  intro rem
  induction rem with
  | zero => intro _ r; simp [brute.rowsFrom]
  | succ rem ih =>
    intro hrem r
    simp only [brute.rowsFrom]
    rw [flatMap_length_const _ rem.factorial _ (fun i _ => ih (by omega) _),
      List.length_range', Nat.factorial_succ]
    congr 1
    omega

theorem set_isGrid {M N : Nat} {p : List (List Nat)} (hg : isGrid M N p) (m : Nat)
    {r : List Nat} (hr : List.Perm r (List.range N)) : isGrid M N (p.set m r) := by
  refine ⟨by simpa using hg.1, ?_⟩
  intro row hrow
  rcases List.mem_or_eq_of_mem_set hrow with h | h
  · exact hg.2 row h
  · rw [h]; exact hr

theorem getD_set_row (p : List (List Nat)) (m j : Nat) (r : List Nat) :
    (p.set m r).getD j [] = if m = j ∧ m < p.length then r else p.getD j [] := by
  simp only [List.getD_eq_getElem?_getD, List.getElem?_set]
  by_cases h : m = j
  · subst h
    by_cases hm : m < p.length
    · simp [hm]
    · simp [hm, List.getElem?_eq_none (Nat.le_of_not_lt hm)]
  · simp [h]

theorem leaves_mem {M N : Nat} :
    ∀ rem, rem ≤ M - 1 → ∀ p : List (List Nat), isGrid M N p → ∀ q : List (List Nat),
      (q ∈ brute.leaves M N rem p ↔
        isGrid M N q ∧ ∀ j < M - 1 - rem, q.getD j [] = p.getD j []) := by
  intro rem
  induction rem with
  | zero =>
    intro _ p hg q
    simp only [brute.leaves, List.mem_singleton, Nat.sub_zero]
    constructor
    · intro h; subst h; exact ⟨hg, fun _ _ => rfl⟩
    · rintro ⟨hq, hj⟩
      apply List.ext_getElem (by rw [hq.1, hg.1])
      intro j h1 h2
      have := hj j (by rw [hq.1] at h1; exact h1)
      rw [List.getD_eq_getElem _ _ h1, List.getD_eq_getElem _ _ h2] at this
      exact this
  | succ rem ih =>
    intro hrem p hg q
    have hm : M - 1 - (rem + 1) + 1 < M := by omega
    have hml : M - 1 - (rem + 1) < p.length := by rw [hg.1]; omega
    have hrow := isGrid_row hg hm
    have hrl : (p.getD (M - 1 - (rem + 1)) []).length = N := by simpa using hrow.length_eq
    have hrn : (p.getD (M - 1 - (rem + 1)) []).Nodup :=
      hrow.nodup_iff.mpr (List.nodup_range N)
    simp only [brute.leaves, List.mem_flatMap]
    constructor
    · rintro ⟨r, hr, hq⟩
      have hrp := ((rowsFrom_mem N N (Nat.le_refl N) _ hrl hrn r).mp hr).1
      obtain ⟨h1, h2⟩ := (ih (by omega) _ (set_isGrid hg _ (hrp.trans hrow)) q).mp hq
      refine ⟨h1, fun j hj => ?_⟩
      rw [h2 j (by omega), getD_set_row, if_neg (by omega)]
    · rintro ⟨hq, hj⟩
      have hqrow := isGrid_row hq hm
      refine ⟨q.getD (M - 1 - (rem + 1)) [], ?_, ?_⟩
      · apply (rowsFrom_mem N N (Nat.le_refl N) _ hrl hrn _).mpr
        exact ⟨hqrow.trans hrow.symm, fun j hj => by omega⟩
      · apply (ih (by omega) _ (set_isGrid hg _ hqrow) q).mpr
        refine ⟨hq, fun j hjlt => ?_⟩
        rw [getD_set_row]
        by_cases h : M - 1 - (rem + 1) = j
        · rw [if_pos ⟨h, hml⟩, h]
        · rw [if_neg (fun hh => h hh.1)]
          exact hj j (by omega)

theorem leaves_nodup {M N : Nat} :
    ∀ rem, rem ≤ M - 1 → ∀ p : List (List Nat), isGrid M N p →
      (brute.leaves M N rem p).Nodup := by
  intro rem
  induction rem with
  | zero => intro _ p _; simp [brute.leaves]
  | succ rem ih =>
    intro hrem p hg
    have hm : M - 1 - (rem + 1) + 1 < M := by omega
    have hml : M - 1 - (rem + 1) < p.length := by rw [hg.1]; omega
    have hrow := isGrid_row hg hm
    have hrl : (p.getD (M - 1 - (rem + 1)) []).length = N := by simpa using hrow.length_eq
    have hrn : (p.getD (M - 1 - (rem + 1)) []).Nodup :=
      hrow.nodup_iff.mpr (List.nodup_range N)
    have hgrid : ∀ r ∈ brute.rowsFrom N N (p.getD (M - 1 - (rem + 1)) []),
        isGrid M N (p.set (M - 1 - (rem + 1)) r) := by
      intro r hr
      have hrp := ((rowsFrom_mem N N (Nat.le_refl N) _ hrl hrn r).mp hr).1
      exact set_isGrid hg _ (hrp.trans hrow)
    simp only [brute.leaves]
    rw [List.nodup_flatMap]
    constructor
    · intro r hr
      exact ih (by omega) _ (hgrid r hr)
    · apply List.Pairwise.imp_of_mem _ (rowsFrom_nodup N N (Nat.le_refl N) _ hrl hrn)
      intro a b ha hb hab
      simp only [Function.onFun, List.disjoint_left]
      intro q hqa hqb
      have h1 := ((leaves_mem rem (by omega) _ (hgrid a ha) q).mp hqa).2
        (M - 1 - (rem + 1)) (by omega)
      have h2 := ((leaves_mem rem (by omega) _ (hgrid b hb) q).mp hqb).2
        (M - 1 - (rem + 1)) (by omega)
      rw [getD_set_row, if_pos ⟨rfl, hml⟩] at h1 h2
      exact hab (h1.symm.trans h2)

theorem leaves_length {M N : Nat} :
    ∀ rem, rem ≤ M - 1 → ∀ p : List (List Nat),
      (brute.leaves M N rem p).length = N.factorial ^ rem := by
  intro rem
  induction rem with
  | zero => intro _ p; simp [brute.leaves]
  | succ rem ih =>
    intro hrem p
    simp only [brute.leaves]
    rw [flatMap_length_const _ (N.factorial ^ rem) _ (fun r _ => ih (by omega) _),
      rowsFrom_length N N (Nat.le_refl N), Nat.pow_succ, Nat.mul_comm]

theorem visit_dead (N : Nat) (hint : List hint_s) (st : brute.State) (p : List (List Nat))
    (hd : st.dead = true) : brute.visit N hint st p = st := by
  unfold brute.visit brute.leaf
  simp only [hd, if_true]
  cases st
  simp only at hd
  subst hd
  rfl

theorem foldl_visit_dead (N : Nat) (hint : List hint_s) (l : List (List (List Nat)))
    (st : brute.State) (hd : st.dead = true) : l.foldl (brute.visit N hint) st = st := by
  induction l with
  | nil => rfl
  | cons p l ih => rw [List.foldl_cons, visit_dead N hint st p hd, ih]

theorem visit_alive (N : Nat) (hint : List hint_s) (st : brute.State) (p : List (List Nat))
    (hd : st.dead = false) :
    (brute.visit N hint st p).visited = st.visited ++ [p] ∧
      (brute.visit N hint st p).printed =
        st.printed ++ (if brute.rejected N p hint = some false then [p] else []) ∧
      (brute.visit N hint st p).dead = decide (brute.rejected N p hint = none) := by
  unfold brute.visit brute.leaf
  simp only [hd]
  cases hr : brute.rejected N p hint with
  | none => simp
  | some b => cases b <;> simp

theorem foldl_visit_prefix (N : Nat) (hint : List hint_s) (l : List (List (List Nat))) :
    ∀ st : brute.State, ∃ n, (l.foldl (brute.visit N hint) st).visited = st.visited ++ l.take n := by
  induction l with
  | nil => intro st; exact ⟨0, by simp⟩
  | cons p l ih =>
    intro st
    cases hd : st.dead with
    | true =>
      refine ⟨0, ?_⟩
      rw [foldl_visit_dead N hint _ st hd]; simp
    | false =>
      obtain ⟨n, hn⟩ := ih (brute.visit N hint st p)
      refine ⟨n + 1, ?_⟩
      rw [List.foldl_cons, hn, (visit_alive N hint st p hd).1]
      simp

theorem foldl_visit_alive (N : Nat) (hint : List hint_s) (l : List (List (List Nat))) :
    ∀ st : brute.State, st.dead = false → (∀ p ∈ l, brute.rejected N p hint ≠ none) →
      (l.foldl (brute.visit N hint) st).dead = false ∧
        (l.foldl (brute.visit N hint) st).visited = st.visited ++ l ∧
        (l.foldl (brute.visit N hint) st).printed =
          st.printed ++ l.filter (fun p => decide (brute.rejected N p hint = some false)) := by
  induction l with
  | nil => intro st hd _; simp [hd]
  | cons p l ih =>
    intro st hd hl
    obtain ⟨v1, v2, v3⟩ := visit_alive N hint st p hd
    have hp := hl p (List.mem_cons_self _ _)
    have hd' : (brute.visit N hint st p).dead = false := by
      rw [v3]; simpa using hp
    obtain ⟨i1, i2, i3⟩ := ih _ hd' (fun q hq => hl q (List.mem_cons_of_mem _ hq))
    rw [List.foldl_cons]
    refine ⟨i1, ?_, ?_⟩
    · rw [i2, v1]; simp
    · rw [i3, v2, List.filter_cons]
      by_cases hr : brute.rejected N p hint = some false
      · simp [hr]
      · simp [hr]

theorem foldl_visit_not_dead (N : Nat) (hint : List hint_s) (l : List (List (List Nat))) :
    ∀ st : brute.State, (l.foldl (brute.visit N hint) st).dead = false →
      st.dead = false ∧ ∀ p ∈ l, brute.rejected N p hint ≠ none := by
  induction l with
  | nil => intro st h; exact ⟨h, by simp⟩
  | cons p l ih =>
    intro st h
    rw [List.foldl_cons] at h
    obtain ⟨h1, h2⟩ := ih _ h
    cases hd : st.dead with
    | true =>
      rw [visit_dead N hint st p hd] at h1
      rw [hd] at h1; exact absurd h1 (by decide)
    | false =>
      refine ⟨rfl, ?_⟩
      intro q hq
      rcases List.mem_cons.mp hq with e | e
      · rw [e]
        have := (visit_alive N hint st p hd).2.2
        rw [h1] at this
        simpa using this.symm
      · exact h2 q e

theorem brute_enum (M N : Nat) (hint : List hint_s) :
    brute M N hint =
      (brute.leaves M N (M - 1) (brute.init M N).perm).foldl (brute.visit N hint)
        (brute.init M N) :=
  f_enum (M - 1) (Nat.le_refl _) (brute.init M N) (init_inv M N hint).1

/-- C1: on the puzzle with `M = 3`, `N = 2` and the single hint `i (0,0) (1,0) (2,0)` the
two engines differ: `brute` prints the identity grid, in which the column of the first
symbol holds both following symbols, and no exact cover of the instance of `per_col_dlx`
describes that grid. -/
theorem C1_engines_differ_on_i :
    [[0, 1], [0, 1]] ∈ (brute 3 2 [⟨'i', [(0, 0), (1, 0), (2, 0)], 0⟩]).printed ∧
      bruteAccepts 3 2 [⟨'i', [(0, 0), (1, 0), (2, 0)], 0⟩] [[0, 1], [0, 1]] ∧
      ¬ dlxAccepts 3 2 [⟨'i', [(0, 0), (1, 0), (2, 0)], 0⟩] [[0, 1], [0, 1]] := by
  refine ⟨by decide, by decide, ?_⟩
  rintro ⟨-, S, hcov, hdesc⟩
  obtain ⟨r, hr, hb⟩ := coverCount_pos_mem (by rw [hcov.2.2.1 0 (by decide)]; decide)
  have hlt := hcov.2.1 r hr
  have h1 := hdesc r hr 1 (by decide)
  have h2 := hdesc r hr 2 (by decide)
  have key : ∀ r < (per_col_dlx 3 2 [⟨'i', [(0, 0), (1, 0), (2, 0)], 0⟩]).dlxM,
      (per_col_dlx 3 2 [⟨'i', [(0, 0), (1, 0), (2, 0)], 0⟩]).dlx.bit r 0 = true →
      (((per_col_dlx 3 2 [⟨'i', [(0, 0), (1, 0), (2, 0)], 0⟩]).dlx_a.getD r []).getD 1 0 =
        brute.get [[0, 1], [0, 1]] 1
          (((per_col_dlx 3 2 [⟨'i', [(0, 0), (1, 0), (2, 0)], 0⟩]).dlx_a.getD r []).getD 0 0)) →
      (((per_col_dlx 3 2 [⟨'i', [(0, 0), (1, 0), (2, 0)], 0⟩]).dlx_a.getD r []).getD 2 0 =
        brute.get [[0, 1], [0, 1]] 2
          (((per_col_dlx 3 2 [⟨'i', [(0, 0), (1, 0), (2, 0)], 0⟩]).dlx_a.getD r []).getD 0 0)) →
      False := by decide
  exact key r hlt hb h1 h2

/-- C2: on the puzzle with `M = 4`, `N = 2` and the single hint `= (0,0) (1,0) (2,0) (3,0)`
the DLX-rows 3 and 10 of the instance of `per_col_dlx` (the candidates `(0,0,1,1)` and
`(1,1,0,0)`, each holding two of the four symbols) form an exact cover, and the grid they
describe does not have the four symbols in one column: `anon` discards a candidate only
when it holds exactly one of the symbols.  `brute` rejects that grid. -/
theorem C2_encoder_accepts_split_equal :
    (per_col_dlx 4 2 [⟨'=', [(0, 0), (1, 0), (2, 0), (3, 0)], 0⟩]).dlx_a.getD 3 [] = [0, 0, 1, 1] ∧
      (per_col_dlx 4 2 [⟨'=', [(0, 0), (1, 0), (2, 0), (3, 0)], 0⟩]).dlx_a.getD 10 [] =
        [1, 1, 0, 0] ∧
      isExactCover 4 2 (per_col_dlx 4 2 [⟨'=', [(0, 0), (1, 0), (2, 0), (3, 0)], 0⟩]) [3, 10] ∧
      dlxAccepts 4 2 [⟨'=', [(0, 0), (1, 0), (2, 0), (3, 0)], 0⟩] [[0, 1], [1, 0], [1, 0]] ∧
      isGrid 4 2 [[0, 1], [1, 0], [1, 0]] ∧
      ¬ Meaning.holds 2 [[0, 1], [1, 0], [1, 0]] ⟨'=', [(0, 0), (1, 0), (2, 0), (3, 0)], 0⟩ ∧
      brute.check 2 [[0, 1], [1, 0], [1, 0]] ⟨'=', [(0, 0), (1, 0), (2, 0), (3, 0)], 0⟩ =
        some true := by
  refine ⟨by decide, by decide, by decide, ⟨by decide, [3, 10], by decide, by decide⟩,
    by decide, by decide, by decide⟩

/-- C3: on every grid (non-fixed rows are permutations of `0 .. N-1`) and for every hint of
type `=`, `!`, `<`, `>`, `1`, `A`, `^`, `p` or `X` with its symbols inside the table and the
arity of its type, `check` returns nonzero exactly when the documented meaning of the hint
is false on the grid; so every grid that `brute` prints satisfies the hint. -/
theorem C3_check_matches_meaning (M N : Nat) (hint : List hint_s) (h : hint_s)
    (hw : inGrid M N h) (ha : arityOk h)
    (hc : h.cmd ∈ ['=', '!', '<', '>', '1', 'A', '^', 'p', 'X']) :
    (∀ perm, isGrid M N perm →
        brute.check N perm h = some (decide (¬ Meaning.holds N perm h))) ∧
      (h ∈ hint → ∀ perm ∈ (brute M N hint).printed, Meaning.holds N perm h) := by
  refine ⟨fun perm hg => check_meaning hg hw ha hc, ?_⟩
  intro hh perm hp
  obtain ⟨hg, hr⟩ := (brute_inv M N hint).2.2 perm hp
  have h1 := rejected_false hr h hh
  rw [check_meaning hg hw ha hc] at h1
  simpa using h1

theorem C3_check_matches_meaning_witness :
    inGrid 2 3 ⟨'<', [(0, 0), (1, 1)], 0⟩ ∧ arityOk ⟨'<', [(0, 0), (1, 1)], 0⟩ ∧
      (⟨'<', [(0, 0), (1, 1)], 0⟩ : hint_s).cmd ∈ ['=', '!', '<', '>', '1', 'A', '^', 'p', 'X'] ∧
      ((∀ perm, isGrid 2 3 perm →
        brute.check 3 perm ⟨'<', [(0, 0), (1, 1)], 0⟩ =
          some (decide (¬ Meaning.holds 3 perm ⟨'<', [(0, 0), (1, 1)], 0⟩))) ∧
      ((⟨'<', [(0, 0), (1, 1)], 0⟩ : hint_s) ∈ [(⟨'<', [(0, 0), (1, 1)], 0⟩ : hint_s)] →
        ∀ perm ∈ (brute 2 3 [⟨'<', [(0, 0), (1, 1)], 0⟩]).printed,
          Meaning.holds 3 perm ⟨'<', [(0, 0), (1, 1)], 0⟩)) :=
  ⟨by decide, by decide, by decide,
    C3_check_matches_meaning 2 3 [⟨'<', [(0, 0), (1, 1)], 0⟩] ⟨'<', [(0, 0), (1, 1)], 0⟩
      (by decide) (by decide) (by decide)⟩

/-- C4: on the grid with `M = 3`, `N = 2` in which every row is in its original order, the
hint `i (0,0) (1,0) (2,0)` has both following symbols in the column of its first symbol, so
"exactly one" is false; yet `check` returns 0 (the hint is accepted), because the loop
returns 0 at the first following symbol it finds in that column.  The exact-cover engine
discards that column. -/
theorem C4_brute_i_accepts_two_in_column :
    isGrid 3 2 [[0, 1], [0, 1]] ∧ inGrid 3 2 ⟨'i', [(0, 0), (1, 0), (2, 0)], 0⟩ ∧
      brute.check 2 [[0, 1], [0, 1]] ⟨'i', [(0, 0), (1, 0), (2, 0)], 0⟩ = some false ∧
      Meaning.shareColumn 2 [[0, 1], [0, 1]] (0, 0) (1, 0) ∧
      Meaning.shareColumn 2 [[0, 1], [0, 1]] (0, 0) (2, 0) ∧
      ¬ Meaning.exactlyOne 2 [[0, 1], [0, 1]] ⟨'i', [(0, 0), (1, 0), (2, 0)], 0⟩ ∧
      per_col_dlx.anon [0, 0, 0] ⟨'i', [(0, 0), (1, 0), (2, 0)], 0⟩ = true := by
  decide

/-- C5: for `M ≥ 1` and every `N`, whenever `brute` reaches the leaf check the array `perm`
has `M - 1` rows and each row `perm[m]` is a permutation of `0 .. N-1`; so in every printed
grid each symbol `(m, c)` of each table row stands in exactly one column. -/
theorem C5_brute_rows_are_permutations (M N : Nat) (hint : List hint_s) (hM : 1 ≤ M) :
    (∀ p ∈ (brute M N hint).visited,
        p.length = M - 1 ∧ ∀ m < M - 1, List.Perm (p.getD m []) (List.range N)) ∧
      (∀ p ∈ (brute M N hint).printed, ∀ m < M, ∀ c < N,
        ∃! n, n < N ∧ brute.get p m n = c) := by
  obtain ⟨-, hv, hp⟩ := brute_inv M N hint
  constructor
  · intro p hpv
    exact ⟨(hv p hpv).1, fun m hm => isGrid_row (hv p hpv) (by omega)⟩
  · intro p hpp m hm c hc
    obtain ⟨hg, -⟩ := hp p hpp
    obtain ⟨n, hn, hin⟩ := inColumn_exists hg (s := (m, c)) hm hc
    refine ⟨n, ⟨hn, hin⟩, ?_⟩
    rintro n' ⟨hn', hin'⟩
    exact inColumn_unique hg (s := (m, c)) hm hn' hn hin' hin

theorem C5_brute_rows_are_permutations_witness :
    1 ≤ 2 ∧ (brute 2 3 []).visited.length = 6 ∧
      ((∀ p ∈ (brute 2 3 []).visited,
        p.length = 2 - 1 ∧ ∀ m < 2 - 1, List.Perm (p.getD m []) (List.range 3)) ∧
      (∀ p ∈ (brute 2 3 []).printed, ∀ m < 2, ∀ c < 3,
        ∃! n, n < 3 ∧ brute.get p m n = c)) :=
  ⟨by decide, by decide, C5_brute_rows_are_permutations 2 3 [] (by decide)⟩

/-- C6: for `M ≥ 1`, `N ≥ 1` and any hints (with `dlx_col` 0 on entry, as `main` creates
them), every set of DLX-rows of the instance of `per_col_dlx` that sets each of the `M * N`
symbol columns exactly once has exactly `N` rows, and for every table row `k < M` the values
`a[k]` of its candidates are a permutation of `0 .. N-1`; in particular the positions `a[0]`
are pairwise distinct. -/
theorem C6_cover_rows_biject (M N : Nat) (hint : List hint_s) (hM : 1 ≤ M) (hN : 1 ≤ N)
    (h0 : ∀ h ∈ hint, h.dlx_col = 0) (S : List Nat) (hS : S.Nodup)
    (hr : ∀ r ∈ S, r < (per_col_dlx M N hint).dlxM)
    (hp : ∀ c < M * N, coverCount (per_col_dlx M N hint).dlx S c = 1) :
    S.length = N ∧
      (∀ k < M, List.Perm (S.map (fun r => ((per_col_dlx M N hint).dlx_a.getD r []).getD k 0))
        (List.range N)) ∧
      (S.map (fun r => ((per_col_dlx M N hint).dlx_a.getD r []).getD 0 0)).Nodup := by
  have hMN : 1 ≤ M * N := Nat.mul_le_mul hM hN
  have h0p := cover_values_perm hMN h0 hr hp (k := 0) (by omega)
  refine ⟨by simpa using h0p.length_eq, fun k hk => cover_values_perm hMN h0 hr hp hk, ?_⟩
  exact h0p.nodup_iff.mpr (List.nodup_range N)

theorem C6_cover_rows_biject_witness :
    1 ≤ 2 ∧ 1 ≤ 2 ∧ (∀ h ∈ ([⟨'!', [(0, 0), (1, 0)], 0⟩] : List hint_s), h.dlx_col = 0) ∧
      [0, 1].Nodup ∧
      (∀ r ∈ [0, 1], r < (per_col_dlx 2 2 [⟨'!', [(0, 0), (1, 0)], 0⟩]).dlxM) ∧
      (∀ c < 2 * 2, coverCount (per_col_dlx 2 2 [⟨'!', [(0, 0), (1, 0)], 0⟩]).dlx [0, 1] c = 1) ∧
      ([0, 1].length = 2 ∧
        (∀ k < 2, List.Perm
          ([0, 1].map (fun r =>
            ((per_col_dlx 2 2 [⟨'!', [(0, 0), (1, 0)], 0⟩]).dlx_a.getD r []).getD k 0))
          (List.range 2)) ∧
        ([0, 1].map (fun r =>
          ((per_col_dlx 2 2 [⟨'!', [(0, 0), (1, 0)], 0⟩]).dlx_a.getD r []).getD 0 0)).Nodup) :=
  ⟨by decide, by decide, by decide, by decide, by decide, by decide,
    C6_cover_rows_biject 2 2 [⟨'!', [(0, 0), (1, 0)], 0⟩] (by decide) (by decide) (by decide)
      [0, 1] (by decide) (by decide) (by decide)⟩

/-- C7: for `M ≥ 1`, `N ≥ 1` and symbols `a`, `b` inside the table, a hint list that holds both
`= a b` and `! a b` gives no accepted grid: on every `perm` one of the two checks of `brute`
returns nonzero, so nothing is printed; and `per_col_dlx` discards every candidate column
that contains `a`, so no DLX-row sets the symbol column of `a` and the instance has no exact
cover. -/
theorem C7_contradiction_gives_nothing (M N : Nat) (hint : List hint_s) (a b : Nat × Nat)
    (hM : 1 ≤ M) (hN : 1 ≤ N) (ha : a.1 < M ∧ a.2 < N)
    (h0 : ∀ h ∈ hint, h.dlx_col = 0)
    (he : (⟨'=', [a, b], 0⟩ : hint_s) ∈ hint) (hn : (⟨'!', [a, b], 0⟩ : hint_s) ∈ hint) :
    (∀ perm, brute.check N perm ⟨'=', [a, b], 0⟩ = some true ∨
        brute.check N perm ⟨'!', [a, b], 0⟩ = some true) ∧
      (∀ perm, brute.rejected N perm hint ≠ some false) ∧
      (brute M N hint).printed = [] ∧
      (∀ cand ∈ (per_col_dlx M N hint).dlx_a, cand.getD a.1 0 ≠ a.2) ∧
      (∀ S, ¬ isExactCover M N (per_col_dlx M N hint) S) := by
  have hMN : 1 ≤ M * N := Nat.mul_le_mul hM hN
  have hchk : ∀ perm, brute.check N perm ⟨'=', [a, b], 0⟩ = some true ∨
      brute.check N perm ⟨'!', [a, b], 0⟩ = some true := by
    intro perm
    have e1 : brute.check N perm ⟨'=', [a, b], 0⟩ =
        some (decide (brute.matchmax N perm ⟨'=', [a, b], 0⟩ < 2)) := by
      simp [brute.check, hint_s.n]
    have e2 : brute.check N perm ⟨'!', [a, b], 0⟩ =
        some (decide (brute.matchmax N perm ⟨'!', [a, b], 0⟩ > 1)) := by
      simp [brute.check]
    have e3 : brute.matchmax N perm ⟨'!', [a, b], 0⟩ = brute.matchmax N perm ⟨'=', [a, b], 0⟩ :=
      rfl
    rw [e1, e2, e3]
    by_cases hlt : brute.matchmax N perm ⟨'=', [a, b], 0⟩ < 2
    · left; simp [hlt]
    · right; simp; omega
  have hrej : ∀ perm, brute.rejected N perm hint ≠ some false := by
    intro perm hr
    have h1 := rejected_false hr _ he
    have h2 := rejected_false hr _ hn
    rcases hchk perm with h | h
    · rw [h1] at h; simp at h
    · rw [h2] at h; simp at h
  have hcand : ∀ cand ∈ (per_col_dlx M N hint).dlx_a, cand.getD a.1 0 ≠ a.2 := by
    intro cand hc hca
    rw [(per_col_dlx_built M N hint hMN).1] at hc
    obtain ⟨-, -, hsv⟩ := survivors_mem hc
    have a1 := survives_all hsv _ he
    have a2 := survives_all hsv _ hn
    have hhas : per_col_dlx.has cand ⟨'=', [a, b], 0⟩ 0 = true := by
      show (cand.getD a.1 0 == a.2) = true
      rw [hca]
      exact beq_self_eq_true _
    have hm : per_col_dlx.match_ cand ⟨'!', [a, b], 0⟩ =
        per_col_dlx.match_ cand ⟨'=', [a, b], 0⟩ := rfl
    have hm1 : 1 ≤ per_col_dlx.match_ cand ⟨'=', [a, b], 0⟩ := by
      have e : per_col_dlx.match_ cand ⟨'=', [a, b], 0⟩ =
          0 + (List.range (hint_s.n ⟨'=', [a, b], 0⟩)).countP
            (fun i => per_col_dlx.has cand ⟨'=', [a, b], 0⟩ i) := by
        unfold per_col_dlx.match_
        rw [foldl_add_toNat]
      have : 0 < (List.range (hint_s.n ⟨'=', [a, b], 0⟩)).countP
          (fun i => per_col_dlx.has cand ⟨'=', [a, b], 0⟩ i) :=
        List.countP_pos_iff.mpr ⟨0, by simp [hint_s.n], hhas⟩
      omega
    have a1' : per_col_dlx.match_ cand ⟨'=', [a, b], 0⟩ ≠ 1 := by
      simpa [per_col_dlx.anon] using a1
    have a2' : ¬ per_col_dlx.match_ cand ⟨'!', [a, b], 0⟩ > 1 := by
      simpa [per_col_dlx.anon] using a2
    rw [hm] at a2'
    omega
  refine ⟨hchk, hrej, ?_, hcand, ?_⟩
  · apply List.eq_nil_iff_forall_not_mem.mpr
    intro p hp
    exact hrej p ((brute_inv M N hint).2.2 p hp).2
  · rintro S ⟨-, hlt, hp, -⟩
    have hc := hp (N * a.1 + a.2) (sym_index_lt ha.1 ha.2)
    obtain ⟨r, hr, hb⟩ := coverCount_pos_mem (by rw [hc]; decide)
    have := (bit_sym hMN h0 (hlt r hr) ha.1 ha.2).mp hb
    have hr' := hlt r hr
    obtain ⟨-, hm⟩ := row_at hMN hr'
    rw [← (per_col_dlx_built M N hint hMN).1] at hm
    exact hcand _ hm this

theorem C7_contradiction_gives_nothing_witness :
    1 ≤ 2 ∧ 1 ≤ 2 ∧ ((0, 0) : Nat × Nat).1 < 2 ∧ ((0, 0) : Nat × Nat).2 < 2 ∧
      (∀ h ∈ ([⟨'=', [(0, 0), (1, 1)], 0⟩, ⟨'!', [(0, 0), (1, 1)], 0⟩] : List hint_s),
        h.dlx_col = 0) ∧
      ((∀ perm, brute.check 2 perm ⟨'=', [(0, 0), (1, 1)], 0⟩ = some true ∨
          brute.check 2 perm ⟨'!', [(0, 0), (1, 1)], 0⟩ = some true) ∧
        (∀ perm, brute.rejected 2 perm
          [⟨'=', [(0, 0), (1, 1)], 0⟩, ⟨'!', [(0, 0), (1, 1)], 0⟩] ≠ some false) ∧
        (brute 2 2 [⟨'=', [(0, 0), (1, 1)], 0⟩, ⟨'!', [(0, 0), (1, 1)], 0⟩]).printed = [] ∧
        (∀ cand ∈
            (per_col_dlx 2 2 [⟨'=', [(0, 0), (1, 1)], 0⟩, ⟨'!', [(0, 0), (1, 1)], 0⟩]).dlx_a,
          cand.getD ((0, 0) : Nat × Nat).1 0 ≠ ((0, 0) : Nat × Nat).2) ∧
        (∀ S, ¬ isExactCover 2 2
          (per_col_dlx 2 2 [⟨'=', [(0, 0), (1, 1)], 0⟩, ⟨'!', [(0, 0), (1, 1)], 0⟩]) S)) :=
  ⟨by decide, by decide, by decide, by decide, by decide,
    C7_contradiction_gives_nothing 2 2
      [⟨'=', [(0, 0), (1, 1)], 0⟩, ⟨'!', [(0, 0), (1, 1)], 0⟩] (0, 0) (1, 1)
      (by decide) (by decide) (by decide) (by decide) (by decide) (by decide)⟩

/-- C8: the load-time rewrite turns `> a b` into the hint `<` with coordinates `(b, a)`;
`check` gives `> a b` the same verdict as `< b a` on every `perm`; and a list of constraints
with `> a b` is loaded as the same list of hints as with `< b a` in its place, so `brute`
and `per_col_dlx` produce the same result for both. -/
theorem C8_gt_is_lt_swapped (a b : Nat × Nat) :
    normalize ⟨'>', [a, b], 0⟩ = some ⟨'<', [b, a], 0⟩ ∧
      (∀ N perm, brute.check N perm ⟨'>', [a, b], 0⟩ = brute.check N perm ⟨'<', [b, a], 0⟩) ∧
      (∀ pre post : List hint_s,
        load (pre ++ ⟨'>', [a, b], 0⟩ :: post) = load (pre ++ ⟨'<', [b, a], 0⟩ :: post)) ∧
      (∀ (M N : Nat) (pre post : List hint_s),
        (load (pre ++ ⟨'>', [a, b], 0⟩ :: post)).map (fun hs => (brute M N hs).printed) =
          (load (pre ++ ⟨'<', [b, a], 0⟩ :: post)).map (fun hs => (brute M N hs).printed)) ∧
      (∀ (M N : Nat) (pre post : List hint_s),
        (load (pre ++ ⟨'>', [a, b], 0⟩ :: post)).map (fun hs => per_col_dlx M N hs) =
          (load (pre ++ ⟨'<', [b, a], 0⟩ :: post)).map (fun hs => per_col_dlx M N hs)) := by
  have hn : normalize ⟨'>', [a, b], 0⟩ = some ⟨'<', [b, a], 0⟩ := by
    simp [normalize, hint_s.n, swapCoords]
  have hn2 : normalize ⟨'<', [b, a], 0⟩ = some ⟨'<', [b, a], 0⟩ := by
    simp [normalize]
  have hl := load_append_congr _ _ (hn.trans hn2.symm)
  refine ⟨hn, ?_, hl, fun M N pre post => by rw [hl], fun M N pre post => by rw [hl]⟩
  intro N perm
  have e0 : brute.col N perm ⟨'>', [a, b], 0⟩ 0 = brute.col N perm ⟨'<', [b, a], 0⟩ 1 := rfl
  have e1 : brute.col N perm ⟨'>', [a, b], 0⟩ 1 = brute.col N perm ⟨'<', [b, a], 0⟩ 0 := rfl
  simp only [brute.check, e0, e1]
  cases brute.col N perm ⟨'<', [b, a], 0⟩ 0 <;> cases brute.col N perm ⟨'<', [b, a], 0⟩ 1 <;>
    simp

/-- C9: for a puzzle (`M ≥ 1`, `N ≥ 1`) whose only hint is `< c0 c1` with both symbols inside
the table, `brute` and the exact covers of `per_col_dlx` accept exactly the grids in which
the column of `c0` lies strictly left of the column of `c1`; and in the instance a DLX-row
holding `c0` at position `p` and a DLX-row holding `c1` at position `q` share an optional
column exactly when `q ≤ p`. -/
theorem C9_left_of_scenario (M N : Nat) (c0 c1 : Nat × Nat) (hM : 1 ≤ M) (hN : 1 ≤ N)
    (h0 : c0.1 < M ∧ c0.2 < N) (h1 : c1.1 < M ∧ c1.2 < N) :
    (∀ perm, bruteAccepts M N [⟨'<', [c0, c1], 0⟩] perm ↔
        isGrid M N perm ∧ Meaning.leftOf N perm ⟨'<', [c0, c1], 0⟩) ∧
      (∀ perm, dlxAccepts M N [⟨'<', [c0, c1], 0⟩] perm ↔
        isGrid M N perm ∧ Meaning.leftOf N perm ⟨'<', [c0, c1], 0⟩) ∧
      (∀ r1 r2, r1 < (per_col_dlx M N [⟨'<', [c0, c1], 0⟩]).dlxM →
        r2 < (per_col_dlx M N [⟨'<', [c0, c1], 0⟩]).dlxM →
        ((per_col_dlx M N [⟨'<', [c0, c1], 0⟩]).dlx_a.getD r1 []).getD c0.1 0 = c0.2 →
        ((per_col_dlx M N [⟨'<', [c0, c1], 0⟩]).dlx_a.getD r2 []).getD c1.1 0 = c1.2 →
        ((∃ c ∈ (per_col_dlx M N [⟨'<', [c0, c1], 0⟩]).dlx.optional,
            (per_col_dlx M N [⟨'<', [c0, c1], 0⟩]).dlx.bit r1 c = true ∧
            (per_col_dlx M N [⟨'<', [c0, c1], 0⟩]).dlx.bit r2 c = true) ↔
          ((per_col_dlx M N [⟨'<', [c0, c1], 0⟩]).dlx_a.getD r2 []).getD 0 0 ≤
            ((per_col_dlx M N [⟨'<', [c0, c1], 0⟩]).dlx_a.getD r1 []).getD 0 0)) := by
  have hw : inGrid M N ⟨'<', [c0, c1], 0⟩ := by
    intro s hs
    simp only [List.mem_cons, List.mem_singleton, List.not_mem_nil, or_false] at hs
    rcases hs with e | e <;> rw [e]
    · exact h0
    · exact h1
  refine ⟨fun perm => ?_, fun perm => lt_dlxAccepts c0 c1 hM hN h0 h1 perm,
    fun r1 r2 hr1 hr2 e0 e1 => lt_rows_share c0 c1 hM hN hr1 hr2 e0 e1⟩
  rw [bruteAccepts_single hw (by simp [arityOk, hint_s.n]) (by simp) perm]
  simp only [Meaning.holds]

theorem C9_left_of_scenario_witness :
    1 ≤ 2 ∧ 1 ≤ 3 ∧ (((0, 0) : Nat × Nat).1 < 2 ∧ ((0, 0) : Nat × Nat).2 < 3) ∧
      (((1, 1) : Nat × Nat).1 < 2 ∧ ((1, 1) : Nat × Nat).2 < 3) ∧
      ((∀ perm, bruteAccepts 2 3 [⟨'<', [(0, 0), (1, 1)], 0⟩] perm ↔
        isGrid 2 3 perm ∧ Meaning.leftOf 3 perm ⟨'<', [(0, 0), (1, 1)], 0⟩) ∧
      (∀ perm, dlxAccepts 2 3 [⟨'<', [(0, 0), (1, 1)], 0⟩] perm ↔
        isGrid 2 3 perm ∧ Meaning.leftOf 3 perm ⟨'<', [(0, 0), (1, 1)], 0⟩) ∧
      (∀ r1 r2, r1 < (per_col_dlx 2 3 [⟨'<', [(0, 0), (1, 1)], 0⟩]).dlxM →
        r2 < (per_col_dlx 2 3 [⟨'<', [(0, 0), (1, 1)], 0⟩]).dlxM →
        ((per_col_dlx 2 3 [⟨'<', [(0, 0), (1, 1)], 0⟩]).dlx_a.getD r1 []).getD ((0, 0) : Nat × Nat).1 0 =
          ((0, 0) : Nat × Nat).2 →
        ((per_col_dlx 2 3 [⟨'<', [(0, 0), (1, 1)], 0⟩]).dlx_a.getD r2 []).getD ((1, 1) : Nat × Nat).1 0 =
          ((1, 1) : Nat × Nat).2 →
        ((∃ c ∈ (per_col_dlx 2 3 [⟨'<', [(0, 0), (1, 1)], 0⟩]).dlx.optional,
            (per_col_dlx 2 3 [⟨'<', [(0, 0), (1, 1)], 0⟩]).dlx.bit r1 c = true ∧
            (per_col_dlx 2 3 [⟨'<', [(0, 0), (1, 1)], 0⟩]).dlx.bit r2 c = true) ↔
          ((per_col_dlx 2 3 [⟨'<', [(0, 0), (1, 1)], 0⟩]).dlx_a.getD r2 []).getD 0 0 ≤
            ((per_col_dlx 2 3 [⟨'<', [(0, 0), (1, 1)], 0⟩]).dlx_a.getD r1 []).getD 0 0))) ∧
      (brute 2 3 []).visited =
        [[[0, 1, 2]], [[0, 2, 1]], [[1, 0, 2]], [[1, 2, 0]], [[2, 1, 0]], [[2, 0, 1]]] ∧
      (brute 2 3 [⟨'<', [(0, 0), (1, 1)], 0⟩]).printed = [[[0, 1, 2]], [[0, 2, 1]], [[2, 1, 0]], [[2, 0, 1]]] ∧
      dlxAccepts 2 3 [⟨'<', [(0, 0), (1, 1)], 0⟩] [[0, 1, 2]] ∧ dlxAccepts 2 3 [⟨'<', [(0, 0), (1, 1)], 0⟩] [[0, 2, 1]] ∧
      dlxAccepts 2 3 [⟨'<', [(0, 0), (1, 1)], 0⟩] [[2, 1, 0]] ∧ dlxAccepts 2 3 [⟨'<', [(0, 0), (1, 1)], 0⟩] [[2, 0, 1]] ∧
      ¬ dlxAccepts 2 3 [⟨'<', [(0, 0), (1, 1)], 0⟩] [[1, 0, 2]] ∧ ¬ dlxAccepts 2 3 [⟨'<', [(0, 0), (1, 1)], 0⟩] [[1, 2, 0]] :=
  ⟨by decide, by decide, by decide, by decide,
    C9_left_of_scenario 2 3 (0, 0) (1, 1) (by decide) (by decide) (by decide) (by decide),
    by decide, by decide,
    ((C9_left_of_scenario 2 3 (0, 0) (1, 1) (by decide) (by decide) (by decide)
      (by decide)).2.1 _).mpr (by decide),
    ((C9_left_of_scenario 2 3 (0, 0) (1, 1) (by decide) (by decide) (by decide)
      (by decide)).2.1 _).mpr (by decide),
    ((C9_left_of_scenario 2 3 (0, 0) (1, 1) (by decide) (by decide) (by decide)
      (by decide)).2.1 _).mpr (by decide),
    ((C9_left_of_scenario 2 3 (0, 0) (1, 1) (by decide) (by decide) (by decide)
      (by decide)).2.1 _).mpr (by decide),
    fun h => absurd (((C9_left_of_scenario 2 3 (0, 0) (1, 1) (by decide) (by decide) (by decide)
      (by decide)).2.1 _).mp h) (by decide),
    fun h => absurd (((C9_left_of_scenario 2 3 (0, 0) (1, 1) (by decide) (by decide) (by decide)
      (by decide)).2.1 _).mp h) (by decide)⟩

/-- C10: for a puzzle (`M ≥ 1`, `N ≥ 1`) whose only hint is a `^` hint over symbols inside the
table, the hint gets the single optional column `M * N`; a DLX-row sets it exactly when its
candidate column holds 2 or more of the listed symbols; the exact covers are exactly the
grids in which at most one column contains 2 or more of the listed symbols; and `brute`
accepts exactly the same grids. -/
theorem C10_crowded_capacity (M N : Nat) (cs : List (Nat × Nat)) (hM : 1 ≤ M) (hN : 1 ≤ N)
    (hw : inGrid M N ⟨'^', cs, 0⟩) :
    (per_col_dlx M N [⟨'^', cs, 0⟩]).hint = [⟨'^', cs, M * N⟩] ∧
      (∀ c, c ∈ (per_col_dlx M N [⟨'^', cs, 0⟩]).dlx.optional ↔ c = M * N) ∧
      (∀ r < (per_col_dlx M N [⟨'^', cs, 0⟩]).dlxM,
        ((per_col_dlx M N [⟨'^', cs, 0⟩]).dlx.bit r (M * N) = true ↔
          2 ≤ per_col_dlx.match_ ((per_col_dlx M N [⟨'^', cs, 0⟩]).dlx_a.getD r [])
            ⟨'^', cs, 0⟩)) ∧
      (∀ perm, dlxAccepts M N [⟨'^', cs, 0⟩] perm ↔
        isGrid M N perm ∧ Meaning.atMostOneCrowded N perm ⟨'^', cs, 0⟩) ∧
      (∀ perm, bruteAccepts M N [⟨'^', cs, 0⟩] perm ↔
        isGrid M N perm ∧ Meaning.atMostOneCrowded N perm ⟨'^', cs, 0⟩) := by
  have hMN : 1 ≤ M * N := Nat.mul_le_mul hM hN
  obtain ⟨hf, hwd, hs⟩ := crowd_hint_facts M N cs
  have hne : per_col_dlx.survivors M N [⟨'^', cs, 0⟩] ≠ [] :=
    survivors_ne_nil hN (crowd_survives cs)
  have hnew : ∀ c, per_col_dlx.newCols N (M * N) [⟨'^', cs, 0⟩] c ↔ c = M * N := by
    intro c
    rw [newCols_single, hwd]
    constructor
    · rintro ⟨-, h1, h2⟩; omega
    · intro h; exact ⟨hf, by omega, by omega⟩
  refine ⟨?_, ?_, ?_, ?_, ?_⟩
  · rw [((per_col_dlx_built M N _ hMN).2.2.2 hne).1]
    simp only [per_col_dlx.settleAll, hs]
  · intro c
    rw [optional_iff hMN, hnew]
    exact ⟨fun h => h.2, fun h => ⟨hne, h⟩⟩
  · intro r hr
    rw [bit_opt hMN hr ((hnew _).mpr rfl), optRow_single, hs, crowd_optSet]
    exact ⟨fun h => h.1, fun h => ⟨h, rfl⟩⟩
  · intro perm
    rw [dlxAccepts_iff hM hN (by simp), atMostOneCrowded_iff]
    simp only [optRow_single, hs, crowd_optSet, crowd_survives, hnew]
    constructor
    · rintro ⟨hg, -, hslot⟩
      refine ⟨hg, fun n1 hn1 n2 hn2 c1 c2 => ?_⟩
      rw [← match_column perm (M := M) (N := N) hw] at c1 c2
      exact hslot _ rfl n1 hn1 n2 hn2 ⟨c1, rfl⟩ ⟨c2, rfl⟩
    · rintro ⟨hg, hh⟩
      refine ⟨hg, fun _ _ => trivial, ?_⟩
      rintro c - n1 hn1 n2 hn2 ⟨c1, -⟩ ⟨c2, -⟩
      rw [match_column perm (M := M) (N := N) hw] at c1 c2
      exact hh n1 hn1 n2 hn2 c1 c2
  · intro perm
    rw [bruteAccepts_single (M := M) hw (by simp [arityOk]) (by simp) perm]
    simp only [Meaning.holds]

theorem C10_crowded_capacity_witness :
    1 ≤ 2 ∧ 1 ≤ 3 ∧ inGrid 2 3 ⟨'^', [(0, 0), (1, 0), (0, 1), (1, 1)], 0⟩ ∧
      ((per_col_dlx 2 3 [⟨'^', [(0, 0), (1, 0), (0, 1), (1, 1)], 0⟩]).hint = [⟨'^', [(0, 0), (1, 0), (0, 1), (1, 1)], 2 * 3⟩] ∧
      (∀ c, c ∈ (per_col_dlx 2 3 [⟨'^', [(0, 0), (1, 0), (0, 1), (1, 1)], 0⟩]).dlx.optional ↔ c = 2 * 3) ∧
      (∀ r < (per_col_dlx 2 3 [⟨'^', [(0, 0), (1, 0), (0, 1), (1, 1)], 0⟩]).dlxM,
        ((per_col_dlx 2 3 [⟨'^', [(0, 0), (1, 0), (0, 1), (1, 1)], 0⟩]).dlx.bit r (2 * 3) = true ↔
          2 ≤ per_col_dlx.match_ ((per_col_dlx 2 3 [⟨'^', [(0, 0), (1, 0), (0, 1), (1, 1)], 0⟩]).dlx_a.getD r [])
            ⟨'^', [(0, 0), (1, 0), (0, 1), (1, 1)], 0⟩)) ∧
      (∀ perm, dlxAccepts 2 3 [⟨'^', [(0, 0), (1, 0), (0, 1), (1, 1)], 0⟩] perm ↔
        isGrid 2 3 perm ∧ Meaning.atMostOneCrowded 3 perm ⟨'^', [(0, 0), (1, 0), (0, 1), (1, 1)], 0⟩) ∧
      (∀ perm, bruteAccepts 2 3 [⟨'^', [(0, 0), (1, 0), (0, 1), (1, 1)], 0⟩] perm ↔
        isGrid 2 3 perm ∧ Meaning.atMostOneCrowded 3 perm ⟨'^', [(0, 0), (1, 0), (0, 1), (1, 1)], 0⟩)) ∧
      (brute 2 3 [⟨'^', [(0, 0), (1, 0), (0, 1), (1, 1)], 0⟩]).printed = [[[0, 2, 1]], [[1, 2, 0]], [[2, 1, 0]], [[2, 0, 1]]] ∧
      dlxAccepts 2 3 [⟨'^', [(0, 0), (1, 0), (0, 1), (1, 1)], 0⟩] [[0, 2, 1]] ∧ ¬ dlxAccepts 2 3 [⟨'^', [(0, 0), (1, 0), (0, 1), (1, 1)], 0⟩] [[0, 1, 2]] ∧
      ¬ dlxAccepts 2 3 [⟨'^', [(0, 0), (1, 0), (0, 1), (1, 1)], 0⟩] [[1, 0, 2]] :=
  ⟨by decide, by decide, by decide, C10_crowded_capacity 2 3 [(0, 0), (1, 0), (0, 1), (1, 1)] (by decide) (by decide) (by decide), by decide,
    ((C10_crowded_capacity 2 3 [(0, 0), (1, 0), (0, 1), (1, 1)] (by decide) (by decide) (by decide)).2.2.2.1 _).mpr (by decide),
    fun h => absurd (((C10_crowded_capacity 2 3 [(0, 0), (1, 0), (0, 1), (1, 1)] (by decide) (by decide) (by decide)).2.2.2.1 _).mp h) (by decide),
    fun h => absurd (((C10_crowded_capacity 2 3 [(0, 0), (1, 0), (0, 1), (1, 1)] (by decide) (by decide) (by decide)).2.2.2.1 _).mp h) (by decide)⟩

/-- C11: on the puzzle with `M = 4`, `N = 2` and the single hint `X (0,0) (1,0) (2,0) (3,0)`
the DLX-rows 0 and 15 of the instance of `per_col_dlx` (the candidates `(0,0,0,0)` and
`(1,1,1,1)`) form an exact cover: the first holds both listed pairs and sets the single
optional column once, the second sets none.  The grid they describe has two listed pairs in
one column, which the meaning of `X` forbids and `brute` rejects. -/
theorem C11_encoder_accepts_two_pairs_in_one_column :
    (per_col_dlx 4 2 [⟨'X', [(0, 0), (1, 0), (2, 0), (3, 0)], 0⟩]).dlx_a.getD 0 [] = [0, 0, 0, 0] ∧
      (per_col_dlx 4 2 [⟨'X', [(0, 0), (1, 0), (2, 0), (3, 0)], 0⟩]).dlx_a.getD 15 [] =
        [1, 1, 1, 1] ∧
      (per_col_dlx 4 2 [⟨'X', [(0, 0), (1, 0), (2, 0), (3, 0)], 0⟩]).dlx.optional = [8] ∧
      isExactCover 4 2 (per_col_dlx 4 2 [⟨'X', [(0, 0), (1, 0), (2, 0), (3, 0)], 0⟩]) [0, 15] ∧
      dlxAccepts 4 2 [⟨'X', [(0, 0), (1, 0), (2, 0), (3, 0)], 0⟩] [[0, 1], [0, 1], [0, 1]] ∧
      isGrid 4 2 [[0, 1], [0, 1], [0, 1]] ∧
      Meaning.shareColumn 2 [[0, 1], [0, 1], [0, 1]] (0, 0) (1, 0) ∧
      Meaning.shareColumn 2 [[0, 1], [0, 1], [0, 1]] (2, 0) (3, 0) ∧
      ¬ Meaning.atMostOnePair 2 [[0, 1], [0, 1], [0, 1]]
        ⟨'X', [(0, 0), (1, 0), (2, 0), (3, 0)], 0⟩ ∧
      brute.check 2 [[0, 1], [0, 1], [0, 1]] ⟨'X', [(0, 0), (1, 0), (2, 0), (3, 0)], 0⟩ =
        some true := by
  refine ⟨by decide, by decide, by decide, by decide, ⟨by decide, [0, 15], by decide, by decide⟩,
    by decide, by decide, by decide, by decide, by decide⟩

/-- C12: for the hint `= (0,0) (1,0) (2,0)` with `M = 3`, `N = 2` the candidate `(0,0,1)` holds
two of the three listed symbols, at least one and fewer than all; `anon` returns 0 for it
(its test is `match(h) == 1`) and the candidate is recorded as a DLX-row. -/
theorem C12_encoder_keeps_two_of_three :
    inGrid 3 2 ⟨'=', [(0, 0), (1, 0), (2, 0)], 0⟩ ∧
      per_col_dlx.match_ [0, 0, 1] ⟨'=', [(0, 0), (1, 0), (2, 0)], 0⟩ = 2 ∧
      per_col_dlx.anon [0, 0, 1] ⟨'=', [(0, 0), (1, 0), (2, 0)], 0⟩ = false ∧
      [0, 0, 1] ∈ (per_col_dlx 3 2 [⟨'=', [(0, 0), (1, 0), (2, 0)], 0⟩]).dlx_a := by
  decide

/-- C13: for an `i` hint with a first symbol and every candidate column, `anon` disqualifies
the candidate exactly when it holds the first symbol and the number of the following listed
symbols it holds is not one; a candidate without the first symbol is never disqualified by
the hint; and a disqualified candidate is skipped by the base case of `f`. -/
theorem C13_anon_i_rule (M N : Nat) (h : hint_s) (hc : h.cmd = 'i') (hn : 1 ≤ h.n)
    (a : List Nat) :
    (per_col_dlx.anon a h = true ↔
        per_col_dlx.has a h 0 = true ∧
          (List.range' 1 (h.n - 1)).countP (fun i => per_col_dlx.has a h i) ≠ 1) ∧
      (per_col_dlx.has a h 0 = false → per_col_dlx.anon a h = false) ∧
      (∀ st : per_col_dlx.State, h ∈ st.hint → per_col_dlx.anon a h = true →
        per_col_dlx.leaf M N a st = st) := by
  have hm := match_split a h hn
  have ha : per_col_dlx.anon a h =
      (per_col_dlx.has a h 0 && (per_col_dlx.match_ a h ||| 2) != 2) := by
    simp only [per_col_dlx.anon, hc]
  refine ⟨?_, ?_, fun st hh hd => leaf_discards M N a st hh hd⟩
  · rw [ha, Bool.and_eq_true, bne_iff_ne, ne_eq, lor_two_eq_two, hm]
    constructor
    · rintro ⟨h0, hne⟩
      refine ⟨h0, fun h1 => hne ?_⟩
      rw [h0, h1]
      right
      rfl
    · rintro ⟨h0, hne⟩
      refine ⟨h0, ?_⟩
      rw [h0]
      simp only [Bool.toNat_true]
      omega
  · intro h0
    rw [ha, h0]
    rfl

theorem C13_anon_i_rule_witness :
    (⟨'i', [(0, 0), (1, 0), (2, 0)], 0⟩ : hint_s).cmd = 'i' ∧
      1 ≤ (⟨'i', [(0, 0), (1, 0), (2, 0)], 0⟩ : hint_s).n ∧
      ((per_col_dlx.anon [0, 0, 0] ⟨'i', [(0, 0), (1, 0), (2, 0)], 0⟩ = true ↔
        per_col_dlx.has [0, 0, 0] ⟨'i', [(0, 0), (1, 0), (2, 0)], 0⟩ 0 = true ∧
          (List.range' 1 ((⟨'i', [(0, 0), (1, 0), (2, 0)], 0⟩ : hint_s).n - 1)).countP
            (fun i => per_col_dlx.has [0, 0, 0] ⟨'i', [(0, 0), (1, 0), (2, 0)], 0⟩ i) ≠ 1) ∧
      (per_col_dlx.has [0, 0, 0] ⟨'i', [(0, 0), (1, 0), (2, 0)], 0⟩ 0 = false →
        per_col_dlx.anon [0, 0, 0] ⟨'i', [(0, 0), (1, 0), (2, 0)], 0⟩ = false) ∧
      (∀ st : per_col_dlx.State, (⟨'i', [(0, 0), (1, 0), (2, 0)], 0⟩ : hint_s) ∈ st.hint →
        per_col_dlx.anon [0, 0, 0] ⟨'i', [(0, 0), (1, 0), (2, 0)], 0⟩ = true →
        per_col_dlx.leaf 3 2 [0, 0, 0] st = st)) ∧
      per_col_dlx.anon [0, 0, 0] ⟨'i', [(0, 0), (1, 0), (2, 0)], 0⟩ = true ∧
      per_col_dlx.anon [0, 0, 1] ⟨'i', [(0, 0), (1, 0), (2, 0)], 0⟩ = false ∧
      per_col_dlx.anon [0, 1, 1] ⟨'i', [(0, 0), (1, 0), (2, 0)], 0⟩ = true ∧
      per_col_dlx.anon [1, 0, 0] ⟨'i', [(0, 0), (1, 0), (2, 0)], 0⟩ = false :=
  ⟨by decide, by decide,
    C13_anon_i_rule 3 2 ⟨'i', [(0, 0), (1, 0), (2, 0)], 0⟩ (by decide) (by decide) [0, 0, 0],
    by decide, by decide, by decide, by decide⟩

/-- C14: for a `p` hint with exactly 4 symbols, `anon` disqualifies a candidate exactly when
it holds both of symbols 0 and 1, or both of symbols 2 and 3, or a number of the four that
is neither 0 nor 2; and for a puzzle (`M ≥ 1`, `N ≥ 1`) whose only hint is that hint, with
its symbols inside the table, the exact covers of `per_col_dlx` and `brute` accept exactly
the grids in which the first two symbols lie in distinct columns, the next two lie in
distinct columns, and every column contains 0 or 2 of the 4. -/
theorem C14_p_rule (M N : Nat) (cs : List (Nat × Nat)) (hM : 1 ≤ M) (hN : 1 ≤ N)
    (hn : cs.length = 4) (hw : inGrid M N ⟨'p', cs, 0⟩) :
    (∀ a, per_col_dlx.anon a ⟨'p', cs, 0⟩ = true ↔
        (per_col_dlx.has a ⟨'p', cs, 0⟩ 0 = true ∧ per_col_dlx.has a ⟨'p', cs, 0⟩ 1 = true) ∨
        (per_col_dlx.has a ⟨'p', cs, 0⟩ 2 = true ∧ per_col_dlx.has a ⟨'p', cs, 0⟩ 3 = true) ∨
        (per_col_dlx.match_ a ⟨'p', cs, 0⟩ ≠ 0 ∧ per_col_dlx.match_ a ⟨'p', cs, 0⟩ ≠ 2)) ∧
      (∀ a (st : per_col_dlx.State), (⟨'p', cs, 0⟩ : hint_s) ∈ st.hint →
        per_col_dlx.anon a ⟨'p', cs, 0⟩ = true → per_col_dlx.leaf M N a st = st) ∧
      (∀ perm, dlxAccepts M N [⟨'p', cs, 0⟩] perm ↔
        isGrid M N perm ∧ Meaning.paired N perm ⟨'p', cs, 0⟩) ∧
      (∀ perm, bruteAccepts M N [⟨'p', cs, 0⟩] perm ↔
        isGrid M N perm ∧ Meaning.paired N perm ⟨'p', cs, 0⟩) := by
  have hu : ¬ per_col_dlx.usesCols ⟨'p', cs, 0⟩ := by simp [per_col_dlx.usesCols]
  refine ⟨?_, fun a st hh hd => leaf_discards M N a st hh hd, ?_, ?_⟩
  · intro a
    simp only [per_col_dlx.anon, Bool.or_eq_true, Bool.and_eq_true, bne_iff_ne, ne_eq,
      lor_two_eq_two, not_or, or_assoc]
  · intro perm
    rw [dlxAccepts_iff hM hN (by simp)]
    have hsv : (∀ n < N, per_col_dlx.survives [⟨'p', cs, 0⟩] (column M perm n) = true) ↔
        Meaning.paired N perm ⟨'p', cs, 0⟩ := by
      rw [← not_iff_not, ← check_paired]
      unfold brute.checkP
      have hn4 : (⟨'p', cs, 0⟩ : hint_s).n = 4 := hn
      simp only [survives_single, List.any_eq_true,
        List.mem_range, Bool.not_eq_true', not_forall, Bool.not_eq_false, exists_prop]
      constructor
      · rintro ⟨n, hlt, ha⟩
        exact ⟨n, hlt, by rw [← anon_p_column perm rfl hn4 hw]; exact ha⟩
      · rintro ⟨n, hlt, ha⟩
        exact ⟨n, hlt, by rw [anon_p_column perm rfl hn4 hw]; exact ha⟩
    rw [hsv]
    constructor
    · rintro ⟨hg, hp, -⟩
      exact ⟨hg, hp⟩
    · rintro ⟨hg, hp⟩
      exact ⟨hg, hp, fun c hc => absurd hc (newCols_not_uses N (M * N) hu c)⟩
  · intro perm
    rw [bruteAccepts_single hw (by simp [arityOk, hint_s.n, hn]) (by simp) perm]
    simp only [Meaning.holds]

theorem C14_p_rule_witness :
    1 ≤ 4 ∧ 1 ≤ 2 ∧ [((0, 0) : Nat × Nat), (1, 0), (2, 0), (3, 0)].length = 4 ∧
      inGrid 4 2 ⟨'p', [(0, 0), (1, 0), (2, 0), (3, 0)], 0⟩ ∧
      ((∀ a, per_col_dlx.anon a ⟨'p', [(0, 0), (1, 0), (2, 0), (3, 0)], 0⟩ = true ↔
        (per_col_dlx.has a ⟨'p', [(0, 0), (1, 0), (2, 0), (3, 0)], 0⟩ 0 = true ∧
          per_col_dlx.has a ⟨'p', [(0, 0), (1, 0), (2, 0), (3, 0)], 0⟩ 1 = true) ∨
        (per_col_dlx.has a ⟨'p', [(0, 0), (1, 0), (2, 0), (3, 0)], 0⟩ 2 = true ∧
          per_col_dlx.has a ⟨'p', [(0, 0), (1, 0), (2, 0), (3, 0)], 0⟩ 3 = true) ∨
        (per_col_dlx.match_ a ⟨'p', [(0, 0), (1, 0), (2, 0), (3, 0)], 0⟩ ≠ 0 ∧
          per_col_dlx.match_ a ⟨'p', [(0, 0), (1, 0), (2, 0), (3, 0)], 0⟩ ≠ 2)) ∧
      (∀ a (st : per_col_dlx.State),
        (⟨'p', [(0, 0), (1, 0), (2, 0), (3, 0)], 0⟩ : hint_s) ∈ st.hint →
        per_col_dlx.anon a ⟨'p', [(0, 0), (1, 0), (2, 0), (3, 0)], 0⟩ = true →
        per_col_dlx.leaf 4 2 a st = st) ∧
      (∀ perm, dlxAccepts 4 2 [⟨'p', [(0, 0), (1, 0), (2, 0), (3, 0)], 0⟩] perm ↔
        isGrid 4 2 perm ∧ Meaning.paired 2 perm ⟨'p', [(0, 0), (1, 0), (2, 0), (3, 0)], 0⟩) ∧
      (∀ perm, bruteAccepts 4 2 [⟨'p', [(0, 0), (1, 0), (2, 0), (3, 0)], 0⟩] perm ↔
        isGrid 4 2 perm ∧ Meaning.paired 2 perm ⟨'p', [(0, 0), (1, 0), (2, 0), (3, 0)], 0⟩)) ∧
      dlxAccepts 4 2 [⟨'p', [(0, 0), (1, 0), (2, 0), (3, 0)], 0⟩] [[1, 0], [0, 1], [1, 0]] ∧
      ¬ dlxAccepts 4 2 [⟨'p', [(0, 0), (1, 0), (2, 0), (3, 0)], 0⟩] [[0, 1], [1, 0], [1, 0]] :=
  ⟨by decide, by decide, by decide, by decide,
    C14_p_rule 4 2 [(0, 0), (1, 0), (2, 0), (3, 0)] (by decide) (by decide) (by decide)
      (by decide),
    ((C14_p_rule 4 2 [(0, 0), (1, 0), (2, 0), (3, 0)] (by decide) (by decide) (by decide)
      (by decide)).2.2.1 _).mpr (by decide),
    fun h => absurd (((C14_p_rule 4 2 [(0, 0), (1, 0), (2, 0), (3, 0)] (by decide) (by decide)
      (by decide) (by decide)).2.2.1 _).mp h) (by decide)⟩

/-- C15: conflict marking of the `A` hint.  For a hint `A c0 c1` with its `N` columns at
`base`, a DLX-row (a candidate the hint does not disqualify) holding `c0` at position
`p` sets exactly the slots `base + k` with `k < N` and `|k - p| ≠ 1`; a DLX-row holding
`c1` at position `q < N` sets exactly the slot `base + q`; the two rows have a common slot
exactly when `|q - p| ≠ 1`; every slot set lies in the block `base .. base + N - 1`; and
the first call of `opthints`, with the counter at `base`, assigns that block and marks it
optional. -/
theorem C15_adjacent_marking (N : Nat) (c0 c1 : Nat × Nat) (base n : Nat) (a b : List Nat)
    (r1 r2 : Nat) (hb : base ≠ 0)
    (ha0 : per_col_dlx.has a ⟨'A', [c0, c1], base⟩ 0 = true)
    (hsa : per_col_dlx.anon a ⟨'A', [c0, c1], base⟩ = false)
    (hb1 : per_col_dlx.has b ⟨'A', [c0, c1], base⟩ 1 = true)
    (hsb : per_col_dlx.anon b ⟨'A', [c0, c1], base⟩ = false) (hq : b.getD 0 0 < N) :
    (∀ c, (r1, c) ∈ (per_col_dlx.opthints N a r1 (⟨'A', [c0, c1], base⟩, dlx_new, n)).2.1.cells ↔
        ∃ k < N, ((k : Int) - (a.getD 0 0 : Int)).natAbs ≠ 1 ∧ c = base + k) ∧
      (∀ c, (r2, c) ∈
          (per_col_dlx.opthints N b r2 (⟨'A', [c0, c1], base⟩, dlx_new, n)).2.1.cells ↔
        c = base + b.getD 0 0) ∧
      ((∃ c, (r1, c) ∈
            (per_col_dlx.opthints N a r1 (⟨'A', [c0, c1], base⟩, dlx_new, n)).2.1.cells ∧
          (r2, c) ∈
            (per_col_dlx.opthints N b r2 (⟨'A', [c0, c1], base⟩, dlx_new, n)).2.1.cells) ↔
        ((b.getD 0 0 : Int) - (a.getD 0 0 : Int)).natAbs ≠ 1) ∧
      (∀ x ∈ (per_col_dlx.opthints N a r1 (⟨'A', [c0, c1], base⟩, dlx_new, n)).2.1.cells,
        x.1 = r1 ∧ base ≤ x.2 ∧ x.2 < base + N) ∧
      (∀ x ∈ (per_col_dlx.opthints N b r2 (⟨'A', [c0, c1], base⟩, dlx_new, n)).2.1.cells,
        x.1 = r2 ∧ base ≤ x.2 ∧ x.2 < base + N) ∧
      ((per_col_dlx.opthints N a r1 (⟨'A', [c0, c1], 0⟩, dlx_new, base)).1 =
          ⟨'A', [c0, c1], base⟩ ∧
        (∀ c, c ∈ (per_col_dlx.opthints N a r1 (⟨'A', [c0, c1], 0⟩, dlx_new, base)).2.1.optional ↔
          base ≤ c ∧ c < base + N) ∧
        (∀ x, x ∈ (per_col_dlx.opthints N a r1 (⟨'A', [c0, c1], 0⟩, dlx_new, base)).2.1.cells ↔
          x ∈ (per_col_dlx.opthints N a r1 (⟨'A', [c0, c1], base⟩, dlx_new, n)).2.1.cells)) := by
  obtain ⟨-, -, -, ca⟩ := opthints_assigned N a r1 ⟨'A', [c0, c1], base⟩ n hb
  obtain ⟨-, -, -, cb⟩ := opthints_assigned N b r2 ⟨'A', [c0, c1], base⟩ n hb
  obtain ⟨f1, f2, f3, f4⟩ := opthints_first N a r1 ⟨'A', [c0, c1], 0⟩ base
    (by simp [per_col_dlx.usesCols]) rfl
  have hw : per_col_dlx.width N ⟨'A', [c0, c1], 0⟩ = N := by simp [per_col_dlx.width]
  rw [has_fst] at ha0
  rw [has_snd] at hb1
  have na := anon_pair_false (Or.inr (Or.inr rfl)) c0 c1 base a hsa
  have nb := anon_pair_false (Or.inr (Or.inr rfl)) c0 c1 base b hsb
  have ha1 : ¬ a.getD c1.1 0 = c1.2 := fun h => na ⟨ha0, h⟩
  have hb0 : ¬ b.getD c0.1 0 = c0.2 := fun h => nb ⟨h, hb1⟩
  have eA : ∀ c, (r1, c) ∈
      (per_col_dlx.opthints N a r1 (⟨'A', [c0, c1], base⟩, dlx_new, n)).2.1.cells ↔
      ∃ k < N, ((k : Int) - (a.getD 0 0 : Int)).natAbs ≠ 1 ∧ c = base + k := by
    intro c
    rw [ca, adj_optSet]
    simp only [ha0, ha1, true_and, false_and, or_false]
  have eB : ∀ c, (r2, c) ∈
      (per_col_dlx.opthints N b r2 (⟨'A', [c0, c1], base⟩, dlx_new, n)).2.1.cells ↔
      c = base + b.getD 0 0 := by
    intro c
    rw [cb, adj_optSet]
    simp only [hb0, hb1, true_and, false_and, false_or]
  refine ⟨eA, eB, ?_, ?_, ?_, f1, ?_, ?_⟩
  · constructor
    · rintro ⟨c, h1, h2⟩
      obtain ⟨k, -, hk, e⟩ := (eA c).mp h1
      have := (eB c).mp h2
      have hkq : k = b.getD 0 0 := by omega
      rw [hkq] at hk
      exact hk
    · intro hne
      exact ⟨base + b.getD 0 0, (eA _).mpr ⟨b.getD 0 0, hq, hne, rfl⟩, (eB _).mpr rfl⟩
  · intro x hx
    have h1 := (ca x).mp hx
    have e : x = (r1, x.2) := Prod.ext h1.1 rfl
    rw [e] at hx
    obtain ⟨k, hk, -, e2⟩ := (eA x.2).mp hx
    exact ⟨h1.1, by omega, by omega⟩
  · intro x hx
    have h1 := (cb x).mp hx
    have e : x = (r2, x.2) := Prod.ext h1.1 rfl
    rw [e] at hx
    have := (eB x.2).mp hx
    exact ⟨h1.1, by omega, by omega⟩
  · intro c
    rw [f3, hw]
  · intro x
    rw [f4, ca]

theorem C15_adjacent_marking_witness :
    (6 : Nat) ≠ 0 ∧
      per_col_dlx.has [0, 2] ⟨'A', [(0, 0), (1, 1)], 6⟩ 0 = true ∧
      per_col_dlx.anon [0, 2] ⟨'A', [(0, 0), (1, 1)], 6⟩ = false ∧
      per_col_dlx.has [2, 1] ⟨'A', [(0, 0), (1, 1)], 6⟩ 1 = true ∧
      per_col_dlx.anon [2, 1] ⟨'A', [(0, 0), (1, 1)], 6⟩ = false ∧
      ([2, 1] : List Nat).getD 0 0 < 3 ∧
      ((∃ c, (0, c) ∈
            (per_col_dlx.opthints 3 [0, 2] 0 (⟨'A', [(0, 0), (1, 1)], 6⟩, dlx_new, 9)).2.1.cells ∧
          (5, c) ∈
            (per_col_dlx.opthints 3 [2, 1] 5 (⟨'A', [(0, 0), (1, 1)], 6⟩, dlx_new, 9)).2.1.cells) ↔
        (((([2, 1] : List Nat).getD 0 0 : Nat) : Int) -
          ((([0, 2] : List Nat).getD 0 0 : Nat) : Int)).natAbs ≠ 1) ∧
      (per_col_dlx.opthints 3 [0, 2] 0 (⟨'A', [(0, 0), (1, 1)], 6⟩, dlx_new, 9)).2.1.cells =
        [(0, 8), (0, 6)] ∧
      (per_col_dlx.opthints 3 [2, 1] 5 (⟨'A', [(0, 0), (1, 1)], 6⟩, dlx_new, 9)).2.1.cells =
        [(5, 8)] :=
  ⟨by decide, by decide, by decide, by decide, by decide, by decide,
    (C15_adjacent_marking 3 (0, 0) (1, 1) 6 9 [0, 2] [2, 1] 0 5 (by decide) (by decide)
      (by decide) (by decide) (by decide) (by decide)).2.2.1,
    by decide, by decide⟩

/-- C16: conflict marking of the `1` hint.  For a hint `1 c0 c1` with its `N` columns at
`base`, a DLX-row (a candidate the hint does not disqualify) holding `c0` at position `p`
sets exactly the slots `base + k` with `k < N` and `k ≠ p + 1`; a DLX-row holding `c1` at
position `q < N` sets exactly the slot `base + q`; the two rows have a common slot exactly
when `q ≠ p + 1`; in particular, when `p + 1 = N` they always have one; and the first call
of `opthints`, with the counter at `base`, assigns the block and marks it optional. -/
theorem C16_next_marking (N : Nat) (c0 c1 : Nat × Nat) (base n : Nat) (a b : List Nat)
    (r1 r2 : Nat) (hb : base ≠ 0)
    (ha0 : per_col_dlx.has a ⟨'1', [c0, c1], base⟩ 0 = true)
    (hsa : per_col_dlx.anon a ⟨'1', [c0, c1], base⟩ = false)
    (hb1 : per_col_dlx.has b ⟨'1', [c0, c1], base⟩ 1 = true)
    (hsb : per_col_dlx.anon b ⟨'1', [c0, c1], base⟩ = false) (hq : b.getD 0 0 < N) :
    (∀ c, (r1, c) ∈ (per_col_dlx.opthints N a r1 (⟨'1', [c0, c1], base⟩, dlx_new, n)).2.1.cells ↔
        ∃ k < N, k ≠ a.getD 0 0 + 1 ∧ c = base + k) ∧
      (∀ c, (r2, c) ∈
          (per_col_dlx.opthints N b r2 (⟨'1', [c0, c1], base⟩, dlx_new, n)).2.1.cells ↔
        c = base + b.getD 0 0) ∧
      ((∃ c, (r1, c) ∈
            (per_col_dlx.opthints N a r1 (⟨'1', [c0, c1], base⟩, dlx_new, n)).2.1.cells ∧
          (r2, c) ∈
            (per_col_dlx.opthints N b r2 (⟨'1', [c0, c1], base⟩, dlx_new, n)).2.1.cells) ↔
        b.getD 0 0 ≠ a.getD 0 0 + 1) ∧
      (a.getD 0 0 + 1 = N →
        ∃ c, (r1, c) ∈
            (per_col_dlx.opthints N a r1 (⟨'1', [c0, c1], base⟩, dlx_new, n)).2.1.cells ∧
          (r2, c) ∈
            (per_col_dlx.opthints N b r2 (⟨'1', [c0, c1], base⟩, dlx_new, n)).2.1.cells) ∧
      ((per_col_dlx.opthints N a r1 (⟨'1', [c0, c1], 0⟩, dlx_new, base)).1 =
          ⟨'1', [c0, c1], base⟩ ∧
        (∀ c, c ∈ (per_col_dlx.opthints N a r1 (⟨'1', [c0, c1], 0⟩, dlx_new, base)).2.1.optional ↔
          base ≤ c ∧ c < base + N) ∧
        (∀ x, x ∈ (per_col_dlx.opthints N a r1 (⟨'1', [c0, c1], 0⟩, dlx_new, base)).2.1.cells ↔
          x ∈ (per_col_dlx.opthints N a r1 (⟨'1', [c0, c1], base⟩, dlx_new, n)).2.1.cells)) := by
  obtain ⟨-, -, -, ca⟩ := opthints_assigned N a r1 ⟨'1', [c0, c1], base⟩ n hb
  obtain ⟨-, -, -, cb⟩ := opthints_assigned N b r2 ⟨'1', [c0, c1], base⟩ n hb
  obtain ⟨f1, f2, f3, f4⟩ := opthints_first N a r1 ⟨'1', [c0, c1], 0⟩ base
    (by simp [per_col_dlx.usesCols]) rfl
  have hw : per_col_dlx.width N ⟨'1', [c0, c1], 0⟩ = N := by simp [per_col_dlx.width]
  rw [has_fst] at ha0
  rw [has_snd] at hb1
  have na := anon_pair_false (Or.inr (Or.inl rfl)) c0 c1 base a hsa
  have nb := anon_pair_false (Or.inr (Or.inl rfl)) c0 c1 base b hsb
  have ha1 : ¬ a.getD c1.1 0 = c1.2 := fun h => na ⟨ha0, h⟩
  have hb0 : ¬ b.getD c0.1 0 = c0.2 := fun h => nb ⟨h, hb1⟩
  have eA : ∀ c, (r1, c) ∈
      (per_col_dlx.opthints N a r1 (⟨'1', [c0, c1], base⟩, dlx_new, n)).2.1.cells ↔
      ∃ k < N, k ≠ a.getD 0 0 + 1 ∧ c = base + k := by
    intro c
    rw [ca, one_optSet]
    simp only [ha0, ha1, true_and, false_and, or_false]
  have eB : ∀ c, (r2, c) ∈
      (per_col_dlx.opthints N b r2 (⟨'1', [c0, c1], base⟩, dlx_new, n)).2.1.cells ↔
      c = base + b.getD 0 0 := by
    intro c
    rw [cb, one_optSet]
    simp only [hb0, hb1, true_and, false_and, false_or]
  have key : (∃ c, (r1, c) ∈
        (per_col_dlx.opthints N a r1 (⟨'1', [c0, c1], base⟩, dlx_new, n)).2.1.cells ∧
      (r2, c) ∈
        (per_col_dlx.opthints N b r2 (⟨'1', [c0, c1], base⟩, dlx_new, n)).2.1.cells) ↔
      b.getD 0 0 ≠ a.getD 0 0 + 1 := by
    constructor
    · rintro ⟨c, h1, h2⟩
      obtain ⟨k, -, hk, e⟩ := (eA c).mp h1
      have := (eB c).mp h2
      omega
    · intro hne
      exact ⟨base + b.getD 0 0, (eA _).mpr ⟨b.getD 0 0, hq, hne, rfl⟩, (eB _).mpr rfl⟩
  refine ⟨eA, eB, key, ?_, f1, ?_, ?_⟩
  · intro hl
    exact key.mpr (by omega)
  · intro c
    rw [f3, hw]
  · intro x
    rw [f4, ca]

theorem C16_next_marking_witness :
    (6 : Nat) ≠ 0 ∧
      per_col_dlx.has [2, 0] ⟨'1', [(0, 2), (1, 1)], 6⟩ 0 = true ∧
      per_col_dlx.anon [2, 0] ⟨'1', [(0, 2), (1, 1)], 6⟩ = false ∧
      per_col_dlx.has [0, 1] ⟨'1', [(0, 2), (1, 1)], 6⟩ 1 = true ∧
      per_col_dlx.anon [0, 1] ⟨'1', [(0, 2), (1, 1)], 6⟩ = false ∧
      ([0, 1] : List Nat).getD 0 0 < 3 ∧
      (([2, 0] : List Nat).getD 0 0 + 1 = 3 →
        ∃ c, (0, c) ∈
            (per_col_dlx.opthints 3 [2, 0] 0 (⟨'1', [(0, 2), (1, 1)], 6⟩, dlx_new, 9)).2.1.cells ∧
          (5, c) ∈
            (per_col_dlx.opthints 3 [0, 1] 5 (⟨'1', [(0, 2), (1, 1)], 6⟩, dlx_new, 9)).2.1.cells) ∧
      (per_col_dlx.opthints 3 [2, 0] 0 (⟨'1', [(0, 2), (1, 1)], 6⟩, dlx_new, 9)).2.1.cells =
        [(0, 8), (0, 7), (0, 6)] ∧
      (per_col_dlx.opthints 3 [0, 1] 5 (⟨'1', [(0, 2), (1, 1)], 6⟩, dlx_new, 9)).2.1.cells =
        [(5, 6)] :=
  ⟨by decide, by decide, by decide, by decide, by decide, by decide,
    (C16_next_marking 3 (0, 2) (1, 1) 6 9 [2, 0] [0, 1] 0 5 (by decide) (by decide)
      (by decide) (by decide) (by decide) (by decide)).2.2.2.1,
    by decide, by decide⟩

/-- C17: candidate enumeration of the encoder.  For `M ≥ 1` and `N ≥ 1`, running `f(0)`
from any state is performing the base case on the candidates of `tuples N M`, one after the
other; these are the `N ^ M` lists of length `M` with entries below `N`, each once, in
strictly increasing lexicographic order.  The recorded DLX-rows `dlx_a` are the candidates
that no hint disqualifies, in that order and without duplicates, `dlxM` is their number, and
with no hints `dlxM = N ^ M` and `dlx_a[j][k]` is digit `k` (most significant first) of `j`
written with `M` digits in base `N`. -/
theorem C17_candidate_enumeration (M N : Nat) (hint : List hint_s) (hM : 1 ≤ M)
    (hN : 1 ≤ N) :
    (∀ st, per_col_dlx.f M N M (List.replicate M 0) st =
        (tuples N M).foldl (fun st t => per_col_dlx.leaf M N t st) st) ∧
      (tuples N M).length = N ^ M ∧
      (∀ t, t ∈ tuples N M ↔ t.length = M ∧ ∀ x ∈ t, x < N) ∧
      (tuples N M).Nodup ∧
      (tuples N M).Pairwise lexLt ∧
      (per_col_dlx M N hint).dlx_a =
        (tuples N M).filter (fun a => !(hint.any (fun h => per_col_dlx.anon a h))) ∧
      (per_col_dlx M N hint).dlxM = (per_col_dlx M N hint).dlx_a.length ∧
      (per_col_dlx M N hint).dlx_a.Nodup ∧
      (per_col_dlx M N hint).dlx_a.Pairwise lexLt ∧
      (hint = [] →
        (per_col_dlx M N hint).dlxM = N ^ M ∧
        ∀ j < N ^ M, ((per_col_dlx M N hint).dlx_a.getD j []).length = M ∧
          ∀ k < M, ((per_col_dlx M N hint).dlx_a.getD j []).getD k 0 =
            j / N ^ (M - 1 - k) % N) := by
  have hMN : 1 ≤ M * N := Nat.mul_pos hM hN
  obtain ⟨b1, b2, -, -⟩ := per_col_dlx_built M N hint hMN
  have hs : per_col_dlx.survivors M N hint =
      (tuples N M).filter (fun a => !(hint.any (fun h => per_col_dlx.anon a h))) := rfl
  refine ⟨?_, tuples_length N M, fun t => mem_tuples, tuples_nodup N M, tuples_lex N M, ?_, ?_,
    ?_, ?_, ?_⟩
  · intro st
    have hf := f_eq_foldl M N M (List.replicate M 0) st (Nat.le_refl M) (by simp)
    simpa only [Nat.sub_self, List.take_zero, List.nil_append] using hf
  · rw [b1, hs]
  · rw [b2, b1]
  · rw [b1]; exact (tuples_nodup N M).filter _
  · rw [b1]; exact (tuples_lex N M).filter _
  · intro he
    subst he
    have hall : per_col_dlx.survivors M N [] = tuples N M := by
      rw [hs]; simp
    rw [b2, b1, hall]
    refine ⟨tuples_length N M, fun j hj => ⟨?_, fun k hk => tuples_digit N M j k hj hk⟩⟩
    have hlt : j < (tuples N M).length := by rw [tuples_length]; exact hj
    rw [List.getD_eq_getElem _ _ hlt]
    exact (mem_tuples.mp (List.getElem_mem hlt)).1

theorem C17_candidate_enumeration_witness :
    1 ≤ 2 ∧ 1 ≤ 2 ∧
      (per_col_dlx 2 2 [⟨'!', [(0, 0), (1, 0)], 0⟩]).dlx_a =
        (tuples 2 2).filter
          (fun a => !(([⟨'!', [(0, 0), (1, 0)], 0⟩] : List hint_s).any
            (fun h => per_col_dlx.anon a h))) ∧
      (per_col_dlx 2 2 [⟨'!', [(0, 0), (1, 0)], 0⟩]).dlx_a = [[0, 1], [1, 0], [1, 1]] ∧
      tuples 2 2 = [[0, 0], [0, 1], [1, 0], [1, 1]] :=
  ⟨by decide, by decide,
    (C17_candidate_enumeration 2 2 [⟨'!', [(0, 0), (1, 0)], 0⟩] (by decide)
      (by decide)).2.2.2.2.2.1,
    by decide, by decide⟩

/-- C18: exhaustive permutation search.  For `M ≥ 1` and every `N`, the run of `brute` is
the base case of `f` performed once on each element of `brute.leaves`, in order, with `perm`
as at the start afterwards; that list has `(N!) ^ (M - 1)` elements, none twice, and they
are exactly the grids (`M - 1` permutations of `0..N-1`).  The leaves visited are a prefix
of the list, and all of it unless `die` ended the process.  Each call `g(0)`, on a grid,
returns with `perm` as at the call.  With no hints, `die` is not reached and every grid is
printed exactly once. -/
theorem C18_exhaustive_search (M N : Nat) (hint : List hint_s) (hM : 1 ≤ M) :
    brute M N hint =
        (brute.leaves M N (M - 1) (brute.init M N).perm).foldl (brute.visit N hint)
          (brute.init M N) ∧
      (brute.leaves M N (M - 1) (brute.init M N).perm).length = N.factorial ^ (M - 1) ∧
      (brute.leaves M N (M - 1) (brute.init M N).perm).Nodup ∧
      (∀ p, p ∈ brute.leaves M N (M - 1) (brute.init M N).perm ↔ isGrid M N p) ∧
      (brute M N hint).visited <+: brute.leaves M N (M - 1) (brute.init M N).perm ∧
      ((brute M N hint).dead = false →
        (brute M N hint).visited = brute.leaves M N (M - 1) (brute.init M N).perm) ∧
      (brute M N hint).perm = (brute.init M N).perm ∧
      (∀ rem, rem + 1 ≤ M - 1 → ∀ st : brute.State, isGrid M N st.perm →
        (brute.g N (M - 1 - (rem + 1)) (brute.f M N hint rem) N st).perm = st.perm) ∧
      (hint = [] →
        (brute M N hint).dead = false ∧
        (brute M N hint).printed = brute.leaves M N (M - 1) (brute.init M N).perm ∧
        (brute M N hint).printed.length = N.factorial ^ (M - 1) ∧
        (brute M N hint).printed.Nodup ∧
        ∀ p, p ∈ (brute M N hint).printed ↔ isGrid M N p) := by
  have hg0 : isGrid M N (brute.init M N).perm := (init_inv M N hint).1
  have hen := brute_enum M N hint
  have hlen := leaves_length (N := N) (M - 1) (Nat.le_refl _) (brute.init M N).perm
  have hnd := leaves_nodup (M - 1) (Nat.le_refl _) (brute.init M N).perm hg0
  have hmem : ∀ p, p ∈ brute.leaves M N (M - 1) (brute.init M N).perm ↔ isGrid M N p := by
    intro p
    rw [leaves_mem (M - 1) (Nat.le_refl _) _ hg0 p, Nat.sub_self]
    exact ⟨fun h => h.1, fun h => ⟨h, fun j hj => absurd hj (Nat.not_lt_zero j)⟩⟩
  refine ⟨hen, hlen, hnd, hmem, ?_, ?_, ?_, ?_, ?_⟩
  · obtain ⟨n, hn⟩ := foldl_visit_prefix N hint
      (brute.leaves M N (M - 1) (brute.init M N).perm) (brute.init M N)
    rw [hen, hn]
    exact List.take_prefix _ _
  · intro hd
    rw [hen] at hd
    obtain ⟨h1, h2⟩ := foldl_visit_not_dead N hint _ _ hd
    rw [hen, (foldl_visit_alive N hint _ _ h1 h2).2.1]
    rfl
  · rw [hen, foldl_visit_perm]
  · intro rem hrem st hg
    have h1 : brute.g N (M - 1 - (rem + 1)) (brute.f M N hint rem) N st =
        brute.f M N hint (rem + 1) st := rfl
    rw [h1, f_enum (rem + 1) hrem st hg, foldl_visit_perm]
  · intro he
    subst he
    have hrej : ∀ p ∈ brute.leaves M N (M - 1) (brute.init M N).perm,
        brute.rejected N p [] ≠ none := fun p _ => by simp [brute.rejected]
    obtain ⟨a1, -, a3⟩ := foldl_visit_alive N [] _ (brute.init M N) rfl hrej
    have hpr : (brute M N []).printed = brute.leaves M N (M - 1) (brute.init M N).perm := by
      rw [hen, a3]
      simp [brute.rejected, brute.init]
    refine ⟨by rw [hen]; exact a1, hpr, ?_, ?_, ?_⟩
    · rw [hpr]; exact hlen
    · rw [hpr]; exact hnd
    · intro p; rw [hpr]; exact hmem p

theorem C18_exhaustive_search_witness :
    1 ≤ 3 ∧
      (brute 3 2 []).printed =
        [[[0, 1], [0, 1]], [[0, 1], [1, 0]], [[1, 0], [0, 1]], [[1, 0], [1, 0]]] ∧
      (brute 3 2 []).printed.length = Nat.factorial 2 ^ (3 - 1) :=
  ⟨by decide, by decide, ((C18_exhaustive_search 3 2 [] (by decide)).2.2.2.2.2.2.2.2 rfl).2.2.1⟩

/-- C19: optional-column allocation.  For `M ≥ 1`, `N ≥ 1` and hints whose `dlx_col` start
at 0, in the state after any number `j` of candidates: every hint keeps its type and
coordinates, and its `dlx_col` is 0 or, for a hint of type `1`, `A`, `<`, `^`, `X`, a base
`≥ M * N`; an assigned `dlx_col` is the same after any later candidate; the columns marked
optional are exactly those owned by a hint (the `N` columns from the base for `1`, `A`, `<`,
the one column at the base for `^`, `X`); no column is owned by two hints; no owned column is
a primary one; every column set in a DLX-row is primary or owned by a hint; and `opthints`
for a hint sets only columns that the hint owns afterwards, and changes neither an assigned
`dlx_col` nor, then, the counter. -/
theorem C19_optional_allocation (M N : Nat) (hint : List hint_s) (hM : 1 ≤ M) (hN : 1 ≤ N)
    (h0 : ∀ h ∈ hint, h.dlx_col = 0) :
    per_col_dlx.after M N hint 0 = per_col_dlx.init M N hint ∧
      (∀ j < N ^ M, per_col_dlx.after M N hint (j + 1) =
        per_col_dlx.leaf M N ((tuples N M).getD j []) (per_col_dlx.after M N hint j)) ∧
      per_col_dlx.after M N hint (N ^ M) = per_col_dlx M N hint ∧
      (∀ j,
        (per_col_dlx.after M N hint j).hint.length = hint.length ∧
        (∀ (i : Nat) (h : hint_s), (per_col_dlx.after M N hint j).hint[i]? = some h →
          ∃ g, hint[i]? = some g ∧ h.cmd = g.cmd ∧ h.coord = g.coord ∧
            (h.dlx_col = 0 ∨ (per_col_dlx.usesCols h ∧ M * N ≤ h.dlx_col))) ∧
        (∀ (k i : Nat) (h : hint_s), j ≤ k → (per_col_dlx.after M N hint j).hint[i]? = some h →
          h.dlx_col ≠ 0 → (per_col_dlx.after M N hint k).hint[i]? = some h) ∧
        (∀ c, c ∈ (per_col_dlx.after M N hint j).dlx.optional ↔
          ∃ (i : Nat) (h : hint_s), (per_col_dlx.after M N hint j).hint[i]? = some h ∧
            per_col_dlx.owns N h c) ∧
        (∀ (i k : Nat) (h g : hint_s), i ≠ k →
          (per_col_dlx.after M N hint j).hint[i]? = some h →
          (per_col_dlx.after M N hint j).hint[k]? = some g →
          ∀ c, ¬ (per_col_dlx.owns N h c ∧ per_col_dlx.owns N g c)) ∧
        (∀ (i : Nat) (h : hint_s) (c : Nat), (per_col_dlx.after M N hint j).hint[i]? = some h →
          per_col_dlx.owns N h c → M * N ≤ c) ∧
        (∀ x ∈ (per_col_dlx.after M N hint j).dlx.cells, x.2 < M * N ∨
          ∃ (i : Nat) (h : hint_s), (per_col_dlx.after M N hint j).hint[i]? = some h ∧
            per_col_dlx.owns N h x.2)) ∧
      (∀ (a : List Nat) (row : Nat) (h : hint_s) (d : dlx_t) (n : Nat), a.getD 0 0 < N →
        1 ≤ n → ∀ x ∈ (per_col_dlx.opthints N a row (h, d, n)).2.1.cells,
          x ∈ d.cells ∨
            (x.1 = row ∧ per_col_dlx.owns N (per_col_dlx.opthints N a row (h, d, n)).1 x.2)) ∧
      (∀ (a : List Nat) (row : Nat) (h : hint_s) (d : dlx_t) (n : Nat), h.dlx_col ≠ 0 →
        (per_col_dlx.opthints N a row (h, d, n)).1 = h ∧
          (per_col_dlx.opthints N a row (h, d, n)).2.2 = n ∧
          ∀ c, c ∈ (per_col_dlx.opthints N a row (h, d, n)).2.1.optional ↔ c ∈ d.optional) := by
  have hMN : 1 ≤ M * N := Nat.mul_pos hM hN
  -- facts about the settled hints
  have base : ∀ (i : Nat) (h : hint_s), (per_col_dlx.settleAll N (M * N) hint)[i]? = some h →
      ∃ g, hint[i]? = some g ∧ h.cmd = g.cmd ∧ h.coord = g.coord ∧
        (h.dlx_col = 0 ∨ (per_col_dlx.usesCols h ∧ M * N ≤ h.dlx_col)) := by
    intro i h e
    obtain ⟨g, m, e1, e2, e3⟩ := settleAll_get N hint (M * N) i h e
    have hg0 : g.dlx_col = 0 := h0 g (List.getElem?_mem e1)
    obtain ⟨s1, s2, -, s4⟩ := settle_zero m hg0 N
    rw [← e3] at s1 s2 s4
    refine ⟨g, e1, s1, s2, ?_⟩
    rcases s4 with ⟨hu, e⟩ | ⟨-, e⟩
    · right
      refine ⟨?_, by omega⟩
      unfold per_col_dlx.usesCols at hu ⊢
      rw [s1]; exact hu
    · exact Or.inl e
  have zero : ∀ (i : Nat) (h : hint_s), hint[i]? = some h → h.dlx_col = 0 :=
    fun i h e => h0 h (List.getElem?_mem e)
  have nowns : ∀ (i : Nat) (h : hint_s) (c : Nat), hint[i]? = some h →
      ¬ per_col_dlx.owns N h c := fun i h c e ho => ho.1 (zero i h e)
  refine ⟨rfl, fun j hj => after_succ M N hint j hj, after_all M N hint, ?_, ?_, ?_⟩
  · intro j
    rcases after_cases M N hint hMN j with ⟨hs, he⟩ | ⟨hs, c1, c3, c4⟩
    · have hh : (per_col_dlx.after M N hint j).hint = hint := by rw [he]; rfl
      have hopt : (per_col_dlx.after M N hint j).dlx.optional = [] := by rw [he]; rfl
      have hcells : (per_col_dlx.after M N hint j).dlx.cells = [] := by rw [he]; rfl
      rw [hh, hopt, hcells]
      refine ⟨rfl, ?_, ?_, ?_, ?_, ?_, ?_⟩
      · intro i h e
        exact ⟨h, e, rfl, rfl, Or.inl (zero i h e)⟩
      · intro k i h _ e hne
        exact absurd (zero i h e) hne
      · intro c
        constructor
        · intro hc; simp at hc
        · rintro ⟨i, h, e, ho⟩
          exact absurd ho (nowns i h c e)
      · intro i k h g _ e _ c hc
        exact nowns i h c e hc.1
      · intro i h c e ho
        exact absurd ho (nowns i h c e)
      · intro x hx; simp at hx
    · rw [c1]
      refine ⟨settleAll_length N hint (M * N), base, ?_, ?_, ?_, ?_, ?_⟩
      · intro k i h hjk e hne
        rcases after_cases M N hint hMN k with ⟨hs', -⟩ | ⟨-, c1', -, -⟩
        · exfalso
          apply hs
          rw [List.filter_eq_nil_iff] at hs' ⊢
          intro a ha
          apply hs' a
          have : (tuples N M).take j = ((tuples N M).take k).take j := by
            rw [List.take_take, Nat.min_eq_left hjk]
          rw [this] at ha
          exact List.mem_of_mem_take ha
        · rw [c1']; exact e
      · intro c
        rw [c4, newCols_iff_owns N hint (M * N) hMN h0]
      · intro i k h g hik eh eg c hc
        obtain ⟨⟨o1, o2, o3⟩, ⟨p1, p2, p3⟩⟩ := hc
        rcases Nat.lt_or_gt_of_ne hik with hlt | hgt
        · have := settleAll_ordered N hint (M * N) hMN h0 i k h g hlt eh eg o1 p1
          omega
        · have := settleAll_ordered N hint (M * N) hMN h0 k i g h hgt eg eh p1 o1
          omega
      · intro i h c e ho
        obtain ⟨g, -, -, -, hd⟩ := base i h e
        rcases hd with hd | ⟨-, hd⟩
        · exact absurd hd ho.1
        · exact Nat.le_trans hd ho.2.1
      · intro x hx
        obtain ⟨a, ea, hr⟩ := (c3 x).mp hx
        have hmem : a ∈ (tuples N M) :=
          List.mem_of_mem_take (List.mem_filter.mp (List.getElem?_mem ea)).1
        obtain ⟨hl, hlt⟩ := mem_tuples.mp hmem
        rcases hr with ⟨k, hk, e⟩ | ⟨h, hh, ho⟩
        · left
          have hak : a.getD k 0 < N := by
            have hkl : k < a.length := by omega
            rw [List.getD_eq_getElem _ _ hkl]
            exact hlt _ (List.getElem_mem hkl)
          have h1 : N * k + N ≤ N * M := by
            have := Nat.mul_le_mul_left N (Nat.succ_le_of_lt hk)
            rw [Nat.mul_succ] at this
            exact this
          rw [e, Nat.mul_comm M N]
          omega
        · right
          obtain ⟨i, ei⟩ := List.mem_iff_getElem?.mp hh
          have ha0 : a.getD 0 0 < N := by
            have hkl : 0 < a.length := by omega
            rw [List.getD_eq_getElem _ _ hkl]
            exact hlt _ (List.getElem_mem hkl)
          have hne : h.dlx_col ≠ 0 := by
            obtain ⟨g, -, -, -, hd⟩ := base i h ei
            rcases hd with hd | ⟨-, hd⟩
            · have := (optSet_ge ho).1
              obtain ⟨g', m, e1, e2, e3⟩ := settleAll_get N hint (M * N) i h ei
              have hg0 : g'.dlx_col = 0 := h0 g' (List.getElem?_mem e1)
              obtain ⟨s1, -, -, s4⟩ := settle_zero m hg0 N
              rw [← e3] at s1 s4
              rcases s4 with ⟨-, e⟩ | ⟨hu, -⟩
              · omega
              · exfalso
                apply hu
                unfold per_col_dlx.usesCols at this ⊢
                rw [← s1]; exact this
            · omega
          exact ⟨i, h, ei, optSet_owns ha0 hne ho⟩
  · intro a row h d n ha hn x hx
    obtain ⟨o1, -, o3, -⟩ := opthints_spec N a row h d n
    rcases (o3 x).mp hx with hx' | ⟨hr, ho⟩
    · exact Or.inl hx'
    · right
      refine ⟨hr, ?_⟩
      rw [o1]
      apply optSet_owns ha _ ho
      unfold per_col_dlx.settle
      by_cases hf : per_col_dlx.fresh h
      · rw [if_pos hf]; show n ≠ 0; omega
      · rw [if_neg hf]
        intro hz
        apply hf
        refine ⟨?_, hz⟩
        have := (optSet_ge ho).1
        unfold per_col_dlx.settle at this
        rw [if_neg hf] at this
        exact this
  · intro a row h d n hne
    obtain ⟨o1, o2, -, o4⟩ := opthints_spec N a row h d n
    have hf : ¬ per_col_dlx.fresh h := fun hf => hne hf.2
    refine ⟨?_, ?_, ?_⟩
    · rw [o1]; unfold per_col_dlx.settle; rw [if_neg hf]
    · rw [o2]; unfold per_col_dlx.bump; rw [if_neg hf]
    · intro c
      rw [o4]
      constructor
      · rintro (hc | ⟨hf', -⟩)
        · exact hc
        · exact absurd hf' hf
      · exact Or.inl

theorem C19_optional_allocation_witness :
    1 ≤ 2 ∧ 1 ≤ 2 ∧
      (∀ h ∈ ([⟨'<', [(0, 0), (1, 0)], 0⟩, ⟨'!', [(0, 1), (1, 1)], 0⟩,
          ⟨'^', [(0, 1), (1, 0)], 0⟩] : List hint_s), h.dlx_col = 0) ∧
      per_col_dlx.after 2 2 [⟨'<', [(0, 0), (1, 0)], 0⟩, ⟨'!', [(0, 1), (1, 1)], 0⟩,
          ⟨'^', [(0, 1), (1, 0)], 0⟩] (2 ^ 2) =
        per_col_dlx 2 2 [⟨'<', [(0, 0), (1, 0)], 0⟩, ⟨'!', [(0, 1), (1, 1)], 0⟩,
          ⟨'^', [(0, 1), (1, 0)], 0⟩] ∧
      (per_col_dlx 2 2 [⟨'<', [(0, 0), (1, 0)], 0⟩, ⟨'!', [(0, 1), (1, 1)], 0⟩,
          ⟨'^', [(0, 1), (1, 0)], 0⟩]).hint =
        [⟨'<', [(0, 0), (1, 0)], 4⟩, ⟨'!', [(0, 1), (1, 1)], 0⟩, ⟨'^', [(0, 1), (1, 0)], 6⟩] ∧
      (per_col_dlx 2 2 [⟨'<', [(0, 0), (1, 0)], 0⟩, ⟨'!', [(0, 1), (1, 1)], 0⟩,
          ⟨'^', [(0, 1), (1, 0)], 0⟩]).dlx.optional = [6, 5, 4] :=
  ⟨by decide, by decide, by decide,
    (C19_optional_allocation 2 2 [⟨'<', [(0, 0), (1, 0)], 0⟩, ⟨'!', [(0, 1), (1, 1)], 0⟩,
      ⟨'^', [(0, 1), (1, 0)], 0⟩] (by decide) (by decide) (by decide)).2.2.1,
    by decide, by decide⟩

end Grizzly
